import Mathlib

/-!
# A shallow embedding of fastmap.h

This file embeds the single-header Robin Hood hash map of src/fastmap.h and
proves the specification claims about it.

Modelling conventions:

* A byte is a `Nat` (callers pass lists of values `< 256`); a stored key or
  value is a `List Nat` whose length is the map's `key_size` / `val_size`.
  `memcmp(a, b, key_size) == 0` over two `key_size`-byte buffers is list
  equality of the two byte lists.
* Machine integers are `Nat`.  `fm_wymix` takes the full 128-bit product
  explicitly mod `2 ^ 128` and folds the two 64-bit halves, exactly as the
  `__int128` branch of the C code does.  Dense indices are kept as `Nat`
  (the C code stores them as `uint32_t`; this is faithful as long as fewer
  than `2 ^ 32 - 1` entries are ever live, which the 0.80 load factor and
  address space guarantee in any real execution).
* A bucket slot is an `Option Nat`: `none` is the `FM_EMPTY_IDX` sentinel
  (`0xFFFFFFFF`), `some i` a dense index.
* Each C `while (true)` loop becomes a fuel recursion.  Fuel exhaustion
  returns `none` at the operation level and models the C loop running
  forever (which for these loops means undefined behaviour on a corrupted
  map); the fuel budgets passed by the operations are proved sufficient on
  every reachable map state.
* The load check `keys.length >= bucket_count * max_load_factor` multiplies
  a `size_t` by the `float` `0.80f` (= `13421773 * 2 ^ -24`, slightly above
  4/5).  For a power-of-two `bucket_count` the exact product
  `bucket_count * 4 / 5` is never an integer (its fractional part is at
  least 1/5), and the float rounding error is below `bucket_count * 2^-23`,
  so for every bucket count the table can reach in a real process the C
  comparison holds iff `5 * length ≥ 4 * bucket_count`, which is how the
  check is embedded.
-/

namespace Fastmap

/-- C `fm_wymix` (the `__SIZEOF_INT128__` branch): the 128-bit product of
`A` and `B`, with low and high 64-bit halves folded together by XOR. -/
def fm_wymix (A B : Nat) : Nat :=
  let res := (A * B) % 2 ^ 128
  (res % 2 ^ 64) ^^^ (res / 2 ^ 64)

/-- Little-endian value of a byte list: the `memcpy(&v, p, 8)` load of a
chunk on a little-endian target, and the shift-or tail of `fm_hash`. -/
def bytesLE (l : List Nat) : Nat :=
  l.foldr (fun b acc => b + 256 * acc) 0

/-- The chunk-and-tail loop of C `fm_hash`: consume the input in 8-byte
chunks (the first pattern is the `len >= 8` case, binding one full chunk),
then mix in the remaining 1-7 bytes if any. -/
def fm_hash_go : List Nat → Nat → Nat
  | b0 :: b1 :: b2 :: b3 :: b4 :: b5 :: b6 :: b7 :: rest, seed =>
    fm_hash_go rest
      (fm_wymix (seed ^^^ bytesLE [b0, b1, b2, b3, b4, b5, b6, b7]) 0xbf58476d1ce4e5b9)
  | [], seed => seed
  | p, seed => fm_wymix (seed ^^^ bytesLE p) 0x94d049bb133111eb

/-- C `fm_hash`: raw-byte hash of the key buffer.  `see1` is the original
length, mixed in at the very end. -/
def fm_hash (key : List Nat) : Nat :=
  fm_wymix (fm_hash_go key 0x9E3779B97F4A7C15) key.length

/-- Little-endian byte decomposition of a machine word of `width` bytes. -/
def natBytesLE (n width : Nat) : List Nat :=
  (List.range width).map (fun i => n / 256 ^ i % 256)

/-- C `fm_hash_float`, on the IEEE-754 binary32 bit pattern of the
argument.  `val == 0.0f` is IEEE equality, true exactly for the two zero
bit patterns `0x00000000` and `0x80000000` (NaNs compare unequal to 0), and
the assignment `val = 0.0f` then stores positive zero, so the conditional
normalizes negative zero to positive zero before hashing the 4 bytes. -/
def fm_hash_float (bits : Nat) : Nat :=
  let nbits := if bits = 0x00000000 ∨ bits = 0x80000000 then 0x00000000 else bits
  fm_hash (natBytesLE nbits 4)

/-- C `fm_hash_double`, on the IEEE-754 binary64 bit pattern: same
normalization of `-0.0` (bit pattern `0x8000000000000000`) to `+0.0`. -/
def fm_hash_double (bits : Nat) : Nat :=
  let nbits := if bits = 0 ∨ bits = 0x8000000000000000 then 0 else bits
  fm_hash (natBytesLE nbits 8)

/-- C `fm_vector`, one dense growable array: the live elements plus the
allocated capacity (the `stride` is carried by the element type). -/
structure fm_vector (α : Type) where
  data : List α
  capacity : Nat
deriving DecidableEq

/-- C `fm_vec_push`: grow (double, minimum 8) when full, then append. -/
def fm_vec_push {α : Type} (v : fm_vector α) (item : α) : fm_vector α :=
  { data := v.data ++ [item]
    capacity :=
      if v.capacity ≤ v.data.length then (if v.capacity = 0 then 8 else v.capacity * 2)
      else v.capacity }

/-- C `_FastMap`: three index-parallel dense vectors, the sparse bucket
array, and the size metadata.  The `max_load_factor` field is the constant
`0.80f` set by `fm_init` and never changed; it is folded into the load
check inside `fm_put` (see the header comment). -/
structure _FastMap where
  keys : fm_vector (List Nat)
  values : fm_vector (List Nat)
  hashes : fm_vector Nat
  buckets : List (Option Nat)
  bucket_count : Nat
  bucket_mask : Nat
  key_size : Nat
  val_size : Nat
deriving DecidableEq

/-- C `fm_init`: 16 empty buckets, three empty vectors of capacity 8. -/
def fm_init (key_size val_size : Nat) : _FastMap :=
  { keys := { data := [], capacity := 8 }
    values := { data := [], capacity := 8 }
    hashes := { data := [], capacity := 8 }
    buckets := List.replicate 16 none
    bucket_count := 16
    bucket_mask := 15
    key_size := key_size
    val_size := val_size }

/-- Loop body of C `fm_place_index` (Robin Hood placement), with explicit
fuel.  An empty slot takes the carried index; a "richer" incumbent
(strictly smaller probe distance) is evicted and carried onward with its
own distance. -/
def fm_place_index_go (hashes : List Nat) (mask : Nat) :
    List (Option Nat) → Nat → Nat → Nat → Nat → Option (List (Option Nat))
  | _, _, _, _, 0 => none
  | buckets, bucket_idx, dist, vec_idx, fuel + 1 =>
    match buckets.getD bucket_idx none with
    | none => some (buckets.set bucket_idx (some vec_idx))
    | some existing_idx =>
      let existing_hash := hashes.getD existing_idx 0
      let ideal_idx := existing_hash &&& mask
      let existing_dist := (bucket_idx + mask + 1 - ideal_idx) &&& mask
      if existing_dist < dist then
        fm_place_index_go hashes mask (buckets.set bucket_idx (some vec_idx))
          ((bucket_idx + 1) &&& mask) (existing_dist + 1) existing_idx fuel
      else
        fm_place_index_go hashes mask buckets ((bucket_idx + 1) &&& mask) (dist + 1) vec_idx fuel

/-- C `fm_place_index`: start probing at `hash & mask` with distance 0.
The fuel `mask + 2` exceeds the bucket count and is proved sufficient
whenever the bucket array has an empty slot. -/
def fm_place_index (buckets : List (Option Nat)) (mask hash vec_idx : Nat)
    (hashes : List Nat) : Option (List (Option Nat)) :=
  fm_place_index_go hashes mask buckets (hash &&& mask) 0 vec_idx (mask + 2)

/-- The re-insertion loop of C `fm_resize`: place each dense index in
order, reading its cached digest from `hashes`. -/
def fm_resize_loop (hashes : List Nat) (new_mask : Nat) :
    List (Option Nat) → List Nat → Option (List (Option Nat))
  | bkts, [] => some bkts
  | bkts, i :: rest =>
    match fm_place_index bkts new_mask (hashes.getD i 0) i hashes with
    | none => none
    | some b2 => fm_resize_loop hashes new_mask b2 rest

/-- C `fm_resize`: fresh all-empty bucket array of the new capacity, then
re-place every live dense index `0, …, length-1` from its cached digest.
The dense vectors are not touched. -/
def fm_resize (m : _FastMap) (new_capacity : Nat) : Option _FastMap :=
  let new_mask := new_capacity - 1
  match fm_resize_loop m.hashes.data new_mask (List.replicate new_capacity none)
      (List.range m.keys.data.length) with
  | none => none
  | some b =>
    some { m with buckets := b, bucket_count := new_capacity, bucket_mask := new_mask }

/-- Outcome of the probe loop at the top of C `fm_put`: update the value of
dense index `idx` in place, or fall through to insert-as-new. -/
inductive PutProbe where
  | update (idx : Nat)
  | insert
deriving DecidableEq

/-- The probe loop of C `fm_put` (steps 2-3): stop with `insert` on an
empty slot or on the Robin Hood early exit, stop with `update` on an exact
byte match, otherwise advance. -/
def fm_put_probe (m : _FastMap) (key : List Nat) :
    Nat → Nat → Nat → Option PutProbe
  | _, _, 0 => none
  | bucket_idx, dist, fuel + 1 =>
    match m.buckets.getD bucket_idx none with
    | none => some PutProbe.insert
    | some idx =>
      let existing_hash := m.hashes.data.getD idx 0
      let ideal_idx := existing_hash &&& m.bucket_mask
      let existing_dist := (bucket_idx + m.bucket_mask + 1 - ideal_idx) &&& m.bucket_mask
      if existing_dist < dist then some PutProbe.insert
      else if m.keys.data.getD idx [] = key then some (PutProbe.update idx)
      else fm_put_probe m key ((bucket_idx + 1) &&& m.bucket_mask) (dist + 1) fuel

/-- C `fm_put`: load-factor check and possible resize first, then probe;
on a match overwrite the value in place, otherwise append to the three
dense vectors and place the new index.  (`Option.bind` and `Option.map`
just chain the fuel-failure cases of the nested loops.) -/
def fm_put (m0 : _FastMap) (key value : List Nat) : Option _FastMap :=
  (if 5 * m0.keys.data.length ≥ 4 * m0.bucket_count
    then fm_resize m0 (m0.bucket_count * 2) else some m0).bind
    (fun m =>
      let hash := fm_hash key
      match fm_put_probe m key (hash &&& m.bucket_mask) 0 (m.bucket_mask + 2) with
      | none => none
      | some (PutProbe.update idx) =>
        some { m with values := { m.values with data := m.values.data.set idx value } }
      | some PutProbe.insert =>
        let new_idx := m.keys.data.length
        let m2 := { m with
          keys := fm_vec_push m.keys key
          values := fm_vec_push m.values value
          hashes := fm_vec_push m.hashes hash }
        (fm_place_index m2.buckets m2.bucket_mask hash new_idx m2.hashes.data).map
          (fun b => { m2 with buckets := b }))

/-- The probe loop of C `fm_get`: byte comparison first, then the Robin
Hood early exit. -/
def fm_get_go (m : _FastMap) (key : List Nat) :
    Nat → Nat → Nat → Option (List Nat)
  | _, _, 0 => none
  | bucket_idx, dist, fuel + 1 =>
    match m.buckets.getD bucket_idx none with
    | none => none
    | some idx =>
      if m.keys.data.getD idx [] = key then some (m.values.data.getD idx [])
      else
        let existing_hash := m.hashes.data.getD idx 0
        let ideal_idx := existing_hash &&& m.bucket_mask
        let existing_dist := (bucket_idx + m.bucket_mask + 1 - ideal_idx) &&& m.bucket_mask
        if existing_dist < dist then none
        else fm_get_go m key ((bucket_idx + 1) &&& m.bucket_mask) (dist + 1) fuel

/-- C `fm_get`: `some` of the stored value bytes on a hit (the C function
returns a non-NULL interior pointer), `none` for NULL. -/
def fm_get (m : _FastMap) (key : List Nat) : Option (List Nat) :=
  let hash := fm_hash key
  fm_get_go m key (hash &&& m.bucket_mask) 0 (m.bucket_mask + 2)

/-- Scan loop of C `fm_update_bucket_for_moved_item`: walk forward from
the moved entry's ideal slot until the slot holding `old_vec_idx` is
found, and repoint it. -/
def fm_update_bucket_go (buckets : List (Option Nat)) (mask old_vec_idx new_vec_idx : Nat) :
    Nat → Nat → Option (List (Option Nat))
  | _, 0 => none
  | bucket_idx, fuel + 1 =>
    if buckets.getD bucket_idx none = some old_vec_idx then
      some (buckets.set bucket_idx (some new_vec_idx))
    else fm_update_bucket_go buckets mask old_vec_idx new_vec_idx
      ((bucket_idx + 1) &&& mask) fuel

/-- C `fm_update_bucket_for_moved_item`: locate the bucket referencing the
dense index that was moved by swap-and-pop, starting from the moved item's
cached digest. -/
def fm_update_bucket_for_moved_item (m : _FastMap) (old_vec_idx new_vec_idx : Nat) :
    Option (List (Option Nat)) :=
  let hash := m.hashes.data.getD new_vec_idx 0
  fm_update_bucket_go m.buckets m.bucket_mask old_vec_idx new_vec_idx
    (hash &&& m.bucket_mask) (m.bucket_mask + 2)

/-- The backward-shift loop of C `fm_erase` (part B): scan forward from
the vacated slot; move an entry back into the hole when that strictly
shortens its distance to its ideal slot; stop and mark the hole empty when
an empty slot is reached. -/
def fm_backshift_go (hashes : List Nat) (mask bucket_count : Nat) :
    List (Option Nat) → Nat → Nat → Nat → Option (List (Option Nat))
  | _, _, _, 0 => none
  | buckets, hole_idx, next_idx, fuel + 1 =>
    match buckets.getD next_idx none with
    | none => some (buckets.set hole_idx none)
    | some next_val =>
      let next_hash := hashes.getD next_val 0
      let ideal_idx := next_hash &&& mask
      let dist_to_hole := (hole_idx + bucket_count - ideal_idx) &&& mask
      let dist_to_next := (next_idx + bucket_count - ideal_idx) &&& mask
      if dist_to_hole < dist_to_next then
        fm_backshift_go hashes mask bucket_count (buckets.set hole_idx (some next_val))
          next_idx ((next_idx + 1) &&& mask) fuel
      else
        fm_backshift_go hashes mask bucket_count buckets hole_idx
          ((next_idx + 1) &&& mask) fuel

/-- Outcome of the probe loop of C `fm_erase`. -/
inductive EraseProbe where
  | notFound
  | found (bucket_idx vec_idx : Nat)
deriving DecidableEq

/-- The probe loop of C `fm_erase`: early exit first, then byte match. -/
def fm_erase_probe (m : _FastMap) (key : List Nat) :
    Nat → Nat → Nat → Option EraseProbe
  | _, _, 0 => none
  | bucket_idx, dist, fuel + 1 =>
    match m.buckets.getD bucket_idx none with
    | none => some EraseProbe.notFound
    | some vec_idx =>
      let existing_hash := m.hashes.data.getD vec_idx 0
      let ideal_idx := existing_hash &&& m.bucket_mask
      let existing_dist := (bucket_idx + m.bucket_mask + 1 - ideal_idx) &&& m.bucket_mask
      if existing_dist < dist then some EraseProbe.notFound
      else if m.keys.data.getD vec_idx [] = key then
        some (EraseProbe.found bucket_idx vec_idx)
      else fm_erase_probe m key ((bucket_idx + 1) &&& m.bucket_mask) (dist + 1) fuel

/-- C `fm_erase`: probe; on a miss return `false` with the map untouched;
on a match swap-and-pop the dense vectors (repointing the bucket of the
moved last entry), shrink the three lengths, and run the backward-shift
repair from the vacated bucket. -/
def fm_erase (m : _FastMap) (key : List Nat) : Option (Bool × _FastMap) :=
  let hash := fm_hash key
  match fm_erase_probe m key (hash &&& m.bucket_mask) 0 (m.bucket_mask + 2) with
  | none => none
  | some EraseProbe.notFound => some (false, m)
  | some (EraseProbe.found bucket_idx vec_idx) =>
    let last_vec_idx := m.keys.data.length - 1
    (if vec_idx ≠ last_vec_idx then
        let m1 := { m with
          keys := { m.keys with
            data := m.keys.data.set vec_idx (m.keys.data.getD last_vec_idx []) }
          values := { m.values with
            data := m.values.data.set vec_idx (m.values.data.getD last_vec_idx []) }
          hashes := { m.hashes with
            data := m.hashes.data.set vec_idx (m.hashes.data.getD last_vec_idx 0) } }
        (fm_update_bucket_for_moved_item m1 last_vec_idx vec_idx).map
          (fun b => { m1 with buckets := b })
      else some m).bind
      (fun m2 =>
        let m3 := { m2 with
          keys := { m2.keys with data := m2.keys.data.dropLast }
          values := { m2.values with data := m2.values.data.dropLast }
          hashes := { m2.hashes with data := m2.hashes.data.dropLast } }
        (fm_backshift_go m3.hashes.data m3.bucket_mask m3.bucket_count m3.buckets
            bucket_idx ((bucket_idx + 1) &&& m3.bucket_mask) (m3.bucket_mask + 2)).map
          (fun b => (true, { m3 with buckets := b })))

/-- Map states reachable from `fm_init` by the public operations (plus the
internal `fm_resize` at the doubled capacity its only caller uses).  A
`some` result is required: `none` models a C loop that would not
terminate, and is proved impossible from reachable states below. -/
inductive Reachable : _FastMap → Prop where
  | init (key_size val_size : Nat) : Reachable (fm_init key_size val_size)
  | put {m m2 : _FastMap} {k v : List Nat} : Reachable m →
      k.length = m.key_size → v.length = m.val_size →
      fm_put m k v = some m2 → Reachable m2
  | erase {m m2 : _FastMap} {k : List Nat} {b : Bool} : Reachable m →
      k.length = m.key_size →
      fm_erase m k = some (b, m2) → Reachable m2
  | resize {m m2 : _FastMap} : Reachable m →
      fm_resize m (m.bucket_count * 2) = some m2 → Reachable m2

/-- Run a sequence of `fm_put` calls. -/
def putsFrom (m : _FastMap) : List (List Nat × List Nat) → Option _FastMap
  | [] => some m
  | (k, v) :: rest =>
    match fm_put m k v with
    | none => none
    | some m2 => putsFrom m2 rest

/-- Cyclic probe distance: number of forward steps from the ideal slot
`ideal` to the slot `pos` in a table of `n` buckets (the C expression
`(pos + mask + 1 - ideal) & mask` for `ideal ≤ mask`, `n = mask + 1`). -/
def cdist (n pos ideal : Nat) : Nat := (pos + n - ideal) % n

/-- The Robin Hood probe-path invariant, slot-wise: every occupied slot
`t` is reachable from its entry's ideal slot by walking forward across
occupied slots only, and every slot crossed holds an entry whose own
probe distance is at least the walker's distance at that slot.  This is
exactly what makes the probe loops of get/put/erase find every stored
key: they never meet an empty slot or take the Robin Hood early exit
before reaching it. -/
def SlotPath (H : List Nat) (n : Nat) (b : List (Option Nat)) : Prop :=
  ∀ t i : Nat, t < n → b.getD t none = some i →
    ∀ o, o < cdist n t (H.getD i 0 % n) →
      ∃ y, b.getD ((H.getD i 0 % n + o) % n) none = some y ∧
        o ≤ cdist n ((H.getD i 0 % n + o) % n) (H.getD y 0 % n)

/-- The probe-path invariant weakened at one distinguished slot `hole`:
during the backward-shift repair of `fm_erase` every entry other than the
stale one sitting in `hole` still has a valid probe path, except that the
path may cross `hole`, where no distance guarantee is demanded. -/
def SlotPathExcept (H : List Nat) (n : Nat) (b : List (Option Nat)) (hole : Nat) : Prop :=
  ∀ t i : Nat, t < n → t ≠ hole → b.getD t none = some i →
    ∀ o, o < cdist n t (H.getD i 0 % n) →
      (H.getD i 0 % n + o) % n = hole ∨
      ∃ y, b.getD ((H.getD i 0 % n + o) % n) none = some y ∧
        o ≤ cdist n ((H.getD i 0 % n + o) % n) (H.getD y 0 % n)

/-- All keys stored in the dense vector are pairwise distinct. -/
def KeysDistinct (m : _FastMap) : Prop :=
  ∀ i j : Nat, i < j → j < m.keys.data.length →
    m.keys.data.getD i [] ≠ m.keys.data.getD j []

/-! ## The structural well-formedness invariant

`WF m` collects the representation invariants that every reachable map
state satisfies: power-of-two bucket count with matching mask, the three
dense vectors in lockstep with correctly cached digests, the non-empty
bucket slots forming a bijection onto the live dense positions, and the
load-factor bound (which is exceeded by at most the single pending insert,
see `fm_put_load`). -/

structure WF (m : _FastMap) : Prop where
  bc_pow : ∃ k, 4 ≤ k ∧ m.bucket_count = 2 ^ k
  mask_eq : m.bucket_mask + 1 = m.bucket_count
  buckets_len : m.buckets.length = m.bucket_count
  len_vals : m.values.data.length = m.keys.data.length
  len_hashes : m.hashes.data.length = m.keys.data.length
  key_len : ∀ key ∈ m.keys.data, key.length = m.key_size
  val_len : ∀ v ∈ m.values.data, v.length = m.val_size
  hash_cache : ∀ i < m.keys.data.length, m.hashes.data.getD i 0 = fm_hash (m.keys.data.getD i [])
  slot_valid : ∀ i : Nat, some i ∈ m.buckets → i < m.keys.data.length
  slot_count : ∀ i < m.keys.data.length, m.buckets.count (some i) = 1
  empties : m.buckets.count none + m.keys.data.length = m.bucket_count
  load : 5 * m.keys.data.length ≤ 4 * m.bucket_count + 5

/-- The map over 1-byte keys and values holding the single entry 5 ↦ 7,
used as a concrete state below. -/
def wmap1 : _FastMap := (fm_put (fm_init 1 1) [5] [7]).getD (fm_init 1 1)

/-- Thirteen puts with the distinct 1-byte keys 0, …, 12. -/
def puts13 : List (List Nat × List Nat) := (List.range 13).map (fun i => ([i], [i]))

/-! ## Basic lemmas about masks and list primitives -/

/-- `x & mask` is `x mod 2^k` when `mask = 2^k - 1`, the fast-modulo trick
the C code relies on. -/
theorem and_mask_eq_mod {mask : Nat} (Hm : ∃ k, mask + 1 = 2 ^ k) (x : Nat) :
    x &&& mask = x % (mask + 1) := by
  obtain ⟨k, hk⟩ := Hm
  have hmask : mask = 2 ^ k - 1 := by omega
  rw [hmask, Nat.and_pow_two_sub_one_eq_mod]
  congr 1
  omega

theorem and_mask_le (x mask : Nat) : x &&& mask ≤ mask := Nat.and_le_right

theorem mod_mask_le (x mask : Nat) : x % (mask + 1) ≤ mask :=
  Nat.le_of_lt_succ (Nat.mod_lt _ (Nat.succ_pos mask))

theorem getD_set_self {α : Type} (l : List α) (i : Nat) (a d : α) (h : i < l.length) :
    (l.set i a).getD i d = a := by
  rw [List.getD_eq_getElem?_getD, List.getElem?_set_self (by simpa using h)]
  rfl

theorem getD_set_ne {α : Type} (l : List α) {i j : Nat} (a : α) (d : α) (h : i ≠ j) :
    (l.set i a).getD j d = l.getD j d := by
  rw [List.getD_eq_getElem?_getD, List.getElem?_set_ne h, ← List.getD_eq_getElem?_getD]

theorem getD_mem_or {α : Type} (l : List α) (i : Nat) (d : α) :
    l.getD i d ∈ l ∨ l.getD i d = d := by
  rcases Nat.lt_or_ge i l.length with h | h
  · left
    rw [List.getD_eq_getElem?_getD, List.getElem?_eq_getElem h]
    exact List.getElem_mem h
  · right
    rw [List.getD_eq_getElem?_getD, List.getElem?_eq_none (by simpa using h)]
    rfl

theorem getD_append_lt {α : Type} (l₁ l₂ : List α) (i : Nat) (d : α) (h : i < l₁.length) :
    (l₁ ++ l₂).getD i d = l₁.getD i d := by
  rw [List.getD_eq_getElem?_getD, List.getD_eq_getElem?_getD, List.getElem?_append_left h]

theorem getD_append_right {α : Type} (l₁ l₂ : List α) (i : Nat) (d : α)
    (h : l₁.length ≤ i) : (l₁ ++ l₂).getD i d = l₂.getD (i - l₁.length) d := by
  rw [List.getD_eq_getElem?_getD, List.getD_eq_getElem?_getD, List.getElem?_append_right h]

theorem getD_dropLast {α : Type} (l : List α) (i : Nat) (d : α) (h : i + 1 < l.length) :
    l.dropLast.getD i d = l.getD i d := by
  rw [List.getD_eq_getElem?_getD, List.getD_eq_getElem?_getD]
  have hlen : i < l.dropLast.length := by
    rw [List.length_dropLast]; omega
  rw [List.getElem?_eq_getElem hlen, List.getElem?_eq_getElem (by omega),
    List.getElem_dropLast]

theorem count_pos_iff_mem {α : Type} [BEq α] [LawfulBEq α] {l : List α} {a : α} :
    0 < l.count a ↔ a ∈ l := List.count_pos_iff

/-- Replacing position `i` (in range) removes one occurrence of the old
element and adds one of the new: stated additively to avoid `Nat`
subtraction. -/
theorem count_set_add {α : Type} [BEq α] [LawfulBEq α] [DecidableEq α]
    (l : List α) (i : Nat) (a b d : α) (h : i < l.length) :
    (l.set i a).count b + (if l.getD i d = b then 1 else 0) =
      l.count b + (if a = b then 1 else 0) := by
  have hGet : l.getD i d = l[i] := by
    rw [List.getD_eq_getElem?_getD, List.getElem?_eq_getElem h]
    rfl
  have hcount := List.count_set (α := α) a b l i h
  have hpos : l[i] = b → 1 ≤ l.count b := by
    intro hb
    exact count_pos_iff_mem.2 (hb ▸ List.getElem_mem h)
  simp only [beq_iff_eq] at hcount
  rw [hGet, hcount]
  by_cases h1 : l[i] = b
  · have h3 := hpos h1
    by_cases h2 : a = b <;> simp only [h1, h2, if_true, if_false] <;> omega
  · by_cases h2 : a = b <;> simp only [h1, h2, if_true, if_false] <;> omega

theorem count_eq_zero_of_not_mem {α : Type} [BEq α] [LawfulBEq α] {l : List α} {a : α}
    (h : a ∉ l) : l.count a = 0 := List.count_eq_zero.2 h

/-- An element retrieved by `getD` at an in-range position is a member. -/
theorem getD_mem {α : Type} (l : List α) (i : Nat) (d : α) (h : i < l.length) :
    l.getD i d ∈ l := by
  rw [List.getD_eq_getElem?_getD, List.getElem?_eq_getElem h]
  exact List.getElem_mem h

theorem WF.bc_pos {m : _FastMap} (w : WF m) : 16 ≤ m.bucket_count := by
  obtain ⟨k, hk, hbc⟩ := w.bc_pow
  calc 16 = 2 ^ 4 := rfl
  _ ≤ 2 ^ k := Nat.pow_le_pow_right (by omega) hk
  _ = m.bucket_count := hbc.symm

theorem WF.len_lt_bc {m : _FastMap} (w : WF m) : m.keys.data.length < m.bucket_count := by
  have h1 := w.load
  have h2 := w.bc_pos
  omega

theorem WF.mask_pow {m : _FastMap} (w : WF m) : ∃ k, m.bucket_mask + 1 = 2 ^ k := by
  obtain ⟨k, _, hbc⟩ := w.bc_pow
  exact ⟨k, by rw [w.mask_eq, hbc]⟩

theorem WF.empty_exists {m : _FastMap} (w : WF m) : 0 < m.buckets.count none := by
  have h1 := w.empties
  have h2 := w.len_lt_bc
  omega

/-! ## Lemmas about the Robin Hood placement loop -/

theorem fm_place_index_go_length (hashes : List Nat) (mask : Nat) :
    ∀ (fuel : Nat) (b : List (Option Nat)) (pos dist x : Nat) (b2 : List (Option Nat)),
      fm_place_index_go hashes mask b pos dist x fuel = some b2 → b2.length = b.length := by
  intro fuel
  induction fuel with
  | zero => intro b pos dist x b2 h; simp [fm_place_index_go] at h
  | succ fuel ih =>
    intro b pos dist x b2 h
    rw [fm_place_index_go] at h
    rcases hb : b.getD pos none with _ | existing
    · rw [hb] at h
      simp only [Option.some.injEq] at h
      rw [← h, List.length_set]
    · rw [hb] at h
      simp only at h
      split at h
      · have := ih _ _ _ _ _ h
        rw [this, List.length_set]
      · exact ih _ _ _ _ _ h

/-- Placement adds exactly one reference to the carried index and leaves
every other reference count unchanged. -/
theorem fm_place_index_go_count (hashes : List Nat) (mask : Nat) :
    ∀ (fuel : Nat) (b : List (Option Nat)) (pos dist x : Nat) (b2 : List (Option Nat)),
      b.length = mask + 1 → pos ≤ mask →
      fm_place_index_go hashes mask b pos dist x fuel = some b2 →
      ∀ j : Nat, b2.count (some j) = b.count (some j) + (if x = j then 1 else 0) := by
  intro fuel
  induction fuel with
  | zero => intro b pos dist x b2 _ _ h; simp [fm_place_index_go] at h
  | succ fuel ih =>
    intro b pos dist x b2 hlen hpos h j
    have hposlt : pos < b.length := by omega
    rw [fm_place_index_go] at h
    rcases hb : b.getD pos none with _ | existing
    · rw [hb] at h
      simp only [Option.some.injEq] at h
      have := count_set_add b pos (some x) (some j) none hposlt
      rw [hb] at this
      simp only [reduceCtorEq, if_false, Option.some.injEq] at this
      rw [← h]
      omega
    · rw [hb] at h
      simp only at h
      split at h
      · have hrec := ih _ _ _ _ _ (by rw [List.length_set]; omega)
          (and_mask_le _ _) h j
        have := count_set_add b pos (some x) (some j) none hposlt
        rw [hb] at this
        simp only [Option.some.injEq] at this
        by_cases hxj : x = j <;> by_cases hej : existing = j <;>
          simp only [hxj, hej, if_true, if_false] at this hrec ⊢ <;> omega
      · exact ih _ _ _ _ _ hlen (and_mask_le _ _) h j

/-- Placement consumes exactly one empty slot. -/
theorem fm_place_index_go_count_none (hashes : List Nat) (mask : Nat) :
    ∀ (fuel : Nat) (b : List (Option Nat)) (pos dist x : Nat) (b2 : List (Option Nat)),
      b.length = mask + 1 → pos ≤ mask →
      fm_place_index_go hashes mask b pos dist x fuel = some b2 →
      b2.count none + 1 = b.count none := by
  intro fuel
  induction fuel with
  | zero => intro b pos dist x b2 _ _ h; simp [fm_place_index_go] at h
  | succ fuel ih =>
    intro b pos dist x b2 hlen hpos h
    have hposlt : pos < b.length := by omega
    rw [fm_place_index_go] at h
    rcases hb : b.getD pos none with _ | existing
    · rw [hb] at h
      simp only [Option.some.injEq] at h
      have := count_set_add b pos (some x) none none hposlt
      rw [hb] at this
      simp only [reduceCtorEq, if_false, if_true] at this
      rw [← h]
      omega
    · rw [hb] at h
      simp only at h
      split at h
      · have hrec := ih _ _ _ _ _ (by rw [List.length_set]; omega)
          (and_mask_le _ _) h
        have := count_set_add b pos (some x) none none hposlt
        rw [hb] at this
        simp only [reduceCtorEq, if_false] at this
        omega
      · exact ih _ _ _ _ _ hlen (and_mask_le _ _) h

/-- The placement loop succeeds whenever some empty slot lies within both
the fuel budget and one full cycle of the table. -/
theorem fm_place_index_go_some (hashes : List Nat) (mask : Nat)
    (Hm : ∃ k, mask + 1 = 2 ^ k) :
    ∀ (fuel : Nat) (b : List (Option Nat)) (pos dist x : Nat),
      b.length = mask + 1 → pos ≤ mask →
      (∃ t, t < fuel ∧ t ≤ mask ∧ b.getD ((pos + t) % (mask + 1)) none = none) →
      ∃ b2, fm_place_index_go hashes mask b pos dist x fuel = some b2 := by
  intro fuel
  induction fuel with
  | zero => intro b pos dist x _ _ ⟨t, ht, _, _⟩; omega
  | succ fuel ih =>
    intro b pos dist x hlen hpos ⟨t, htf, htm, hempty⟩
    rw [fm_place_index_go]
    rcases hb : b.getD pos none with _ | existing
    · exact ⟨_, rfl⟩
    · have ht0 : t ≠ 0 := by
        intro h0
        rw [h0, Nat.add_zero, Nat.mod_eq_of_lt (by omega)] at hempty
        rw [hb] at hempty
        exact Option.noConfusion hempty
      have hstep : ((pos + 1) &&& mask) ≤ mask := and_mask_le _ _
      have hstepmod : (pos + 1) &&& mask = (pos + 1) % (mask + 1) := and_mask_eq_mod Hm _
      have hshift : ∀ (b3 : List (Option Nat)), b3.length = mask + 1 →
          b3.getD ((pos + t) % (mask + 1)) none = none →
          ∃ t2, t2 < fuel ∧ t2 ≤ mask ∧
            b3.getD ((((pos + 1) &&& mask) + t2) % (mask + 1)) none = none := by
        intro b3 _ hb3
        refine ⟨t - 1, by omega, by omega, ?_⟩
        rw [hstepmod]
        have : ((pos + 1) % (mask + 1) + (t - 1)) % (mask + 1) = (pos + t) % (mask + 1) := by
          rw [Nat.mod_add_mod]
          congr 1
          omega
        rw [this]
        exact hb3
      simp only
      split
      · have hset2 : (b.set pos (some x)).getD ((pos + t) % (mask + 1)) none = none := by
          rw [getD_set_ne]
          · exact hempty
          · intro hcontra
            rcases Nat.lt_or_ge (pos + t) (mask + 1) with hlt | hge
            · rw [Nat.mod_eq_of_lt hlt] at hcontra
              omega
            · have hm2 : (pos + t) % (mask + 1) = pos + t - (mask + 1) := by
                rw [Nat.mod_eq_sub_mod hge, Nat.mod_eq_of_lt (by omega)]
              rw [hm2] at hcontra
              omega
        exact ih _ _ _ _ (by rw [List.length_set]; omega) hstep
          (hshift _ (by rw [List.length_set]; omega) hset2)
      · exact ih _ _ _ _ hlen hstep (hshift _ hlen hempty)

/-- Any slot is reachable from any start position in less than one full
cycle of `+1 mod n` steps. -/
theorem cyc_dist_exists {n pos q : Nat} (hp : pos < n) (hq : q < n) :
    ∃ t, t < n ∧ (pos + t) % n = q := by
  refine ⟨(q + n - pos) % n, Nat.mod_lt _ (by omega), ?_⟩
  rw [Nat.add_mod_mod]
  have h1 : pos + (q + n - pos) = q + n := by omega
  rw [h1, Nat.add_mod_right, Nat.mod_eq_of_lt hq]

theorem mem_exists_getD {α : Type} (l : List α) (a d : α) (ha : a ∈ l) :
    ∃ q, q < l.length ∧ l.getD q d = a := by
  obtain ⟨i, hi, hEq⟩ := List.mem_iff_getElem.1 ha
  refine ⟨i, hi, ?_⟩
  rw [List.getD_eq_getElem?_getD, List.getElem?_eq_getElem hi]
  exact hEq

/-! ## Lemmas about the resize re-insertion loop -/

theorem fm_resize_loop_length (hashes : List Nat) (mask : Nat) :
    ∀ (l : List Nat) (bkts b2 : List (Option Nat)),
      fm_resize_loop hashes mask bkts l = some b2 → b2.length = bkts.length := by
  intro l
  induction l with
  | nil => intro bkts b2 h; simp [fm_resize_loop] at h; rw [h]
  | cons i rest ih =>
    intro bkts b2 h
    rw [fm_resize_loop] at h
    rcases hp : fm_place_index bkts mask (hashes.getD i 0) i hashes with _ | b1
    · rw [hp] at h; exact Option.noConfusion h
    · rw [hp] at h
      have h1 := fm_place_index_go_length hashes mask _ _ _ _ _ _ hp
      rw [ih _ _ h, h1]

theorem fm_resize_loop_count (hashes : List Nat) (mask : Nat) :
    ∀ (l : List Nat) (bkts b2 : List (Option Nat)),
      bkts.length = mask + 1 →
      fm_resize_loop hashes mask bkts l = some b2 →
      ∀ j : Nat, b2.count (some j) = bkts.count (some j) + l.count j := by
  intro l
  induction l with
  | nil =>
    intro bkts b2 _ h j
    simp only [fm_resize_loop, Option.some.injEq] at h
    simp [← h]
  | cons i rest ih =>
    intro bkts b2 hlen h j
    rw [fm_resize_loop] at h
    rcases hp : fm_place_index bkts mask (hashes.getD i 0) i hashes with _ | b1
    · rw [hp] at h; exact Option.noConfusion h
    · rw [hp] at h
      have hlen1 : b1.length = mask + 1 := by
        rw [fm_place_index_go_length hashes mask _ _ _ _ _ _ hp]; omega
      have h1 := fm_place_index_go_count hashes mask _ _ _ _ _ _ hlen
        (and_mask_le _ _) hp j
      have h2 := ih _ _ hlen1 h j
      rw [h2, h1, List.count_cons]
      by_cases hij : i = j <;> simp [hij] <;> omega

theorem fm_resize_loop_count_none (hashes : List Nat) (mask : Nat) :
    ∀ (l : List Nat) (bkts b2 : List (Option Nat)),
      bkts.length = mask + 1 →
      fm_resize_loop hashes mask bkts l = some b2 →
      b2.count none + l.length = bkts.count none := by
  intro l
  induction l with
  | nil =>
    intro bkts b2 _ h
    simp only [fm_resize_loop, Option.some.injEq] at h
    simp [← h]
  | cons i rest ih =>
    intro bkts b2 hlen h
    rw [fm_resize_loop] at h
    rcases hp : fm_place_index bkts mask (hashes.getD i 0) i hashes with _ | b1
    · rw [hp] at h; exact Option.noConfusion h
    · rw [hp] at h
      have hlen1 : b1.length = mask + 1 := by
        rw [fm_place_index_go_length hashes mask _ _ _ _ _ _ hp]; omega
      have h1 := fm_place_index_go_count_none hashes mask _ _ _ _ _ _ hlen
        (and_mask_le _ _) hp
      have h2 := ih _ _ hlen1 h
      simp only [List.length_cons]
      omega

theorem fm_resize_loop_some (hashes : List Nat) (mask : Nat)
    (Hm : ∃ k, mask + 1 = 2 ^ k) :
    ∀ (l : List Nat) (bkts : List (Option Nat)),
      bkts.length = mask + 1 →
      l.length ≤ bkts.count none →
      ∃ b2, fm_resize_loop hashes mask bkts l = some b2 := by
  intro l
  induction l with
  | nil => intro bkts _ _; exact ⟨bkts, rfl⟩
  | cons i rest ih =>
    intro bkts hlen hcnt
    have hempty : 0 < bkts.count none := by
      simp only [List.length_cons] at hcnt; omega
    obtain ⟨q, hqlen, hq⟩ := mem_exists_getD bkts none none (count_pos_iff_mem.1 hempty)
    have hposlt : (hashes.getD i 0 &&& mask) < mask + 1 :=
      Nat.lt_succ_of_le (and_mask_le _ _)
    obtain ⟨t, htlt, ht⟩ := cyc_dist_exists (n := mask + 1) hposlt (show q < mask + 1 by omega)
    obtain ⟨b1, hb1⟩ := fm_place_index_go_some hashes mask Hm (mask + 2) bkts
      (hashes.getD i 0 &&& mask) 0 i hlen (and_mask_le _ _)
      ⟨t, by omega, by omega, by rw [ht]; exact hq⟩
    rw [fm_resize_loop]
    simp only [fm_place_index]
    rw [hb1]
    have hlen1 : b1.length = mask + 1 := by
      rw [fm_place_index_go_length hashes mask _ _ _ _ _ _ hb1]; omega
    have hcnt1 := fm_place_index_go_count_none hashes mask _ _ _ _ _ _ hlen
      (and_mask_le _ _) hb1
    exact ih b1 hlen1 (by simp only [List.length_cons] at hcnt; omega)

/-! ## Lemmas about the probe loops of put, get and erase

Each probe loop advances its distance counter by one per step while every
incumbent's probe distance is at most `bucket_mask`, so within
`bucket_mask + 2` iterations it must hit an empty slot, a match, or the
Robin Hood early exit: the fuel the operations pass never runs out. -/

theorem fm_put_probe_some (m : _FastMap) (key : List Nat) :
    ∀ (fuel pos dist : Nat), dist ≤ m.bucket_mask + 1 →
      m.bucket_mask + 2 ≤ fuel + dist →
      ∃ r, fm_put_probe m key pos dist fuel = some r := by
  intro fuel
  induction fuel with
  | zero => intro pos dist h1 h2; omega
  | succ fuel ih =>
    intro pos dist h1 h2
    rw [fm_put_probe]
    rcases hb : m.buckets.getD pos none with _ | idx
    · exact ⟨_, rfl⟩
    · simp only
      split
      · exact ⟨_, rfl⟩
      · split
        · exact ⟨_, rfl⟩
        · rename_i hnlt _
          have hle : (pos + m.bucket_mask + 1 - (m.hashes.data.getD idx 0 &&& m.bucket_mask))
              &&& m.bucket_mask ≤ m.bucket_mask := and_mask_le _ _
          exact ih _ (dist + 1) (by omega) (by omega)

theorem fm_erase_probe_some (m : _FastMap) (key : List Nat) :
    ∀ (fuel pos dist : Nat), dist ≤ m.bucket_mask + 1 →
      m.bucket_mask + 2 ≤ fuel + dist →
      ∃ r, fm_erase_probe m key pos dist fuel = some r := by
  intro fuel
  induction fuel with
  | zero => intro pos dist h1 h2; omega
  | succ fuel ih =>
    intro pos dist h1 h2
    rw [fm_erase_probe]
    rcases hb : m.buckets.getD pos none with _ | idx
    · exact ⟨_, rfl⟩
    · simp only
      split
      · exact ⟨_, rfl⟩
      · split
        · exact ⟨_, rfl⟩
        · rename_i hnlt _
          have hle : (pos + m.bucket_mask + 1 - (m.hashes.data.getD idx 0 &&& m.bucket_mask))
              &&& m.bucket_mask ≤ m.bucket_mask := and_mask_le _ _
          exact ih _ (dist + 1) (by omega) (by omega)

/-- If no referenced dense position stores byte-for-byte the probed key,
the put probe can only conclude "insert as new". -/
theorem fm_put_probe_absent (m : _FastMap) (key : List Nat)
    (Habs : ∀ i : Nat, some i ∈ m.buckets → m.keys.data.getD i [] ≠ key) :
    ∀ (fuel pos dist : Nat) (r : PutProbe),
      fm_put_probe m key pos dist fuel = some r → r = PutProbe.insert := by
  intro fuel
  induction fuel with
  | zero => intro pos dist r h; simp [fm_put_probe] at h
  | succ fuel ih =>
    intro pos dist r h
    rw [fm_put_probe] at h
    rcases hb : m.buckets.getD pos none with _ | idx
    · rw [hb] at h
      simp only [Option.some.injEq] at h
      exact h.symm
    · rw [hb] at h
      simp only at h
      split at h
      · simp only [Option.some.injEq] at h
        exact h.symm
      · split at h
        · rename_i hkey
          have hmem : some idx ∈ m.buckets := by
            rcases getD_mem_or m.buckets pos none with hm | hm
            · rw [hb] at hm; exact hm
            · rw [hb] at hm; exact Option.noConfusion hm
          exact absurd hkey (Habs idx hmem)
        · exact ih _ _ _ h

/-- Same statement for the erase probe: an absent key yields `notFound`. -/
theorem fm_erase_probe_absent (m : _FastMap) (key : List Nat)
    (Habs : ∀ i : Nat, some i ∈ m.buckets → m.keys.data.getD i [] ≠ key) :
    ∀ (fuel pos dist : Nat) (r : EraseProbe),
      fm_erase_probe m key pos dist fuel = some r → r = EraseProbe.notFound := by
  intro fuel
  induction fuel with
  | zero => intro pos dist r h; simp [fm_erase_probe] at h
  | succ fuel ih =>
    intro pos dist r h
    rw [fm_erase_probe] at h
    rcases hb : m.buckets.getD pos none with _ | idx
    · rw [hb] at h
      simp only [Option.some.injEq] at h
      exact h.symm
    · rw [hb] at h
      simp only at h
      split at h
      · simp only [Option.some.injEq] at h
        exact h.symm
      · split at h
        · rename_i hkey
          have hmem : some idx ∈ m.buckets := by
            rcases getD_mem_or m.buckets pos none with hm | hm
            · rw [hb] at hm; exact hm
            · rw [hb] at hm; exact Option.noConfusion hm
          exact absurd hkey (Habs idx hmem)
        · exact ih _ _ _ h

/-- The get loop returns NULL when no referenced position matches. -/
theorem fm_get_go_absent (m : _FastMap) (key : List Nat)
    (Habs : ∀ i : Nat, some i ∈ m.buckets → m.keys.data.getD i [] ≠ key) :
    ∀ (fuel pos dist : Nat), fm_get_go m key pos dist fuel = none := by
  intro fuel
  induction fuel with
  | zero => intro pos dist; rw [fm_get_go]
  | succ fuel ih =>
    intro pos dist
    rw [fm_get_go]
    rcases hb : m.buckets.getD pos none with _ | idx
    · rfl
    · have hmem : some idx ∈ m.buckets := by
        rcases getD_mem_or m.buckets pos none with hm | hm
        · rw [hb] at hm; exact hm
        · rw [hb] at hm; exact Option.noConfusion hm
      simp only
      rw [if_neg (Habs idx hmem)]
      split
      · rfl
      · exact ih _ _

/-- Soundness of the get loop: a non-NULL result is the value bytes of a
dense position whose stored key bytes equal the probed key exactly. -/
theorem fm_get_go_sound (m : _FastMap) (key : List Nat) :
    ∀ (fuel pos dist : Nat) (v : List Nat),
      fm_get_go m key pos dist fuel = some v →
      ∃ i : Nat, some i ∈ m.buckets ∧ m.keys.data.getD i [] = key ∧
        m.values.data.getD i [] = v := by
  intro fuel
  induction fuel with
  | zero => intro pos dist v h; simp [fm_get_go] at h
  | succ fuel ih =>
    intro pos dist v h
    rw [fm_get_go] at h
    rcases hb : m.buckets.getD pos none with _ | idx
    · rw [hb] at h
      exact Option.noConfusion h
    · rw [hb] at h
      simp only at h
      have hmem : some idx ∈ m.buckets := by
        rcases getD_mem_or m.buckets pos none with hm | hm
        · rw [hb] at hm; exact hm
        · rw [hb] at hm; exact Option.noConfusion hm
      split at h
      · rename_i hkey
        simp only [Option.some.injEq] at h
        exact ⟨idx, hmem, hkey, h⟩
      · split at h
        · exact Option.noConfusion h
        · exact ih _ _ _ h

/-- What a successful erase probe guarantees about its result. -/
theorem fm_erase_probe_found (m : _FastMap) (key : List Nat) :
    ∀ (fuel pos dist bq vid : Nat), pos ≤ m.bucket_mask →
      fm_erase_probe m key pos dist fuel = some (EraseProbe.found bq vid) →
      m.buckets.getD bq none = some vid ∧ m.keys.data.getD vid [] = key ∧
        bq ≤ m.bucket_mask := by
  intro fuel
  induction fuel with
  | zero => intro pos dist bq vid _ h; simp [fm_erase_probe] at h
  | succ fuel ih =>
    intro pos dist bq vid hpos h
    rw [fm_erase_probe] at h
    rcases hb : m.buckets.getD pos none with _ | idx
    · rw [hb] at h
      simp at h
    · rw [hb] at h
      simp only at h
      split at h
      · simp at h
      · split at h
        · rename_i hkey
          simp only [Option.some.injEq, EraseProbe.found.injEq] at h
          obtain ⟨h1, h2⟩ := h
          subst h1
          subst h2
          exact ⟨hb, hkey, hpos⟩
        · exact ih _ _ _ _ (and_mask_le _ _) h

/-! ## Lemmas about the moved-item bucket fixup of erase -/

theorem fm_update_bucket_go_some (buckets : List (Option Nat)) (mask old_v new_v : Nat)
    (Hm : ∃ k, mask + 1 = 2 ^ k) :
    ∀ (fuel pos : Nat), buckets.length = mask + 1 → pos ≤ mask →
      (∃ t, t < fuel ∧ buckets.getD ((pos + t) % (mask + 1)) none = some old_v) →
      ∃ b2, fm_update_bucket_go buckets mask old_v new_v pos fuel = some b2 := by
  intro fuel
  induction fuel with
  | zero => intro pos _ _ ⟨t, ht, _⟩; omega
  | succ fuel ih =>
    intro pos hlen hpos ⟨t, htf, hf⟩
    rw [fm_update_bucket_go]
    split
    · exact ⟨_, rfl⟩
    · rename_i hne
      have ht0 : t ≠ 0 := by
        intro h0
        rw [h0, Nat.add_zero, Nat.mod_eq_of_lt (by omega)] at hf
        exact hne hf
      refine ih _ hlen (and_mask_le _ _) ⟨t - 1, by omega, ?_⟩
      rw [and_mask_eq_mod Hm, Nat.mod_add_mod]
      have harith : pos + 1 + (t - 1) = pos + t := by omega
      rw [harith]
      exact hf

theorem fm_update_bucket_go_length (buckets : List (Option Nat)) (mask old_v new_v : Nat) :
    ∀ (fuel pos : Nat) (b2 : List (Option Nat)),
      fm_update_bucket_go buckets mask old_v new_v pos fuel = some b2 →
      b2.length = buckets.length := by
  intro fuel
  induction fuel with
  | zero => intro pos b2 h; simp [fm_update_bucket_go] at h
  | succ fuel ih =>
    intro pos b2 h
    rw [fm_update_bucket_go] at h
    split at h
    · simp only [Option.some.injEq] at h
      rw [← h, List.length_set]
    · exact ih _ _ h

/-- The fixup replaces one reference to `old_v` by a reference to `new_v`
and changes nothing else (stated over counts). -/
theorem fm_update_bucket_go_count (buckets : List (Option Nat)) (mask old_v new_v : Nat)
    (hlen : buckets.length = mask + 1) :
    ∀ (fuel pos : Nat) (b2 : List (Option Nat)), pos < buckets.length →
      fm_update_bucket_go buckets mask old_v new_v pos fuel = some b2 →
      (∀ j : Nat, b2.count (some j) + (if old_v = j then 1 else 0) =
        buckets.count (some j) + (if new_v = j then 1 else 0)) ∧
      b2.count none = buckets.count none := by
  intro fuel
  induction fuel with
  | zero => intro pos b2 _ h; simp [fm_update_bucket_go] at h
  | succ fuel ih =>
    intro pos b2 hpos h
    rw [fm_update_bucket_go] at h
    split at h
    · rename_i hfound
      simp only [Option.some.injEq] at h
      constructor
      · intro j
        have hc := count_set_add buckets pos (some new_v) (some j) none hpos
        rw [hfound] at hc
        simp only [Option.some.injEq] at hc
        rw [← h]
        by_cases h1 : old_v = j <;> by_cases h2 : new_v = j <;>
          simp only [h1, h2, if_true, if_false] at hc ⊢ <;> omega
      · have hc := count_set_add buckets pos (some new_v) none none hpos
        rw [hfound] at hc
        simp only [reduceCtorEq, if_false] at hc
        rw [← h]
        omega
    · have hple : ((pos + 1) &&& mask) ≤ mask := and_mask_le _ _
      exact ih _ _ (by omega) h

/-! ## Lemmas about the backward-shift repair loop of erase -/

theorem fm_backshift_go_length (hashes : List Nat) (mask bc : Nat) :
    ∀ (fuel : Nat) (b : List (Option Nat)) (hole next : Nat) (b2 : List (Option Nat)),
      fm_backshift_go hashes mask bc b hole next fuel = some b2 →
      b2.length = b.length := by
  intro fuel
  induction fuel with
  | zero => intro b hole next b2 h; simp [fm_backshift_go] at h
  | succ fuel ih =>
    intro b hole next b2 h
    rw [fm_backshift_go] at h
    rcases hb : b.getD next none with _ | nv
    · rw [hb] at h
      simp only [Option.some.injEq] at h
      rw [← h, List.length_set]
    · rw [hb] at h
      simp only at h
      split at h
      · have := ih _ _ _ _ h
        rw [this, List.length_set]
      · exact ih _ _ _ _ h

/-- The backward-shift loop terminates before its fuel runs out as soon as
an empty slot lies ahead of the scan position within one cycle. -/
theorem fm_backshift_go_some (hashes : List Nat) (mask bc : Nat)
    (Hm : ∃ k, mask + 1 = 2 ^ k) :
    ∀ (fuel : Nat) (b : List (Option Nat)) (hole next : Nat),
      b.length = mask + 1 → hole ≤ mask → next ≤ mask →
      b.getD hole none ≠ none →
      (∃ t, t < fuel ∧ t ≤ mask ∧ b.getD ((next + t) % (mask + 1)) none = none) →
      ∃ b2, fm_backshift_go hashes mask bc b hole next fuel = some b2 := by
  intro fuel
  induction fuel with
  | zero => intro b hole next _ _ _ _ ⟨t, ht, _, _⟩; omega
  | succ fuel ih =>
    intro b hole next hlen hhole hnext hhne ⟨t, htf, htm, hempty⟩
    rw [fm_backshift_go]
    rcases hb : b.getD next none with _ | nv
    · exact ⟨_, rfl⟩
    · have ht0 : t ≠ 0 := by
        intro h0
        rw [h0, Nat.add_zero, Nat.mod_eq_of_lt (by omega)] at hempty
        rw [hb] at hempty
        exact Option.noConfusion hempty
      have hstep : ((next + 1) &&& mask) = (next + 1) % (mask + 1) := and_mask_eq_mod Hm _
      have hstepLe : ((next + 1) &&& mask) ≤ mask := and_mask_le _ _
      have hshift : ∀ (b3 : List (Option Nat)),
          b3.getD ((next + t) % (mask + 1)) none = none →
          ∃ t2, t2 < fuel ∧ t2 ≤ mask ∧
            b3.getD ((((next + 1) &&& mask) + t2) % (mask + 1)) none = none := by
        intro b3 hb3
        refine ⟨t - 1, by omega, by omega, ?_⟩
        rw [hstep, Nat.mod_add_mod]
        have harith : next + 1 + (t - 1) = next + t := by omega
        rw [harith]
        exact hb3
      have hne_q : hole ≠ (next + t) % (mask + 1) := by
        intro hcontra
        rw [← hcontra] at hempty
        exact hhne hempty
      simp only
      split
      · -- move branch: the entry at next goes back into the hole
        refine ih _ _ _ (by rw [List.length_set]; omega) hnext hstepLe ?_ ?_
        · -- the new hole (= next) now holds the moved value or kept one
          by_cases heq : hole = next
          · rw [← heq, getD_set_self _ _ _ _ (by omega)]
            exact Option.noConfusion
          · rw [getD_set_ne _ _ _ heq, hb]
            exact Option.noConfusion
        · refine hshift _ ?_
          rw [getD_set_ne _ _ _ hne_q]
          exact hempty
      · exact ih _ _ _ hlen hhole hstepLe hhne (hshift _ hempty)

/-- Counting effect of the backward-shift repair: one occurrence of the
hole's (stale) reference disappears and one empty slot appears; every
other reference count is unchanged. -/
theorem fm_backshift_go_count (hashes : List Nat) (mask bc : Nat) :
    ∀ (fuel : Nat) (b : List (Option Nat)) (hole next : Nat) (b2 : List (Option Nat)),
      b.length = mask + 1 → hole ≤ mask → next ≤ mask →
      b.getD hole none ≠ none →
      fm_backshift_go hashes mask bc b hole next fuel = some b2 →
      (∀ j : Nat, b2.count (some j) + (if b.getD hole none = some j then 1 else 0) =
        b.count (some j)) ∧
      b2.count none = b.count none + 1 := by
  intro fuel
  induction fuel with
  | zero => intro b hole next b2 _ _ _ _ h; simp [fm_backshift_go] at h
  | succ fuel ih =>
    intro b hole next b2 hlen hhole hnext hhne h
    have hholelt : hole < b.length := by omega
    rw [fm_backshift_go] at h
    rcases hb : b.getD next none with _ | nv
    · rw [hb] at h
      simp only [Option.some.injEq] at h
      constructor
      · intro j
        have hc := count_set_add b hole none (some j) none hholelt
        simp only [reduceCtorEq, if_false] at hc
        rw [← h]
        omega
      · have hc := count_set_add b hole none none none hholelt
        rcases hx : b.getD hole none with _ | xv
        · exact absurd hx hhne
        · rw [hx] at hc
          simp only [reduceCtorEq, if_false, if_true] at hc
          rw [← h]
          omega
    · rw [hb] at h
      simp only at h
      split at h
      · -- move branch
        have hlen1 : (b.set hole (some nv)).length = mask + 1 := by
          rw [List.length_set]; omega
        have hnextne : (b.set hole (some nv)).getD next none ≠ none := by
          by_cases heq : hole = next
          · rw [← heq, getD_set_self _ _ _ _ hholelt]
            exact Option.noConfusion
          · rw [getD_set_ne _ _ _ heq, hb]
            exact Option.noConfusion
        have hrec := ih _ _ _ _ hlen1 hnext (and_mask_le _ _) hnextne h
        have hnextval : (b.set hole (some nv)).getD next none = some nv := by
          by_cases heq : hole = next
          · rw [← heq, getD_set_self _ _ _ _ hholelt]
          · rw [getD_set_ne _ _ _ heq, hb]
        rw [hnextval] at hrec
        obtain ⟨hrec1, hrec2⟩ := hrec
        rcases hx : b.getD hole none with _ | xv
        · exact absurd hx hhne
        · constructor
          · intro j
            have hr := hrec1 j
            have hc := count_set_add b hole (some nv) (some j) none hholelt
            rw [hx] at hc
            simp only [Option.some.injEq] at hc hr ⊢
            by_cases h1 : xv = j <;> by_cases h2 : nv = j <;>
              simp only [h1, h2, if_true, if_false] at hc hr ⊢ <;> omega
          · have hc := count_set_add b hole (some nv) none none hholelt
            rw [hx] at hc
            simp only [reduceCtorEq, if_false] at hc
            omega
      · -- skip branch
        exact ih _ _ _ _ hlen hhole (and_mask_le _ _) hhne h

/-- The fixup does not disturb any slot that does not reference the moved
index. -/
theorem fm_update_bucket_go_getD (buckets : List (Option Nat)) (mask old_v new_v : Nat) :
    ∀ (fuel pos : Nat) (b2 : List (Option Nat)),
      fm_update_bucket_go buckets mask old_v new_v pos fuel = some b2 →
      ∀ p : Nat, buckets.getD p none ≠ some old_v → b2.getD p none = buckets.getD p none := by
  intro fuel
  induction fuel with
  | zero => intro pos b2 h; simp [fm_update_bucket_go] at h
  | succ fuel ih =>
    intro pos b2 h p hp
    rw [fm_update_bucket_go] at h
    split at h
    · rename_i hfound
      simp only [Option.some.injEq] at h
      rw [← h]
      rw [getD_set_ne]
      intro hcontra
      rw [hcontra] at hfound
      exact hp hfound
    · exact ih _ _ h p hp

/-- A power of two is never divisible by 5 (used to sharpen the load bound
by one unit after an insert). -/
theorem five_not_dvd_pow2 (j : Nat) : ¬ (5 ∣ 2 ^ j) := by
  intro hdvd
  have h5 : Nat.Prime 5 := by norm_num
  have := (Nat.Prime.dvd_of_dvd_pow h5 hdvd)
  omega

/-- What a successful put probe with outcome `update idx` guarantees. -/
theorem fm_put_probe_update (m : _FastMap) (key : List Nat) :
    ∀ (fuel pos dist idx : Nat),
      fm_put_probe m key pos dist fuel = some (PutProbe.update idx) →
      some idx ∈ m.buckets ∧ m.keys.data.getD idx [] = key := by
  intro fuel
  induction fuel with
  | zero => intro pos dist idx h; simp [fm_put_probe] at h
  | succ fuel ih =>
    intro pos dist idx h
    rw [fm_put_probe] at h
    rcases hb : m.buckets.getD pos none with _ | i0
    · rw [hb] at h
      simp at h
    · rw [hb] at h
      simp only at h
      have hmem : some i0 ∈ m.buckets := by
        rcases getD_mem_or m.buckets pos none with hm | hm
        · rw [hb] at hm; exact hm
        · rw [hb] at hm; exact Option.noConfusion hm
      split at h
      · simp at h
      · split at h
        · rename_i hkey
          simp only [Option.some.injEq, PutProbe.update.injEq] at h
          subst h
          exact ⟨hmem, hkey⟩
        · exact ih _ _ _ h

/-! ## Resize: existence, frame, and invariant preservation -/

/-- `fm_resize` succeeds whenever the new capacity is at least the number
of live entries and is a power of two. -/
theorem fm_resize_some (m : _FastMap) (n : Nat) (Hm : ∃ k, n = 2 ^ k)
    (hlen : m.keys.data.length ≤ n) : ∃ m2, fm_resize m n = some m2 := by
  have hn1 : 1 ≤ n := by
    obtain ⟨k, hk⟩ := Hm
    have := Nat.pos_pow_of_pos k (show 0 < 2 by omega)
    omega
  have hmask : (n - 1) + 1 = n := by omega
  obtain ⟨b2, hb2⟩ := fm_resize_loop_some m.hashes.data (n - 1)
    (by obtain ⟨k, hk⟩ := Hm; exact ⟨k, by omega⟩)
    (List.range m.keys.data.length) (List.replicate n none)
    (by rw [List.length_replicate]; omega)
    (by rw [List.count_replicate]; simp; omega)
  refine ⟨{ m with buckets := b2, bucket_count := n, bucket_mask := n - 1 }, ?_⟩
  unfold fm_resize
  simp only
  rw [hb2]

theorem fm_resize_frame {m m2 : _FastMap} {n : Nat} (h : fm_resize m n = some m2) :
    m2.keys = m.keys ∧ m2.values = m.values ∧ m2.hashes = m.hashes ∧
    m2.key_size = m.key_size ∧ m2.val_size = m.val_size ∧
    m2.bucket_count = n ∧ m2.bucket_mask = n - 1 ∧
    fm_resize_loop m.hashes.data (n - 1) (List.replicate n none)
      (List.range m.keys.data.length) = some m2.buckets := by
  rw [fm_resize] at h
  rcases hl : fm_resize_loop m.hashes.data (n - 1) (List.replicate n none)
      (List.range m.keys.data.length) with _ | b
  · rw [hl] at h
    exact Option.noConfusion h
  · rw [hl] at h
    simp only [Option.some.injEq] at h
    subst h
    exact ⟨rfl, rfl, rfl, rfl, rfl, rfl, rfl, rfl⟩

/-- The rebuilt bucket array keeps the full invariant. -/
theorem fm_resize_wf {m m2 : _FastMap} {n k : Nat} (w : WF m) (hk : 4 ≤ k)
    (hn : n = 2 ^ k) (hload : 5 * m.keys.data.length ≤ 4 * n + 5)
    (h : fm_resize m n = some m2) : WF m2 := by
  obtain ⟨hkeys, hvals, hhashes, hks, hvs, hbc, hbm, hloop⟩ := fm_resize_frame h
  have hn1 : 1 ≤ n := by
    have := Nat.pos_pow_of_pos k (show 0 < 2 by omega)
    omega
  have hrlen : (List.replicate n (none : Option Nat)).length = (n - 1) + 1 := by
    rw [List.length_replicate]; omega
  have hblen : m2.buckets.length = n := by
    rw [fm_resize_loop_length _ _ _ _ _ hloop, List.length_replicate]
  have hcount := fm_resize_loop_count m.hashes.data (n - 1) _ _ _ hrlen hloop
  have hcnone := fm_resize_loop_count_none m.hashes.data (n - 1) _ _ _ hrlen hloop
  have hrepl : ∀ j : Nat, (List.replicate n (none : Option Nat)).count (some j) = 0 := by
    intro j
    rw [List.count_replicate]
    simp
  have hreplnone : (List.replicate n (none : Option Nat)).count none = n := by
    rw [List.count_replicate]
    simp
  have hrange : ∀ j : Nat, (List.range m.keys.data.length).count j =
      if j < m.keys.data.length then 1 else 0 := by
    intro j
    by_cases hj : j < m.keys.data.length
    · rw [if_pos hj]
      exact List.count_eq_one_of_mem (List.nodup_range _) (List.mem_range.2 hj)
    · rw [if_neg hj]
      exact count_eq_zero_of_not_mem (by simp [List.mem_range]; omega)
  refine ⟨⟨k, hk, by omega⟩, by omega, by omega, ?_, ?_, ?_, ?_, ?_, ?_, ?_, ?_, ?_⟩
  · rw [hvals, hkeys]; exact w.len_vals
  · rw [hhashes, hkeys]; exact w.len_hashes
  · rw [hkeys, hks]; exact w.key_len
  · rw [hvals, hvs]; exact w.val_len
  · rw [hkeys, hhashes]; exact w.hash_cache
  · intro i hi
    have h1 : 0 < m2.buckets.count (some i) := count_pos_iff_mem.2 hi
    rw [hcount i, hrepl i, hrange i] at h1
    rw [hkeys]
    by_cases hlt : i < m.keys.data.length
    · exact hlt
    · rw [if_neg hlt] at h1
      omega
  · intro i hi
    rw [hkeys] at hi
    rw [hcount i, hrepl i, hrange i, if_pos hi]
  · rw [hkeys]
    have hr2 : (List.range m.keys.data.length).length = m.keys.data.length :=
      List.length_range _
    omega
  · rw [hkeys]
    omega

/-! ## Put: existence and invariant preservation -/

/-- The pre-insert load check of `fm_put`: after it, the load is at most
the threshold, and nothing but the bucket index may have changed. -/
theorem fm_put_step1_spec {m : _FastMap} (w : WF m) :
    ∃ m1, (if 5 * m.keys.data.length ≥ 4 * m.bucket_count
        then fm_resize m (m.bucket_count * 2) else some m) = some m1 ∧
      WF m1 ∧ m1.keys = m.keys ∧ m1.values = m.values ∧ m1.hashes = m.hashes ∧
      m1.key_size = m.key_size ∧ m1.val_size = m.val_size ∧
      5 * m1.keys.data.length ≤ 4 * m1.bucket_count ∧
      (¬ 5 * m.keys.data.length ≥ 4 * m.bucket_count → m1 = m) := by
  by_cases hcond : 5 * m.keys.data.length ≥ 4 * m.bucket_count
  · obtain ⟨k, hk4, hbc⟩ := w.bc_pow
    have hpow : m.bucket_count * 2 = 2 ^ (k + 1) := by
      rw [hbc]; ring
    have hlenle : m.keys.data.length ≤ m.bucket_count * 2 := by
      have := w.len_lt_bc
      omega
    obtain ⟨m1, hm1⟩ := fm_resize_some m (m.bucket_count * 2) ⟨k + 1, hpow⟩ hlenle
    have hw1 : WF m1 := fm_resize_wf w (by omega) hpow (by have := w.load; omega) hm1
    obtain ⟨hkeys, hvals, hhashes, hks, hvs, hbc1, _, _⟩ := fm_resize_frame hm1
    refine ⟨m1, by rw [if_pos hcond]; exact hm1, hw1, hkeys, hvals, hhashes, hks, hvs, ?_, ?_⟩
    · rw [hkeys, hbc1]
      have := w.load
      have := w.bc_pos
      omega
    · intro hc
      exact absurd hcond hc
  · refine ⟨m, by rw [if_neg hcond], w, rfl, rfl, rfl, rfl, rfl, by omega, fun _ => rfl⟩

/-- `fm_put` always succeeds on a well-formed map, preserves the
invariant, and grows the entry count by zero (update) or one (insert);
afterwards the load exceeds the 0.80 threshold by less than one entry. -/
theorem fm_put_spec {m : _FastMap} (w : WF m) (key value : List Nat)
    (hk : key.length = m.key_size) (hv : value.length = m.val_size) :
    ∃ m2, fm_put m key value = some m2 ∧ WF m2 ∧
      m2.key_size = m.key_size ∧ m2.val_size = m.val_size ∧
      5 * m2.keys.data.length ≤ 4 * m2.bucket_count + 4 ∧
      (m2.keys.data.length = m.keys.data.length ∨
        m2.keys.data.length = m.keys.data.length + 1) ∧
      (∀ x ∈ m2.keys.data, x ∈ m.keys.data ∨ x = key) := by
  obtain ⟨m1, hif, w1, hkeys, hvals, hhashes, hks, hvs, hbound, _⟩ := fm_put_step1_spec w
  have hsharp : 5 * m1.keys.data.length + 1 ≤ 4 * m1.bucket_count := by
    obtain ⟨k1, _, hbc1⟩ := w1.bc_pow
    rcases Nat.lt_or_ge (5 * m1.keys.data.length) (4 * m1.bucket_count) with h | h
    · omega
    · exfalso
      have hEq : 5 * m1.keys.data.length = 4 * m1.bucket_count := by omega
      have : (5 : Nat) ∣ 2 ^ (k1 + 2) := by
        have h52 : (2 : Nat) ^ (k1 + 2) = 4 * m1.bucket_count := by
          rw [hbc1]; ring
        exact ⟨m1.keys.data.length, by omega⟩
      exact five_not_dvd_pow2 (k1 + 2) this
  obtain ⟨r, hr⟩ := fm_put_probe_some m1 key (m1.bucket_mask + 2)
    (fm_hash key &&& m1.bucket_mask) 0 (by omega) (by omega)
  rcases r with idx | _
  · -- update-in-place
    obtain ⟨hmem, hkeyidx⟩ := fm_put_probe_update m1 key _ _ _ _ hr
    have hidx : idx < m1.keys.data.length := w1.slot_valid idx hmem
    refine ⟨{ m1 with values := { m1.values with data := m1.values.data.set idx value } },
      ?_, ?_, hks, hvs, ?_, ?_⟩
    · unfold fm_put
      rw [hif, Option.some_bind]
      simp only
      rw [hr]
    · refine ⟨w1.bc_pow, w1.mask_eq, w1.buckets_len, ?_, w1.len_hashes, w1.key_len, ?_,
        w1.hash_cache, w1.slot_valid, w1.slot_count, w1.empties,
        by dsimp only; have := w1.load; omega⟩
      · simp only [List.length_set]
        exact w1.len_vals
      · intro x hx
        simp only at hx
        rcases List.mem_or_eq_of_mem_set hx with hx2 | hx2
        · exact w1.val_len x hx2
        · rw [hx2, hv, ← hvs]
    · simp only
      omega
    · constructor
      · left
        simp only
        rw [hkeys]
      · intro x hx
        simp only at hx
        left
        rw [← hkeys]
        exact hx
  · -- insert as new
    have hLlt : m1.keys.data.length < m1.bucket_count := by
      have := w1.bc_pos
      omega
    have hempty : 0 < m1.buckets.count none := by
      have := w1.empties
      omega
    obtain ⟨q, hqlen, hq⟩ := mem_exists_getD m1.buckets none none (count_pos_iff_mem.1 hempty)
    have hmasklen : m1.buckets.length = m1.bucket_mask + 1 := by
      rw [w1.buckets_len, ← w1.mask_eq]
    have hposlt : (fm_hash key &&& m1.bucket_mask) < m1.bucket_mask + 1 :=
      Nat.lt_succ_of_le (and_mask_le _ _)
    obtain ⟨t, htlt, ht⟩ := cyc_dist_exists (n := m1.bucket_mask + 1) hposlt
      (show q < m1.bucket_mask + 1 by omega)
    obtain ⟨b2, hb2⟩ := fm_place_index_go_some (m1.hashes.data ++ [fm_hash key])
      m1.bucket_mask w1.mask_pow
      (m1.bucket_mask + 2) m1.buckets (fm_hash key &&& m1.bucket_mask) 0
      m1.keys.data.length hmasklen (and_mask_le _ _)
      ⟨t, by omega, by omega, by rw [ht]; exact hq⟩
    have hlen2 : b2.length = m1.buckets.length :=
      fm_place_index_go_length _ _ _ _ _ _ _ _ hb2
    have hcnt := fm_place_index_go_count (m1.hashes.data ++ [fm_hash key])
      m1.bucket_mask _ _ _ _ _ _ hmasklen (and_mask_le _ _) hb2
    have hcnone := fm_place_index_go_count_none (m1.hashes.data ++ [fm_hash key])
      m1.bucket_mask _ _ _ _ _ _ hmasklen (and_mask_le _ _) hb2
    refine ⟨{ m1 with
        keys := fm_vec_push m1.keys key
        values := fm_vec_push m1.values value
        hashes := fm_vec_push m1.hashes (fm_hash key)
        buckets := b2 }, ?_, ?_, hks, hvs, ?_, ?_⟩
    · unfold fm_put
      rw [hif, Option.some_bind]
      simp only
      rw [hr]
      unfold fm_place_index
      simp only [fm_vec_push]
      rw [hb2]
      rfl
    · refine ⟨w1.bc_pow, w1.mask_eq, ?_, ?_, ?_, ?_, ?_, ?_, ?_, ?_, ?_, ?_⟩
      · simp only
        rw [hlen2, hmasklen, w1.mask_eq]
      · simp only [fm_vec_push, List.length_append, List.length_singleton]
        have := w1.len_vals
        omega
      · simp only [fm_vec_push, List.length_append, List.length_singleton]
        have := w1.len_hashes
        omega
      · intro x hx
        simp only [fm_vec_push, List.mem_append, List.mem_singleton] at hx
        simp only
        rcases hx with hx | hx
        · exact w1.key_len x hx
        · rw [hx, hk, ← hks]
      · intro x hx
        simp only [fm_vec_push, List.mem_append, List.mem_singleton] at hx
        simp only
        rcases hx with hx | hx
        · exact w1.val_len x hx
        · rw [hx, hv, ← hvs]
      · intro i hi
        simp only [fm_vec_push, List.length_append, List.length_singleton] at hi
        simp only [fm_vec_push]
        rcases Nat.lt_or_ge i m1.keys.data.length with hlt | hge
        · rw [getD_append_lt _ _ _ _ (by rw [w1.len_hashes]; omega),
            getD_append_lt _ _ _ _ hlt]
          exact w1.hash_cache i hlt
        · have hieq : i = m1.keys.data.length := by omega
          rw [hieq, getD_append_right _ _ _ _ (by rw [w1.len_hashes]),
            getD_append_right _ _ _ _ (by omega), w1.len_hashes]
          simp
      · intro i hi
        simp only at hi
        have hpos2 : 0 < b2.count (some i) := count_pos_iff_mem.2 hi
        rw [hcnt i] at hpos2
        simp only [fm_vec_push, List.length_append, List.length_singleton]
        by_cases hei : m1.keys.data.length = i
        · omega
        · rw [if_neg hei] at hpos2
          have := w1.slot_valid i (count_pos_iff_mem.1 (by omega))
          omega
      · intro i hi
        simp only [fm_vec_push, List.length_append, List.length_singleton] at hi
        simp only
        rw [hcnt i]
        rcases Nat.lt_or_ge i m1.keys.data.length with hlt | hge
        · rw [w1.slot_count i hlt, if_neg (by omega)]
        · have hieq : i = m1.keys.data.length := by omega
          have hnotmem : some i ∉ m1.buckets := by
            intro hmem2
            have := w1.slot_valid i hmem2
            omega
          rw [count_eq_zero_of_not_mem hnotmem, if_pos hieq.symm, Nat.zero_add]
      · simp only [fm_vec_push, List.length_append, List.length_singleton]
        have := w1.empties
        omega
      · simp only [fm_vec_push, List.length_append, List.length_singleton]
        have := w1.load
        omega
    · simp only [fm_vec_push, List.length_append, List.length_singleton]
      omega
    · constructor
      · right
        simp only [fm_vec_push, List.length_append, List.length_singleton]
        rw [hkeys]
      · intro x hx
        simp only [fm_vec_push, List.mem_append, List.mem_singleton] at hx
        rcases hx with hx | hx
        · left
          rw [← hkeys]
          exact hx
        · right
          exact hx

/-! ## Erase: existence and invariant preservation -/

theorem WF.count_eq {m : _FastMap} (w : WF m) (j : Nat) :
    m.buckets.count (some j) = if j < m.keys.data.length then 1 else 0 := by
  by_cases hj : j < m.keys.data.length
  · rw [if_pos hj]
    exact w.slot_count j hj
  · rw [if_neg hj]
    refine count_eq_zero_of_not_mem ?_
    intro hmem
    exact hj (w.slot_valid j hmem)

/-- Shared tail of `fm_erase` after the probe has located the entry and
the swap-and-pop bookkeeping has run: popping the last dense entry and
doing the backward-shift repair from the vacated bucket yields a
well-formed map with one entry fewer.

`p` is the intermediate state: vectors still of full length `L` (with the
last entry already copied into position `vid` when they differ), buckets
already repointed; `bq` is the bucket being vacated and `vid` the dense
position being dropped.  The count profile hypothesis covers both the
`vid = L-1` and `vid ≠ L-1` cases uniformly. -/
theorem fm_erase_tail_spec {p : _FastMap} (bq vid : Nat)
    (bc_pow : ∃ k, 4 ≤ k ∧ p.bucket_count = 2 ^ k)
    (mask_eq : p.bucket_mask + 1 = p.bucket_count)
    (buckets_len : p.buckets.length = p.bucket_count)
    (len_vals : p.values.data.length = p.keys.data.length)
    (len_hashes : p.hashes.data.length = p.keys.data.length)
    (key_len : ∀ key ∈ p.keys.data, key.length = p.key_size)
    (val_len : ∀ v ∈ p.values.data, v.length = p.val_size)
    (hash_cache : ∀ i < p.keys.data.length,
      p.hashes.data.getD i 0 = fm_hash (p.keys.data.getD i []))
    (load : 5 * p.keys.data.length ≤ 4 * p.bucket_count + 5)
    (hcnt : ∀ j : Nat, p.buckets.count (some j) +
      (if j = p.keys.data.length - 1 then 1 else 0) =
      (if j < p.keys.data.length then 1 else 0) + (if j = vid then 1 else 0))
    (hcnone : p.buckets.count none + p.keys.data.length = p.bucket_count)
    (hhole : p.buckets.getD bq none = some vid)
    (hbq : bq ≤ p.bucket_mask)
    (hvid : vid < p.keys.data.length)
    (hL : 1 ≤ p.keys.data.length) :
    ∃ b2, fm_backshift_go p.hashes.data.dropLast p.bucket_mask p.bucket_count
        p.buckets bq ((bq + 1) &&& p.bucket_mask) (p.bucket_mask + 2) = some b2 ∧
      WF { p with
        keys := { p.keys with data := p.keys.data.dropLast }
        values := { p.values with data := p.values.data.dropLast }
        hashes := { p.hashes with data := p.hashes.data.dropLast }
        buckets := b2 } := by
  have hbc16 : 16 ≤ p.bucket_count := by
    obtain ⟨k, hk, hbc⟩ := bc_pow
    calc 16 = 2 ^ 4 := rfl
    _ ≤ 2 ^ k := Nat.pow_le_pow_right (by omega) hk
    _ = p.bucket_count := hbc.symm
  have hmasklen : p.buckets.length = p.bucket_mask + 1 := by omega
  have hholene : p.buckets.getD bq none ≠ none := by
    rw [hhole]
    exact Option.noConfusion
  have hempty : 0 < p.buckets.count none := by omega
  obtain ⟨q, hqlen, hq⟩ := mem_exists_getD p.buckets none none (count_pos_iff_mem.1 hempty)
  have hnextlt : ((bq + 1) &&& p.bucket_mask) < p.bucket_mask + 1 :=
    Nat.lt_succ_of_le (and_mask_le _ _)
  obtain ⟨t, htlt, ht⟩ := cyc_dist_exists (n := p.bucket_mask + 1) hnextlt
    (show q < p.bucket_mask + 1 by omega)
  obtain ⟨b2, hb2⟩ := fm_backshift_go_some p.hashes.data.dropLast p.bucket_mask
    p.bucket_count ⟨_, mask_eq.trans bc_pow.choose_spec.2⟩ (p.bucket_mask + 2)
    p.buckets bq ((bq + 1) &&& p.bucket_mask) hmasklen hbq (and_mask_le _ _) hholene
    ⟨t, by omega, by omega, by rw [ht]; exact hq⟩
  obtain ⟨hc1, hc2⟩ := fm_backshift_go_count p.hashes.data.dropLast p.bucket_mask
    p.bucket_count (p.bucket_mask + 2) p.buckets bq ((bq + 1) &&& p.bucket_mask) b2
    hmasklen hbq (and_mask_le _ _) hholene hb2
  rw [hhole] at hc1
  have hblen : b2.length = p.buckets.length :=
    fm_backshift_go_length _ _ _ _ _ _ _ _ hb2
  have hdkeys : p.keys.data.dropLast.length = p.keys.data.length - 1 :=
    List.length_dropLast _
  refine ⟨b2, hb2, ?_⟩
  refine ⟨bc_pow, mask_eq, by dsimp only; omega, ?_, ?_, ?_, ?_, ?_, ?_, ?_, ?_, ?_⟩
  · dsimp only
    rw [List.length_dropLast, List.length_dropLast]
    omega
  · dsimp only
    rw [List.length_dropLast, List.length_dropLast]
    omega
  · intro x hx
    dsimp only at hx ⊢
    exact key_len x ((List.dropLast_sublist _).mem hx)
  · intro x hx
    dsimp only at hx ⊢
    exact val_len x ((List.dropLast_sublist _).mem hx)
  · intro i hi
    dsimp only at hi ⊢
    rw [hdkeys] at hi
    rw [getD_dropLast _ _ _ (by omega), getD_dropLast _ _ _ (by omega)]
    exact hash_cache i (by omega)
  · intro i hi
    dsimp only at hi ⊢
    have hpos : 0 < b2.count (some i) := count_pos_iff_mem.2 hi
    have hci := hc1 i
    have hcnti := hcnt i
    rw [hdkeys]
    simp only [Option.some.injEq] at hci
    split_ifs at hci hcnti <;> omega
  · intro i hi
    dsimp only at hi ⊢
    rw [hdkeys] at hi
    have hci := hc1 i
    have hcnti := hcnt i
    simp only [Option.some.injEq] at hci
    split_ifs at hci hcnti <;> omega
  · dsimp only
    rw [hdkeys]
    omega
  · dsimp only
    rw [hdkeys]
    omega

/-- `fm_erase` always succeeds on a well-formed map; it preserves the
invariant, removes exactly one entry when it reports `true`, and leaves
the map untouched when it reports `false`. -/
theorem fm_erase_spec {m : _FastMap} (w : WF m) (key : List Nat) :
    ∃ done m2, fm_erase m key = some (done, m2) ∧ WF m2 ∧
      m2.key_size = m.key_size ∧ m2.val_size = m.val_size ∧
      (done = false → m2 = m) ∧
      (done = true → m2.keys.data.length + 1 = m.keys.data.length) := by
  obtain ⟨r0, hr⟩ := fm_erase_probe_some m key (m.bucket_mask + 2)
    (fm_hash key &&& m.bucket_mask) 0 (by omega) (by omega)
  have hmasklen : m.buckets.length = m.bucket_mask + 1 := by
    rw [w.buckets_len, ← w.mask_eq]
  rcases r0 with _ | ⟨bq, vid⟩
  · refine ⟨false, m, ?_, w, rfl, rfl, fun _ => rfl, by simp⟩
    unfold fm_erase
    dsimp only
    rw [hr]
  · obtain ⟨hfound, hkeyvid, hbqle⟩ :=
      fm_erase_probe_found m key _ _ _ bq vid (and_mask_le _ _) hr
    have hmemvid : some vid ∈ m.buckets := by
      rcases getD_mem_or m.buckets bq none with hm | hm
      · rw [hfound] at hm; exact hm
      · rw [hfound] at hm; exact Option.noConfusion hm
    have hvid : vid < m.keys.data.length := w.slot_valid vid hmemvid
    have hL1 : 1 ≤ m.keys.data.length := by omega
    by_cases hvl : vid ≠ m.keys.data.length - 1
    · -- swap-and-pop with a genuine move
      have hreadlen : vid < m.hashes.data.length := by
        rw [w.len_hashes]; exact hvid
      have hread : (m.hashes.data.set vid
          (m.hashes.data.getD (m.keys.data.length - 1) 0)).getD vid 0 =
          m.hashes.data.getD (m.keys.data.length - 1) 0 :=
        getD_set_self _ _ _ _ hreadlen
      have hmemlast : some (m.keys.data.length - 1) ∈ m.buckets := by
        refine count_pos_iff_mem.1 ?_
        rw [w.slot_count (m.keys.data.length - 1) (by omega)]
        omega
      obtain ⟨ql, hqllen, hql⟩ := mem_exists_getD m.buckets
        (some (m.keys.data.length - 1)) none hmemlast
      have hposlt : ((m.hashes.data.getD (m.keys.data.length - 1) 0) &&& m.bucket_mask) <
          m.bucket_mask + 1 := Nat.lt_succ_of_le (and_mask_le _ _)
      obtain ⟨t, htlt, ht⟩ := cyc_dist_exists (n := m.bucket_mask + 1) hposlt
        (show ql < m.bucket_mask + 1 by omega)
      obtain ⟨b_u, hbu⟩ := fm_update_bucket_go_some m.buckets m.bucket_mask
        (m.keys.data.length - 1) vid w.mask_pow (m.bucket_mask + 2)
        ((m.hashes.data.getD (m.keys.data.length - 1) 0) &&& m.bucket_mask)
        hmasklen (and_mask_le _ _) ⟨t, by omega, by rw [ht]; exact hql⟩
      have hu_getD : b_u.getD bq none = some vid := by
        rw [fm_update_bucket_go_getD m.buckets m.bucket_mask _ _ _ _ _ hbu bq
          (by rw [hfound]; intro hc; simp only [Option.some.injEq] at hc; omega)]
        exact hfound
      obtain ⟨hu_cnt, hu_none⟩ := fm_update_bucket_go_count m.buckets m.bucket_mask
        (m.keys.data.length - 1) vid hmasklen (m.bucket_mask + 2) _ b_u (by omega) hbu
      have hu_len : b_u.length = m.buckets.length :=
        fm_update_bucket_go_length _ _ _ _ _ _ _ hbu
      -- the intermediate full-length state
      obtain ⟨b2, hb2, hwf⟩ := fm_erase_tail_spec (p := { m with
          keys := { m.keys with
            data := m.keys.data.set vid (m.keys.data.getD (m.keys.data.length - 1) []) }
          values := { m.values with
            data := m.values.data.set vid (m.values.data.getD (m.keys.data.length - 1) []) }
          hashes := { m.hashes with
            data := m.hashes.data.set vid (m.hashes.data.getD (m.keys.data.length - 1) 0) }
          buckets := b_u }) bq vid
        w.bc_pow w.mask_eq (by dsimp only; have hme := w.mask_eq; omega)
        (by simp only [List.length_set]; exact w.len_vals)
        (by simp only [List.length_set]; exact w.len_hashes)
        (by
          intro x hx
          dsimp only at hx ⊢
          rcases List.mem_or_eq_of_mem_set hx with hx2 | hx2
          · exact w.key_len x hx2
          · rw [hx2]
            exact w.key_len _ (getD_mem _ _ _ (by omega)))
        (by
          intro x hx
          dsimp only at hx ⊢
          rcases List.mem_or_eq_of_mem_set hx with hx2 | hx2
          · exact w.val_len x hx2
          · rw [hx2]
            exact w.val_len _ (getD_mem _ _ _ (by rw [w.len_vals]; omega)))
        (by
          intro i hi
          simp only [List.length_set] at hi ⊢
          by_cases hiv : vid = i
          · subst hiv
            rw [getD_set_self _ _ _ _ hreadlen, getD_set_self _ _ _ _ hvid]
            exact w.hash_cache _ (by omega)
          · rw [getD_set_ne _ _ _ hiv, getD_set_ne _ _ _ hiv]
            exact w.hash_cache i hi)
        (by simp only [List.length_set]; have := w.load; omega)
        (by
          intro j
          simp only [List.length_set]
          have h1 := hu_cnt j
          have h2 := w.count_eq j
          split_ifs at h1 h2 ⊢ <;> omega)
        (by simp only [List.length_set]; have := w.empties; omega)
        (by dsimp only; exact hu_getD)
        hbqle (by simp only [List.length_set]; exact hvid)
        (by simp only [List.length_set]; exact hL1)
      refine ⟨true, _, ?_, hwf, rfl, rfl, by simp, ?_⟩
      · unfold fm_erase
        dsimp only
        rw [hr]
        dsimp only
        rw [if_pos hvl]
        unfold fm_update_bucket_for_moved_item
        dsimp only
        rw [hread, hbu]
        simp only [Option.map_some', Option.some_bind]
        dsimp only at hb2 ⊢
        rw [hb2]
        rfl
      · intro _
        simp only [List.length_dropLast, List.length_set]
        omega
    · -- the erased entry is the last dense entry: no move needed
      have hveq : vid = m.keys.data.length - 1 := by omega
      obtain ⟨b2, hb2, hwf⟩ := fm_erase_tail_spec (p := m) bq vid
        w.bc_pow w.mask_eq w.buckets_len w.len_vals w.len_hashes w.key_len w.val_len
        w.hash_cache w.load
        (by
          intro j
          have h2 := w.count_eq j
          split_ifs at h2 ⊢ <;> omega)
        w.empties hfound hbqle hvid hL1
      refine ⟨true, _, ?_, hwf, rfl, rfl, by simp, ?_⟩
      · unfold fm_erase
        dsimp only
        rw [hr]
        dsimp only
        rw [if_neg (not_not_intro hveq)]
        dsimp only [Option.some_bind]
        rw [hb2]
        rfl
      · intro _
        simp only [List.length_dropLast]
        omega

/-! ## Every reachable map state is well-formed -/

theorem wf_init (key_size val_size : Nat) : WF (fm_init key_size val_size) := by
  refine ⟨⟨4, by omega, rfl⟩, rfl, by simp [fm_init], rfl, rfl, ?_, ?_, ?_, ?_, ?_, ?_, ?_⟩
  · intro x hx
    simp [fm_init] at hx
  · intro x hx
    simp [fm_init] at hx
  · intro i hi
    simp [fm_init] at hi
  · intro i hi
    simp only [fm_init, List.mem_replicate] at hi
    exact absurd hi.2 (by simp)
  · intro i hi
    simp [fm_init] at hi
  · simp [fm_init, List.count_replicate]
  · simp [fm_init]

theorem wf_reachable {m : _FastMap} (h : Reachable m) : WF m := by
  induction h with
  | init ks vs => exact wf_init ks vs
  | put hre hk hv hput ih =>
    rename_i m0 m2 k v
    obtain ⟨m2x, heq, hwf, _⟩ := fm_put_spec ih k v hk hv
    have : m2x = m2 := by
      rw [hput] at heq
      exact (Option.some.inj heq).symm
    rw [← this]
    exact hwf
  | erase hre hk herase ih =>
    rename_i m0 m2 k b
    obtain ⟨done, m2x, heq, hwf, _⟩ := fm_erase_spec ih k
    have : m2x = m2 := by
      rw [herase] at heq
      have h2 := Option.some.inj heq
      exact (congrArg Prod.snd h2).symm
    rw [← this]
    exact hwf
  | resize hre hrs ih =>
    rename_i m0 m2
    obtain ⟨k, hk, hbc⟩ := ih.bc_pow
    refine fm_resize_wf ih (k := k + 1) (by omega) ?_ ?_ hrs
    · rw [hbc]; ring
    · have := ih.load
      omega

/-- Stepping a nonzero amount less than a full cycle never returns to the
start position. -/
theorem pos_mod_ne {n s j : Nat} (hs : s < n) (hj : 0 < j) (hjn : j < n) :
    (s + j) % n ≠ s := by
  intro hEq
  rcases Nat.lt_or_ge (s + j) n with hlt | hge
  · rw [Nat.mod_eq_of_lt hlt] at hEq
    omega
  · have : (s + j) % n = s + j - n := by
      rw [Nat.mod_eq_sub_mod hge, Nat.mod_eq_of_lt (by omega)]
    rw [this] at hEq
    omega

theorem shift_mod (mask s : Nat) (i : Nat) :
    (((s + 1) % (mask + 1)) + i) % (mask + 1) = (s + (1 + i)) % (mask + 1) := by
  rw [Nat.mod_add_mod]
  congr 1
  omega

/-- Trace of the Robin Hood placement loop, as needed for lookup
soundness immediately after an insertion.  Walking forward from the start
slot `s`: the walk crosses `T` occupied slots of the original bucket array
and ends on its first empty slot; only walked slots are modified; and the
carried index `x` comes to rest at walk offset `M`, every slot strictly
before it keeping its original occupant, which (at the moment the walk
passed it) was at probe distance at least the walker's distance — the fact
that rules out the Robin Hood early exit during a subsequent lookup. -/
theorem fm_place_index_go_trace (H : List Nat) (mask : Nat) (Hm : ∃ k, mask + 1 = 2 ^ k) :
    ∀ (fuel : Nat) (b : List (Option Nat)) (s d x : Nat) (b2 : List (Option Nat)),
      b.length = mask + 1 → s ≤ mask →
      (∀ v : Nat, some v ∈ b → v ≠ x) →
      (∀ v : Nat, some v ∈ b → b.count (some v) = 1) →
      fm_place_index_go H mask b s d x fuel = some b2 →
      ∃ T M, M ≤ T ∧ T < mask + 1 ∧
        (∀ i, i < T → b.getD ((s + i) % (mask + 1)) none ≠ none) ∧
        b.getD ((s + T) % (mask + 1)) none = none ∧
        (∀ pos : Nat, (∀ i, i ≤ T → pos ≠ (s + i) % (mask + 1)) →
          b2.getD pos none = b.getD pos none) ∧
        b2.getD ((s + M) % (mask + 1)) none = some x ∧
        (∀ i, i < M →
          b2.getD ((s + i) % (mask + 1)) none = b.getD ((s + i) % (mask + 1)) none ∧
          ∀ y : Nat, b.getD ((s + i) % (mask + 1)) none = some y →
            ¬((((s + i) % (mask + 1)) + mask + 1 - (H.getD y 0 &&& mask)) &&& mask
              < d + i)) := by
  intro fuel
  induction fuel with
  | zero => intro b s d x b2 _ _ _ _ h; simp [fm_place_index_go] at h
  | succ fuel ih =>
    intro b s d x b2 hlen hs hx hnodup hplace
    have hsn : s < mask + 1 := by omega
    have hs0 : (s + 0) % (mask + 1) = s := by
      rw [Nat.add_zero, Nat.mod_eq_of_lt hsn]
    rw [fm_place_index_go] at hplace
    rcases hb : b.getD s none with _ | e
    · -- empty slot: x rests right here
      rw [hb] at hplace
      simp only [Option.some.injEq] at hplace
      refine ⟨0, 0, Nat.le_refl 0, by omega, by omega, ?_, ?_, ?_, by omega⟩
      · rw [hs0]
        exact hb
      · intro pos hpos
        have hne : s ≠ pos := by
          intro hEq
          exact hpos 0 (Nat.le_refl 0) (by rw [hs0, hEq])
        rw [← hplace, getD_set_ne _ _ _ hne]
      · rw [hs0, ← hplace, getD_set_self _ _ _ _ (by omega)]
    · rw [hb] at hplace
      dsimp only at hplace
      have hmemE : some e ∈ b := by
        rcases getD_mem_or b s none with hm | hm
        · rw [hb] at hm; exact hm
        · rw [hb] at hm; exact Option.noConfusion hm
      have hstepmod : (s + 1) &&& mask = (s + 1) % (mask + 1) := and_mask_eq_mod Hm _
      have hsteple : (s + 1) &&& mask ≤ mask := and_mask_le _ _
      split at hplace
      · -- Robin Hood swap: x rests here, the evicted incumbent walks on
        rename_i hswap
        have hex : e ≠ x := hx e hmemE
        have hcntE : b.count (some e) = 1 := hnodup e hmemE
        have hcx : b.count (some x) = 0 := by
          refine count_eq_zero_of_not_mem ?_
          intro hmemX
          exact hx x hmemX rfl
        have hsetlen : (b.set s (some x)).length = mask + 1 := by
          rw [List.length_set]; omega
        have hcset := fun v => count_set_add b s (some x) (some v) none (by omega)
        have hx2 : ∀ v : Nat, some v ∈ b.set s (some x) → v ≠ e := by
          intro v hv hveq
          subst hveq
          have h1 := hcset v
          rw [hb, if_pos rfl,
            if_neg (show ¬(some x = some v) from fun hc => hex (Option.some.inj hc).symm)]
            at h1
          have h2 : 0 < (b.set s (some x)).count (some v) := count_pos_iff_mem.2 hv
          omega
        have hnodup2 : ∀ v : Nat, some v ∈ b.set s (some x) →
            (b.set s (some x)).count (some v) = 1 := by
          intro v hv
          have h1 := hcset v
          rw [hb] at h1
          have h2 : 0 < (b.set s (some x)).count (some v) := count_pos_iff_mem.2 hv
          by_cases hvx : v = x
          · subst hvx
            rw [if_pos rfl,
              if_neg (show ¬(some e = some v) from fun hc => hex (Option.some.inj hc))]
              at h1
            omega
          · rw [if_neg (show ¬(some x = some v) from
              fun hc => hvx (Option.some.inj hc).symm)] at h1
            by_cases hve : v = e
            · subst hve
              rw [if_pos rfl] at h1
              omega
            · rw [if_neg (show ¬(some e = some v) from
                fun hc => hve (Option.some.inj hc).symm)] at h1
              have h3 : some v ∈ b := count_pos_iff_mem.1 (by omega)
              have := hnodup v h3
              omega
        obtain ⟨T2, M2, hMT2, hT2, hOcc2, hEmpty2, hFrame2, hFind2, hPath2⟩ :=
          ih (b.set s (some x)) ((s + 1) &&& mask) _ e b2 hsetlen hsteple hx2 hnodup2
            hplace
        have hshift2 : ∀ i, (((s + 1) &&& mask) + i) % (mask + 1) =
            (s + (1 + i)) % (mask + 1) := by
          intro i
          rw [hstepmod]
          exact shift_mod mask s i
        have hTn : T2 + 1 < mask + 1 := by
          rcases Nat.lt_or_ge (T2 + 1) (mask + 1) with h | h
          · exact h
          · exfalso
            have hT2e : T2 = mask := by omega
            have := hEmpty2
            rw [hshift2, hT2e] at this
            have hcycle : (s + (1 + mask)) % (mask + 1) = s := by
              have : s + (1 + mask) = s + (mask + 1) := by omega
              rw [this, Nat.add_mod_right, Nat.mod_eq_of_lt hsn]
            rw [hcycle, getD_set_self _ _ _ _ (by omega)] at this
            exact Option.noConfusion this
        have hnotwalk : ∀ i, i ≤ T2 → s ≠ (((s + 1) &&& mask) + i) % (mask + 1) := by
          intro i hi hEq
          rw [hshift2] at hEq
          exact pos_mod_ne hsn (by omega) (by omega) hEq.symm
        refine ⟨T2 + 1, 0, by omega, hTn, ?_, ?_, ?_, ?_, by omega⟩
        · intro i hi
          rcases Nat.eq_zero_or_pos i with hi0 | hipos
          · subst hi0
            rw [hs0, hb]
            exact Option.noConfusion
          · have hocc := hOcc2 (i - 1) (by omega)
            rw [hshift2] at hocc
            have harith : 1 + (i - 1) = i := by omega
            rw [harith] at hocc
            have hne : s ≠ (s + i) % (mask + 1) :=
              (pos_mod_ne hsn hipos (by omega)).symm
            rw [← getD_set_ne b (some x) none hne]
            exact hocc
        · have h0 := hEmpty2
          rw [hshift2] at h0
          have harith : 1 + T2 = T2 + 1 := by omega
          rw [harith] at h0
          have hne : s ≠ (s + (T2 + 1)) % (mask + 1) :=
            (pos_mod_ne hsn (by omega) (by omega)).symm
          rw [← getD_set_ne b (some x) none hne]
          exact h0
        · intro pos hpos
          have h1 : b2.getD pos none = (b.set s (some x)).getD pos none := by
            refine hFrame2 pos ?_
            intro i hi
            have := hpos (1 + i) (by omega)
            rw [hshift2]
            exact this
          have hne : s ≠ pos := by
            intro hEq
            exact hpos 0 (by omega) (by rw [hs0, hEq])
          rw [h1, getD_set_ne b (some x) none hne]
        · rw [hs0]
          have h1 : b2.getD s none = (b.set s (some x)).getD s none :=
            hFrame2 s hnotwalk
          rw [h1, getD_set_self _ _ _ _ (by omega)]
      · -- incumbent keeps its slot: the walker advances
        rename_i hnoswap
        obtain ⟨T2, M2, hMT2, hT2, hOcc2, hEmpty2, hFrame2, hFind2, hPath2⟩ :=
          ih b ((s + 1) &&& mask) _ x b2 hlen hsteple hx hnodup hplace
        have hshift2 : ∀ i, (((s + 1) &&& mask) + i) % (mask + 1) =
            (s + (1 + i)) % (mask + 1) := by
          intro i
          rw [hstepmod]
          exact shift_mod mask s i
        have hTn : T2 + 1 < mask + 1 := by
          rcases Nat.lt_or_ge (T2 + 1) (mask + 1) with h | h
          · exact h
          · exfalso
            have hT2e : T2 = mask := by omega
            have := hEmpty2
            rw [hshift2, hT2e] at this
            have hcycle : (s + (1 + mask)) % (mask + 1) = s := by
              have h2 : s + (1 + mask) = s + (mask + 1) := by omega
              rw [h2, Nat.add_mod_right, Nat.mod_eq_of_lt hsn]
            rw [hcycle, hb] at this
            exact Option.noConfusion this
        have hnotwalk : ∀ i, i ≤ T2 → s ≠ (((s + 1) &&& mask) + i) % (mask + 1) := by
          intro i hi hEq
          rw [hshift2] at hEq
          exact pos_mod_ne hsn (by omega) (by omega) hEq.symm
        refine ⟨T2 + 1, M2 + 1, by omega, hTn, ?_, ?_, ?_, ?_, ?_⟩
        · intro i hi
          rcases Nat.eq_zero_or_pos i with hi0 | hipos
          · subst hi0
            rw [hs0, hb]
            exact Option.noConfusion
          · have hocc := hOcc2 (i - 1) (by omega)
            rw [hshift2] at hocc
            have harith : 1 + (i - 1) = i := by omega
            rw [harith] at hocc
            exact hocc
        · have := hEmpty2
          rw [hshift2] at this
          have harith : 1 + T2 = T2 + 1 := by omega
          rw [harith] at this
          exact this
        · intro pos hpos
          refine hFrame2 pos ?_
          intro i hi
          have := hpos (1 + i) (by omega)
          rw [hshift2]
          exact this
        · have := hFind2
          rw [hshift2] at this
          have harith : 1 + M2 = M2 + 1 := by omega
          rw [harith] at this
          exact this
        · intro i hi
          rcases Nat.eq_zero_or_pos i with hi0 | hipos
          · subst hi0
            constructor
            · rw [hs0]
              exact hFrame2 s hnotwalk
            · intro y hy
              rw [hs0] at hy ⊢
              rw [hb] at hy
              simp only [Option.some.injEq] at hy
              subst hy
              rw [Nat.add_zero]
              exact hnoswap
          · obtain ⟨hp1, hp2⟩ := hPath2 (i - 1) (by omega)
            rw [hshift2] at hp1
            have harith : 1 + (i - 1) = i := by omega
            rw [harith] at hp1
            constructor
            · exact hp1
            · intro y hy
              have := hp2 y (by rw [hshift2, harith]; exact hy)
              rw [hshift2, harith] at this
              intro hcontra
              apply this
              have harith2 : (s + mask + 1 - (H.getD e 0 &&& mask)) &&& mask + 1 + (i - 1)
                  = (s + mask + 1 - (H.getD e 0 &&& mask)) &&& mask + i := by omega
              omega

/-- When the probed key is stored nowhere in the map (byte-for-byte),
`fm_put` takes the insert path: after the possible pre-insert resize
(which leaves all three dense vectors untouched), it appends the key, the
value and the digest `fm_hash key` to the dense vectors and places the new
dense index into the buckets, whose final state `b2` is the result of the
Robin Hood placement loop. -/
theorem fm_put_insert_path {m : _FastMap} (w : WF m) (key value : List Nat)
    (hk : key.length = m.key_size) (hv : value.length = m.val_size)
    (habs : ∀ i < m.keys.data.length, m.keys.data.getD i [] ≠ key) :
    ∃ m1 b2, WF m1 ∧
      m1.keys = m.keys ∧ m1.values = m.values ∧ m1.hashes = m.hashes ∧
      m1.key_size = m.key_size ∧ m1.val_size = m.val_size ∧
      fm_place_index_go (m1.hashes.data ++ [fm_hash key]) m1.bucket_mask m1.buckets
        (fm_hash key &&& m1.bucket_mask) 0 m1.keys.data.length (m1.bucket_mask + 2) =
        some b2 ∧
      fm_put m key value = some { m1 with
        keys := fm_vec_push m1.keys key
        values := fm_vec_push m1.values value
        hashes := fm_vec_push m1.hashes (fm_hash key)
        buckets := b2 } := by
  obtain ⟨m1, hif, w1, hkeys, hvals, hhashes, hks, hvs, hbound, _⟩ := fm_put_step1_spec w
  obtain ⟨r, hr⟩ := fm_put_probe_some m1 key (m1.bucket_mask + 2)
    (fm_hash key &&& m1.bucket_mask) 0 (by omega) (by omega)
  have habs1 : ∀ i : Nat, some i ∈ m1.buckets → m1.keys.data.getD i [] ≠ key := by
    intro i hi
    have := w1.slot_valid i hi
    rw [hkeys] at this ⊢
    exact habs i this
  have hins := fm_put_probe_absent m1 key habs1 _ _ _ _ hr
  subst hins
  have hLlt : m1.keys.data.length < m1.bucket_count := by
    have := w1.bc_pos
    omega
  have hempty : 0 < m1.buckets.count none := by
    have := w1.empties
    omega
  obtain ⟨q, hqlen, hq⟩ := mem_exists_getD m1.buckets none none (count_pos_iff_mem.1 hempty)
  have hmasklen : m1.buckets.length = m1.bucket_mask + 1 := by
    rw [w1.buckets_len, ← w1.mask_eq]
  have hposlt : (fm_hash key &&& m1.bucket_mask) < m1.bucket_mask + 1 :=
    Nat.lt_succ_of_le (and_mask_le _ _)
  obtain ⟨t, htlt, ht⟩ := cyc_dist_exists (n := m1.bucket_mask + 1) hposlt
    (show q < m1.bucket_mask + 1 by omega)
  obtain ⟨b2, hb2⟩ := fm_place_index_go_some (m1.hashes.data ++ [fm_hash key])
    m1.bucket_mask w1.mask_pow
    (m1.bucket_mask + 2) m1.buckets (fm_hash key &&& m1.bucket_mask) 0
    m1.keys.data.length hmasklen (and_mask_le _ _)
    ⟨t, by omega, by omega, by rw [ht]; exact hq⟩
  refine ⟨m1, b2, w1, hkeys, hvals, hhashes, hks, hvs, hb2, ?_⟩
  unfold fm_put
  rw [hif, Option.some_bind]
  simp only
  rw [hr]
  unfold fm_place_index
  simp only [fm_vec_push]
  rw [hb2]
  rfl

/-- Walking the get probe along a path of occupied, non-matching,
non-early-exit slots of length `M` ending on a slot whose dense entry
stores the probed key returns that entry's value. -/
theorem fm_get_go_reach (m2 : _FastMap) (key value : List Nat) (x : Nat)
    (hkx : m2.keys.data.getD x [] = key)
    (hvx : m2.values.data.getD x [] = value) :
    ∀ (M s dist fuel : Nat), s ≤ m2.bucket_mask → M < fuel →
      (∀ i, i < M → ∃ y : Nat,
        m2.buckets.getD ((s + i) % (m2.bucket_mask + 1)) none = some y ∧
        m2.keys.data.getD y [] ≠ key ∧
        ¬((((s + i) % (m2.bucket_mask + 1)) + m2.bucket_mask + 1 -
            (m2.hashes.data.getD y 0 &&& m2.bucket_mask)) &&& m2.bucket_mask < dist + i)) →
      (∃ k, m2.bucket_mask + 1 = 2 ^ k) →
      m2.buckets.getD ((s + M) % (m2.bucket_mask + 1)) none = some x →
      fm_get_go m2 key s dist fuel = some value := by
  intro M
  induction M with
  | zero =>
    intro s dist fuel hsle hfuel _ _ hfind
    have hs0 : (s + 0) % (m2.bucket_mask + 1) = s := by
      rw [Nat.add_zero, Nat.mod_eq_of_lt (by omega)]
    rw [hs0] at hfind
    cases fuel with
    | zero => omega
    | succ f =>
      rw [fm_get_go, hfind]
      dsimp only
      rw [if_pos hkx, hvx]
  | succ M ihM =>
    intro s dist fuel hsle hfuel hpath Hm hfind
    have hs0 : (s + 0) % (m2.bucket_mask + 1) = s := by
      rw [Nat.add_zero, Nat.mod_eq_of_lt (by omega)]
    cases fuel with
    | zero => omega
    | succ f =>
      obtain ⟨y, hy, hyk, hyd⟩ := hpath 0 (by omega)
      rw [hs0] at hy hyd
      rw [fm_get_go, hy]
      dsimp only
      rw [if_neg hyk, if_neg (by rw [Nat.add_zero] at hyd; exact hyd)]
      have hshift : ∀ i, (((s + 1) &&& m2.bucket_mask) + i) % (m2.bucket_mask + 1) =
          (s + (1 + i)) % (m2.bucket_mask + 1) := by
        intro i
        rw [and_mask_eq_mod Hm]
        exact shift_mod m2.bucket_mask s i
      refine ihM ((s + 1) &&& m2.bucket_mask) (dist + 1) f (and_mask_le _ _)
        (by omega) ?_ Hm ?_
      · intro i hi
        obtain ⟨z, hz, hzk, hzd⟩ := hpath (1 + i) (by omega)
        refine ⟨z, ?_, hzk, ?_⟩
        · rw [hshift]
          exact hz
        · rw [hshift]
          intro hcontra
          apply hzd
          omega
      · rw [hshift]
        have harith : 1 + M = M + 1 := by omega
        rw [harith]
        exact hfind

/-- Running a put sequence on a reachable map always succeeds, reaches a
reachable state, and only ever stores keys that were already stored or
belong to the sequence. -/
theorem putsFrom_reach :
    ∀ (l : List (List Nat × List Nat)) (m : _FastMap), Reachable m →
      (∀ q ∈ l, q.1.length = m.key_size ∧ q.2.length = m.val_size) →
      ∃ m2, putsFrom m l = some m2 ∧ Reachable m2 ∧
        m2.key_size = m.key_size ∧ m2.val_size = m.val_size ∧
        (∀ x ∈ m2.keys.data, x ∈ m.keys.data ∨ ∃ q ∈ l, x = q.1) := by
  intro l
  induction l with
  | nil =>
    intro m hre _
    exact ⟨m, rfl, hre, rfl, rfl, fun x hx => Or.inl hx⟩
  | cons q rest ihl =>
    rcases q with ⟨qk, qv⟩
    intro m hre hsz
    have hq1 : qk.length = m.key_size := (hsz (qk, qv) (List.mem_cons_self _ _)).1
    have hq2 : qv.length = m.val_size := (hsz (qk, qv) (List.mem_cons_self _ _)).2
    obtain ⟨m1, hput, hwf1, hks1, hvs1, _, _, hsub1⟩ :=
      fm_put_spec (wf_reachable hre) qk qv hq1 hq2
    have hre1 : Reachable m1 := Reachable.put hre hq1 hq2 hput
    obtain ⟨m2, hrest, hre2, hks2, hvs2, hsub2⟩ := ihl m1 hre1
      (by
        intro r hr
        obtain ⟨h1, h2⟩ := hsz r (List.mem_cons_of_mem _ hr)
        rw [← hks1] at h1
        rw [← hvs1] at h2
        exact ⟨h1, h2⟩)
    refine ⟨m2, ?_, hre2, hks2.trans hks1, hvs2.trans hvs1, ?_⟩
    · rw [putsFrom, hput]
      exact hrest
    · intro x hx
      rcases hsub2 x hx with hx1 | ⟨r, hr, hxr⟩
      · rcases hsub1 x hx1 with hx2 | hx2
        · exact Or.inl hx2
        · exact Or.inr ⟨(qk, qv), List.mem_cons_self _ _, hx2⟩
      · exact Or.inr ⟨r, List.mem_cons_of_mem _ hr, hxr⟩

theorem putsFrom_append (l1 l2 : List (List Nat × List Nat)) :
    ∀ m, putsFrom m (l1 ++ l2) = (putsFrom m l1).bind (fun m1 => putsFrom m1 l2) := by
  induction l1 with
  | nil => intro m; rw [List.nil_append, putsFrom, Option.some_bind]
  | cons q rest ihl =>
    rcases q with ⟨qk, qv⟩
    intro m
    rw [List.cons_append, putsFrom, putsFrom]
    rcases hp : fm_put m qk qv with _ | m1
    · rfl
    · exact ihl m1

/-! ## Concrete states used by the claim witnesses -/

theorem reachable_wmap1 : Reachable wmap1 :=
  Reachable.put (Reachable.init 1 1)
    (show ([5] : List Nat).length = (fm_init 1 1).key_size from rfl)
    (show ([7] : List Nat).length = (fm_init 1 1).val_size from rfl)
    (show fm_put (fm_init 1 1) [5] [7] = some wmap1 by decide)

/-! ## The claims -/

/-- C9: the floating-point hash helpers normalize negative zero to
positive zero before hashing (`val == 0.0f` is IEEE equality, true exactly
for the two zero bit patterns, and the assignment stores `+0.0`), so
`fm_hash_float` agrees on the bit patterns of `-0.0f` and `0.0f`, and
`fm_hash_double` agrees on the bit patterns of `-0.0` and `0.0`; hence
float/double keys that compare equal under ordinary floating equality
hash equal. -/
theorem float_neg_zero_hash_eq :
    fm_hash_float 0x80000000 = fm_hash_float 0x00000000 ∧
    fm_hash_double 0x8000000000000000 = fm_hash_double 0x0000000000000000 :=
  ⟨rfl, rfl⟩

/-- C10: every public operation keeps the three parallel dense vectors in
lockstep (`keys.length = values.length = hashes.length`), and for every
dense position below that length the cached digest equals `fm_hash` of the
stored key bytes. -/
theorem dense_lockstep_hash_cache {m : _FastMap} (h : Reachable m) :
    m.values.data.length = m.keys.data.length ∧
    m.hashes.data.length = m.keys.data.length ∧
    ∀ i < m.keys.data.length,
      m.hashes.data.getD i 0 = fm_hash (m.keys.data.getD i []) :=
  ⟨(wf_reachable h).len_vals, (wf_reachable h).len_hashes, (wf_reachable h).hash_cache⟩

theorem dense_lockstep_hash_cache_witness :
    wmap1.values.data.length = wmap1.keys.data.length ∧
    wmap1.hashes.data.length = wmap1.keys.data.length ∧
    ∀ i < wmap1.keys.data.length,
      wmap1.hashes.data.getD i 0 = fm_hash (wmap1.keys.data.getD i []) :=
  dense_lockstep_hash_cache reachable_wmap1

/-- C5: after any sequence of put/erase/resize operations starting from
`fm_init`, the non-empty bucket slots reference only live dense positions
(below `length`), and each live dense position is referenced by exactly
one slot: the slots form a bijection onto `{0, …, length-1}`. -/
theorem bucket_bijection {m : _FastMap} (h : Reachable m) :
    (∀ i : Nat, some i ∈ m.buckets → i < m.keys.data.length) ∧
    (∀ i : Nat, i < m.keys.data.length → m.buckets.count (some i) = 1) :=
  ⟨(wf_reachable h).slot_valid, (wf_reachable h).slot_count⟩

theorem bucket_bijection_witness :
    (∀ i : Nat, some i ∈ wmap1.buckets → i < wmap1.keys.data.length) ∧
    (∀ i : Nat, i < wmap1.keys.data.length → wmap1.buckets.count (some i) = 1) :=
  bucket_bijection reachable_wmap1

/-- C4 fails as stated: the 13th insert into a fresh 16-bucket map leaves
`length = 13 > 16 × 0.80 = 12.8` (the load check runs before the insert,
so the table only grows on the following put).  The inserted keys are the
distinct single bytes 0, …, 12. -/
theorem load_factor_claim_counterexample :
    ∃ m, putsFrom (fm_init 1 1) puts13 = some m ∧
      m.bucket_count = 16 ∧ m.keys.data.length = 13 ∧
      4 * m.bucket_count < 5 * m.keys.data.length := by
  refine ⟨(putsFrom (fm_init 1 1) puts13).getD (fm_init 1 1),
    by decide, by decide, by decide, by decide⟩

/-- C4 (amended): after every `fm_put` on a reachable map,
`5 * length ≤ 4 * bucket_count + 4`, i.e. the length exceeds the 0.80
load threshold by strictly less than the single entry the put may have
pending (growth is checked before insertion, never after). -/
theorem load_factor_after_put {m : _FastMap} (h : Reachable m) (k v : List Nat)
    (hk : k.length = m.key_size) (hv : v.length = m.val_size) :
    ∃ m2, fm_put m k v = some m2 ∧
      5 * m2.keys.data.length ≤ 4 * m2.bucket_count + 4 := by
  obtain ⟨m2, heq, _, _, _, hload, _⟩ := fm_put_spec (wf_reachable h) k v hk hv
  exact ⟨m2, heq, hload⟩

theorem load_factor_after_put_witness :
    ∃ m2, fm_put (fm_init 1 1) [0] [1] = some m2 ∧
      5 * m2.keys.data.length ≤ 4 * m2.bucket_count + 4 :=
  load_factor_after_put (Reachable.init 1 1) [0] [1] rfl rfl

/-- C6: erasing a key that is not stored (byte-for-byte) in a reachable
map returns `false` and leaves the entire map state unchanged — the
result is the identical `_FastMap` value: same dense vectors (data and
capacities), same bucket array, same counts and sizes. -/
theorem erase_absent_noop {m : _FastMap} (h : Reachable m) (key : List Nat)
    (habs : ∀ i < m.keys.data.length, m.keys.data.getD i [] ≠ key) :
    fm_erase m key = some (false, m) := by
  have w := wf_reachable h
  obtain ⟨r, hr⟩ := fm_erase_probe_some m key (m.bucket_mask + 2)
    (fm_hash key &&& m.bucket_mask) 0 (by omega) (by omega)
  have habs2 : ∀ i : Nat, some i ∈ m.buckets → m.keys.data.getD i [] ≠ key :=
    fun i hi => habs i (w.slot_valid i hi)
  have hnf := fm_erase_probe_absent m key habs2 _ _ _ _ hr
  subst hnf
  unfold fm_erase
  dsimp only
  rw [hr]

theorem erase_absent_noop_witness : fm_erase wmap1 [9] = some (false, wmap1) :=
  erase_absent_noop reachable_wmap1 [9] (by decide)

/-- C7: `fm_resize` leaves the dense storage (keys, values and cached
digests, including their capacities and hence every dense position)
completely unchanged; its new bucket array is exactly the result of
re-running placement for the dense indices `0, …, length-1` in order,
reading only the cached digests; and it never re-hashes key bytes — any
map with the same cached digests and entry count (whatever its keys or
values) resizes to the same bucket array. -/
theorem resize_rebuild_frame {m m2 : _FastMap} {n : Nat}
    (h : fm_resize m n = some m2) :
    m2.keys = m.keys ∧ m2.values = m.values ∧ m2.hashes = m.hashes ∧
    fm_resize_loop m.hashes.data (n - 1) (List.replicate n none)
      (List.range m.keys.data.length) = some m2.buckets ∧
    (∀ q : _FastMap, q.hashes.data = m.hashes.data →
      q.keys.data.length = m.keys.data.length →
      (fm_resize q n).map _FastMap.buckets = some m2.buckets) := by
  obtain ⟨hkeys, hvals, hhashes, _, _, _, _, hloop⟩ := fm_resize_frame h
  refine ⟨hkeys, hvals, hhashes, hloop, ?_⟩
  intro q hqh hql
  unfold fm_resize
  dsimp only
  rw [hqh, hql, hloop]
  rfl

theorem resize_rebuild_frame_witness :
    ∃ m2, fm_resize wmap1 32 = some m2 ∧
      (m2.keys = wmap1.keys ∧ m2.values = wmap1.values ∧ m2.hashes = wmap1.hashes ∧
      fm_resize_loop wmap1.hashes.data (32 - 1) (List.replicate 32 none)
        (List.range wmap1.keys.data.length) = some m2.buckets ∧
      (∀ q : _FastMap, q.hashes.data = wmap1.hashes.data →
        q.keys.data.length = wmap1.keys.data.length →
        (fm_resize q 32).map _FastMap.buckets = some m2.buckets)) :=
  ⟨(fm_resize wmap1 32).getD wmap1,
    show fm_resize wmap1 32 = some ((fm_resize wmap1 32).getD wmap1) by decide,
    resize_rebuild_frame
      (show fm_resize wmap1 32 = some ((fm_resize wmap1 32).getD wmap1) by decide)⟩

/-- C8: the lookup and insertion paths work on exactly the raw key bytes
as passed (for a pointer-typed key these are the pointer's own bits, never
the referenced content), and match keys only by byte-for-byte equality
over `key_size` bytes: (a) a non-NULL `fm_get` result always comes from a
dense entry whose stored key bytes equal the query bytes exactly; (b) when
no stored key is byte-equal to the query — even if the query "means" the
same text at a different address — `fm_get` returns NULL; and (c) an
inserting `fm_put` stores the key bytes as passed, caching as its digest
`fm_hash` applied to exactly those bytes. -/
theorem byte_exact_matching {m : _FastMap} (h : Reachable m) (key : List Nat) :
    (∀ v, fm_get m key = some v →
      ∃ i, i < m.keys.data.length ∧ m.keys.data.getD i [] = key ∧
        m.values.data.getD i [] = v) ∧
    ((∀ i < m.keys.data.length, m.keys.data.getD i [] ≠ key) → fm_get m key = none) ∧
    ((∀ i < m.keys.data.length, m.keys.data.getD i [] ≠ key) →
      key.length = m.key_size → ∀ v, v.length = m.val_size →
      ∃ m2, fm_put m key v = some m2 ∧
        m2.keys.data = m.keys.data ++ [key] ∧
        m2.hashes.data = m.hashes.data ++ [fm_hash key]) := by
  have w := wf_reachable h
  refine ⟨?_, ?_, ?_⟩
  · intro v hget
    unfold fm_get at hget
    dsimp only at hget
    obtain ⟨i, hmem, hkey, hval⟩ := fm_get_go_sound m key _ _ _ _ hget
    exact ⟨i, w.slot_valid i hmem, hkey, hval⟩
  · intro habs
    unfold fm_get
    dsimp only
    exact fm_get_go_absent m key
      (fun i hi => habs i (w.slot_valid i hi)) _ _ _
  · intro habs hks v hvs
    obtain ⟨m1, b2, _, hkeys, _, hhashes, _, _, _, hput⟩ :=
      fm_put_insert_path w key v hks hvs habs
    refine ⟨_, hput, ?_, ?_⟩
    · simp only [fm_vec_push]
      rw [hkeys]
    · simp only [fm_vec_push]
      rw [hhashes]

/-- C1: for every sequence of `fm_put` calls with pairwise distinct keys
(byte-wise distinct over `key_size`), calling `fm_get` with one of those
keys immediately after its `fm_put` returns a non-NULL pointer (`some`)
to exactly the value bytes passed to that put.  The sequence is split as
`l1 ++ [(key, value)]`: the get runs in the state right after `key`'s
put. -/
theorem get_after_put_roundtrip (l1 : List (List Nat × List Nat))
    (key value : List Nat) (ks vs : Nat)
    (hsz : ∀ q ∈ l1 ++ [(key, value)], q.1.length = ks ∧ q.2.length = vs)
    (hdist : ((l1 ++ [(key, value)]).map Prod.fst).Nodup) :
    ∃ m2, putsFrom (fm_init ks vs) (l1 ++ [(key, value)]) = some m2 ∧
      fm_get m2 key = some value := by
  obtain ⟨m1, hl1, hre1, hks1, hvs1, hsub1⟩ := putsFrom_reach l1 (fm_init ks vs)
    (Reachable.init ks vs)
    (fun q hq => hsz q (List.mem_append_left _ hq))
  have hkeymem : key ∈ (l1 ++ [(key, value)]).map Prod.fst :=
    List.mem_map.2 ⟨(key, value), List.mem_append_right _ (List.mem_singleton.2 rfl), rfl⟩
  have hkeynotl1 : key ∉ l1.map Prod.fst := by
    rw [List.map_append] at hdist
    have hdisj := (List.nodup_append.1 hdist).2.2
    intro hmem
    exact hdisj hmem (by simp)
  have habs : ∀ i < m1.keys.data.length, m1.keys.data.getD i [] ≠ key := by
    intro i hi hEq
    have hmem := getD_mem m1.keys.data i [] hi
    rcases hsub1 _ hmem with hx | ⟨q, hq, hxq⟩
    · simp [fm_init] at hx
    · apply hkeynotl1
      rw [hEq] at hxq
      exact List.mem_map.2 ⟨q, hq, hxq.symm⟩
  have w1 := wf_reachable hre1
  have hklen : key.length = m1.key_size := by
    rw [hks1]
    exact (hsz (key, value) (List.mem_append_right _ (List.mem_singleton.2 rfl))).1
  have hvlen : value.length = m1.val_size := by
    rw [hvs1]
    exact (hsz (key, value) (List.mem_append_right _ (List.mem_singleton.2 rfl))).2
  obtain ⟨m1x, b2, w1x, hkeysx, hvalsx, hhashesx, hksx, hvsx, hplace, hput⟩ :=
    fm_put_insert_path w1 key value hklen hvlen habs
  have hmasklenx : m1x.buckets.length = m1x.bucket_mask + 1 := by
    rw [w1x.buckets_len, ← w1x.mask_eq]
  have hxv : ∀ v : Nat, some v ∈ m1x.buckets → v ≠ m1x.keys.data.length := by
    intro v hv hEq
    have := w1x.slot_valid v hv
    omega
  have hnodupv : ∀ v : Nat, some v ∈ m1x.buckets → m1x.buckets.count (some v) = 1 :=
    fun v hv => w1x.slot_count v (w1x.slot_valid v hv)
  obtain ⟨T, M, hMT, hTlt, hOcc, hEmpty, hFrame, hFind, hPath⟩ :=
    fm_place_index_go_trace (m1x.hashes.data ++ [fm_hash key]) m1x.bucket_mask
      w1x.mask_pow (m1x.bucket_mask + 2) m1x.buckets (fm_hash key &&& m1x.bucket_mask)
      0 m1x.keys.data.length b2 hmasklenx (and_mask_le _ _) hxv hnodupv hplace
  refine ⟨{ m1x with
      keys := fm_vec_push m1x.keys key
      values := fm_vec_push m1x.values value
      hashes := fm_vec_push m1x.hashes (fm_hash key)
      buckets := b2 }, ?_, ?_⟩
  · rw [putsFrom_append, hl1, Option.some_bind, putsFrom, hput]
    rfl
  · unfold fm_get
    dsimp only
    refine fm_get_go_reach _ key value m1x.keys.data.length ?_ ?_ M
      (fm_hash key &&& m1x.bucket_mask) 0 (m1x.bucket_mask + 2)
      (and_mask_le _ _) (by omega) ?_ w1x.mask_pow ?_
    · show (m1x.keys.data ++ [key]).getD m1x.keys.data.length [] = key
      rw [getD_append_right _ _ _ _ (Nat.le_refl _), Nat.sub_self]
      rfl
    · show (m1x.values.data ++ [value]).getD m1x.keys.data.length [] = value
      rw [getD_append_right _ _ _ _ (by rw [w1x.len_vals]), w1x.len_vals, Nat.sub_self]
      rfl
    · intro i hi
      have hocc := hOcc i (by omega)
      rcases hb : m1x.buckets.getD
          (((fm_hash key &&& m1x.bucket_mask) + i) % (m1x.bucket_mask + 1)) none
        with _ | y
      · exact absurd hb hocc
      · have hmemy : some y ∈ m1x.buckets := by
          rcases getD_mem_or m1x.buckets
            (((fm_hash key &&& m1x.bucket_mask) + i) % (m1x.bucket_mask + 1)) none with
            hm | hm
          · rw [hb] at hm; exact hm
          · rw [hb] at hm; exact Option.noConfusion hm
        have hylt : y < m1x.keys.data.length := w1x.slot_valid y hmemy
        obtain ⟨hp1, hp2⟩ := hPath i hi
        refine ⟨y, ?_, ?_, ?_⟩
        · show b2.getD _ none = some y
          rw [hp1]
          exact hb
        · show (m1x.keys.data ++ [key]).getD y [] ≠ key
          rw [getD_append_lt _ _ _ _ hylt]
          have := habs y (by rw [← congrArg (fun t => t.data.length) hkeysx]; exact hylt)
          rw [← congrArg fm_vector.data hkeysx] at this
          exact this
        · exact hp2 y hb
    · show b2.getD (((fm_hash key &&& m1x.bucket_mask) + M) % (m1x.bucket_mask + 1)) none =
        some m1x.keys.data.length
      exact hFind

theorem get_after_put_roundtrip_witness :
    ∃ m2, putsFrom (fm_init 1 1) ([([3], [30])] ++ [([5], [50])]) = some m2 ∧
      fm_get m2 [5] = some [50] :=
  get_after_put_roundtrip [([3], [30])] [5] [50] 1 1 (by decide) (by decide)

theorem byte_exact_matching_witness :
    (∀ v, fm_get wmap1 [6] = some v →
      ∃ i, i < wmap1.keys.data.length ∧ wmap1.keys.data.getD i [] = [6] ∧
        wmap1.values.data.getD i [] = v) ∧
    ((∀ i < wmap1.keys.data.length, wmap1.keys.data.getD i [] ≠ [6]) →
      fm_get wmap1 [6] = none) ∧
    ((∀ i < wmap1.keys.data.length, wmap1.keys.data.getD i [] ≠ [6]) →
      ([6] : List Nat).length = wmap1.key_size → ∀ v, v.length = wmap1.val_size →
      ∃ m2, fm_put wmap1 [6] v = some m2 ∧
        m2.keys.data = wmap1.keys.data ++ [[6]] ∧
        m2.hashes.data = wmap1.hashes.data ++ [fm_hash [6]]) :=
  byte_exact_matching reachable_wmap1 [6]

/-! ## Cyclic distance toolkit -/

theorem cdist_lt {n : Nat} (hn : 0 < n) (pos ideal : Nat) : cdist n pos ideal < n :=
  Nat.mod_lt _ hn

theorem cdist_offset {n a o : Nat} (ha : a < n) (ho : o < n) :
    cdist n ((a + o) % n) a = o := by
  unfold cdist
  rcases Nat.lt_or_ge (a + o) n with h | h
  · rw [Nat.mod_eq_of_lt h]
    have h2 : a + o + n - a = o + n := by omega
    rw [h2, Nat.add_mod_right, Nat.mod_eq_of_lt ho]
  · have h2 : (a + o) % n = a + o - n := by
      rw [Nat.mod_eq_sub_mod h, Nat.mod_eq_of_lt (by omega)]
    rw [h2]
    have h3 : a + o - n + n - a = o := by omega
    rw [h3, Nat.mod_eq_of_lt ho]

theorem cdist_recover {n t a : Nat} (ht : t < n) (ha : a < n) :
    (a + cdist n t a) % n = t := by
  unfold cdist
  rw [Nat.add_mod_mod]
  have h1 : a + (t + n - a) = t + n := by omega
  rw [h1, Nat.add_mod_right, Nat.mod_eq_of_lt ht]

/-- The C probe-distance expression is `cdist` of the table size. -/
theorem code_dist_eq {mask : Nat} (Hm : ∃ k, mask + 1 = 2 ^ k) (pos ideal : Nat) :
    (pos + mask + 1 - ideal) &&& mask = cdist (mask + 1) pos ideal := by
  rw [and_mask_eq_mod Hm]
  unfold cdist
  congr 1

/-- The C ideal-slot expression `h & mask` is `h mod (mask+1)`. -/
theorem code_ideal_eq {mask : Nat} (Hm : ∃ k, mask + 1 = 2 ^ k) (h : Nat) :
    h &&& mask = h % (mask + 1) := and_mask_eq_mod Hm h

/-! ## A positional pigeonhole bound for occupied probe paths -/

theorem occupied_count_split (b : List (Option Nat)) :
    b.count none +
      ((List.range b.length).filter (fun j => b.getD j none != none)).length =
      b.length := by
  induction b with
  | nil => rfl
  | cons hd tl ih =>
    have htail2 : ∀ (l : List Nat),
        List.filter (fun j => (hd :: tl).getD j none != none) (List.map Nat.succ l) =
        List.map Nat.succ (List.filter (fun j => tl.getD j none != none) l) := by
      intro l
      induction l with
      | nil => rfl
      | cons a l2 ihl =>
        rw [List.map_cons, List.filter_cons, List.filter_cons, List.getD_cons_succ]
        by_cases hc : (tl.getD a none != none) = true
        · rw [if_pos hc, if_pos hc, List.map_cons, ihl]
        · rw [if_neg hc, if_neg hc, ihl]
    rw [List.count_cons, List.length_cons, List.range_succ_eq_map, List.filter_cons,
      htail2]
    rcases hd with _ | v
    · have c1 : (((none : Option Nat) :: tl).getD 0 none != none) = false := rfl
      have c2 : ((none : Option Nat) == none) = true := rfl
      rw [c1, c2]
      simp only [Bool.false_eq_true, if_false, if_true, List.length_map]
      omega
    · have c1 : ((some v :: tl).getD 0 none != none) = true := rfl
      have c2 : ((some v : Option Nat) == none) = false := rfl
      rw [c1, c2]
      simp only [Bool.false_eq_true, if_false, if_true, List.length_cons, List.length_map]
      omega

/-- Pigeonhole: a forward walk of `k` distinct slots that are all occupied
leaves at most `n - k` slots empty. -/
theorem occupied_walk_bound {b : List (Option Nat)} {n a k : Nat} (hlen : b.length = n)
    (hk : k ≤ n) (han : a < n)
    (hocc : ∀ o, o < k → b.getD ((a + o) % n) none ≠ none) :
    k + b.count none ≤ n := by
  have hnodupS : ((List.range k).map (fun o => (a + o) % n)).Nodup := by
    refine List.Nodup.map_on ?_ (List.nodup_range k)
    intro x hx y hy hEq
    rw [List.mem_range] at hx hy
    have hx2 := cdist_offset han (show x < n by omega)
    have hy2 := cdist_offset han (show y < n by omega)
    rw [hEq] at hx2
    rw [hx2] at hy2
    exact hy2
  have hsub : ((List.range k).map (fun o => (a + o) % n)) ⊆
      (List.range b.length).filter (fun j => b.getD j none != none) := by
    intro j hj
    rw [List.mem_map] at hj
    obtain ⟨o, ho, hjo⟩ := hj
    rw [List.mem_range] at ho
    rw [List.mem_filter]
    constructor
    · rw [List.mem_range, hlen, ← hjo]
      exact Nat.mod_lt _ (by omega)
    · rw [← hjo]
      simp only [bne_iff_ne, ne_eq]
      exact hocc o ho
  have hlenS : ((List.range k).map (fun o => (a + o) % n)).length = k := by
    rw [List.length_map, List.length_range]
  have hle := (List.subperm_of_subset hnodupS hsub).length_le
  rw [hlenS] at hle
  have hsplit := occupied_count_split b
  omega

/-! ## More cyclic-distance lemmas -/

theorem cdist_self {n a : Nat} : cdist n a a = 0 := by
  unfold cdist
  have h1 : a + n - a = n := by omega
  rw [h1, Nat.mod_self]

theorem cdist_chain {n a u v : Nat} (ha : a ≤ n) (hu : u ≤ n) :
    cdist n v a = (cdist n u a + cdist n v u) % n := by
  unfold cdist
  rw [Nat.add_mod, Nat.mod_mod_of_dvd _ (Nat.dvd_refl n), Nat.mod_mod_of_dvd _ (Nat.dvd_refl n)]
  rw [← Nat.add_mod]
  have h1 : u + n - a + (v + n - u) = v + n - a + n := by omega
  rw [h1, Nat.add_mod_right]

theorem cdist_eq_zero_iff {n t a : Nat} (hn : 0 < n) (ht : t < n) (ha : a < n) :
    cdist n t a = 0 ↔ t = a := by
  constructor
  · intro h
    have h2 := cdist_recover ht ha
    rw [h, Nat.add_zero, Nat.mod_eq_of_lt ha] at h2
    exact h2.symm
  · intro h
    subst h
    exact cdist_self

theorem cdist_step {n s a : Nat} (hs : s < n) (ha : a < n) :
    cdist n ((s + 1) % n) a = (cdist n s a + 1) % n := by
  have hc := cdist_recover hs ha
  conv_lhs => rw [← hc]
  rw [Nat.mod_add_mod]
  have h2 : a + cdist n s a + 1 = a + (cdist n s a + 1) := by omega
  rw [h2]
  rcases Nat.lt_or_ge (cdist n s a + 1) n with h | h
  · rw [cdist_offset ha h, Nat.mod_eq_of_lt h]
  · have hlt := cdist_lt (show 0 < n by omega) s a
    have h3 : cdist n s a + 1 = n := by omega
    rw [h3]
    have h4 : (a + n) % n = a % n := Nat.add_mod_right a n
    rw [h4, Nat.mod_eq_of_lt ha, Nat.mod_self]
    exact cdist_self

/-- Two distinct in-range positions holding the same value give count at
least two. -/
theorem count_two_of_getD :
    ∀ (b : List (Option Nat)) (p q : Nat) (v : Option Nat), p < q → q < b.length →
      b.getD p none = v → b.getD q none = v → 2 ≤ b.count v := by
  intro b
  induction b with
  | nil => intro p q v _ hq _ _; simp at hq
  | cons hd tl ih =>
    intro p q v hpq hq hp hqv
    rcases p with _ | p2
    · rcases q with _ | q2
      · omega
      · rw [List.getD_cons_zero] at hp
        rw [List.getD_cons_succ] at hqv
        have hmem : v ∈ tl := by
          rw [← hqv]
          exact getD_mem tl q2 none (by simpa using hq)
        rw [List.count_cons, hp]
        have := count_pos_iff_mem.2 hmem
        simp only [BEq.refl, if_true]
        omega
    · rcases q with _ | q2
      · omega
      · rw [List.getD_cons_succ] at hp hqv
        have := ih p2 q2 v (by omega) (by simpa using hq) hp hqv
        rw [List.count_cons]
        omega

/-! ## Probe walks that find a stored key -/

/-- The put probe, walking a valid path to the slot holding `x`, reports
an in-place update of `x`. -/
theorem fm_put_probe_reach (m : _FastMap) (key : List Nat) (x : Nat)
    (hkx : m.keys.data.getD x [] = key) :
    ∀ (M s dist fuel : Nat), s ≤ m.bucket_mask → M < fuel →
      (∀ i, i < M → ∃ y : Nat,
        m.buckets.getD ((s + i) % (m.bucket_mask + 1)) none = some y ∧
        m.keys.data.getD y [] ≠ key ∧
        ¬((((s + i) % (m.bucket_mask + 1)) + m.bucket_mask + 1 -
            (m.hashes.data.getD y 0 &&& m.bucket_mask)) &&& m.bucket_mask < dist + i)) →
      (∃ k, m.bucket_mask + 1 = 2 ^ k) →
      m.buckets.getD ((s + M) % (m.bucket_mask + 1)) none = some x →
      ¬((((s + M) % (m.bucket_mask + 1)) + m.bucket_mask + 1 -
          (m.hashes.data.getD x 0 &&& m.bucket_mask)) &&& m.bucket_mask < dist + M) →
      fm_put_probe m key s dist fuel = some (PutProbe.update x) := by
  intro M
  induction M with
  | zero =>
    intro s dist fuel hsle hfuel _ _ hfind hxdist
    have hs0 : (s + 0) % (m.bucket_mask + 1) = s := by
      rw [Nat.add_zero, Nat.mod_eq_of_lt (by omega)]
    rw [hs0] at hfind hxdist
    cases fuel with
    | zero => omega
    | succ f =>
      rw [fm_put_probe, hfind]
      dsimp only
      rw [if_neg (by rw [Nat.add_zero] at hxdist; exact hxdist), if_pos hkx]
  | succ M ihM =>
    intro s dist fuel hsle hfuel hpath Hm hfind hxdist
    have hs0 : (s + 0) % (m.bucket_mask + 1) = s := by
      rw [Nat.add_zero, Nat.mod_eq_of_lt (by omega)]
    cases fuel with
    | zero => omega
    | succ f =>
      obtain ⟨y, hy, hyk, hyd⟩ := hpath 0 (by omega)
      rw [hs0] at hy hyd
      rw [fm_put_probe, hy]
      dsimp only
      rw [if_neg (by rw [Nat.add_zero] at hyd; exact hyd), if_neg hyk]
      have hshift : ∀ i, (((s + 1) &&& m.bucket_mask) + i) % (m.bucket_mask + 1) =
          (s + (1 + i)) % (m.bucket_mask + 1) := by
        intro i
        rw [and_mask_eq_mod Hm]
        exact shift_mod m.bucket_mask s i
      have harith : 1 + M = M + 1 := by omega
      refine ihM ((s + 1) &&& m.bucket_mask) (dist + 1) f (and_mask_le _ _)
        (by omega) ?_ Hm ?_ ?_
      · intro i hi
        obtain ⟨z, hz, hzk, hzd⟩ := hpath (1 + i) (by omega)
        refine ⟨z, ?_, hzk, ?_⟩
        · rw [hshift]
          exact hz
        · rw [hshift]
          intro hcontra
          apply hzd
          omega
      · rw [hshift, harith]
        exact hfind
      · rw [hshift, harith]
        intro hcontra
        apply hxdist
        omega

/-- Same walk for the erase probe: it reports the bucket and dense
position of the stored key. -/
theorem fm_erase_probe_reach (m : _FastMap) (key : List Nat) (x : Nat)
    (hkx : m.keys.data.getD x [] = key) :
    ∀ (M s dist fuel : Nat), s ≤ m.bucket_mask → M < fuel →
      (∀ i, i < M → ∃ y : Nat,
        m.buckets.getD ((s + i) % (m.bucket_mask + 1)) none = some y ∧
        m.keys.data.getD y [] ≠ key ∧
        ¬((((s + i) % (m.bucket_mask + 1)) + m.bucket_mask + 1 -
            (m.hashes.data.getD y 0 &&& m.bucket_mask)) &&& m.bucket_mask < dist + i)) →
      (∃ k, m.bucket_mask + 1 = 2 ^ k) →
      m.buckets.getD ((s + M) % (m.bucket_mask + 1)) none = some x →
      ¬((((s + M) % (m.bucket_mask + 1)) + m.bucket_mask + 1 -
          (m.hashes.data.getD x 0 &&& m.bucket_mask)) &&& m.bucket_mask < dist + M) →
      fm_erase_probe m key s dist fuel =
        some (EraseProbe.found ((s + M) % (m.bucket_mask + 1)) x) := by
  intro M
  induction M with
  | zero =>
    intro s dist fuel hsle hfuel _ _ hfind hxdist
    have hs0 : (s + 0) % (m.bucket_mask + 1) = s := by
      rw [Nat.add_zero, Nat.mod_eq_of_lt (by omega)]
    rw [hs0] at hfind hxdist ⊢
    cases fuel with
    | zero => omega
    | succ f =>
      rw [fm_erase_probe, hfind]
      dsimp only
      rw [if_neg (by rw [Nat.add_zero] at hxdist; exact hxdist), if_pos hkx]
  | succ M ihM =>
    intro s dist fuel hsle hfuel hpath Hm hfind hxdist
    have hs0 : (s + 0) % (m.bucket_mask + 1) = s := by
      rw [Nat.add_zero, Nat.mod_eq_of_lt (by omega)]
    cases fuel with
    | zero => omega
    | succ f =>
      obtain ⟨y, hy, hyk, hyd⟩ := hpath 0 (by omega)
      rw [hs0] at hy hyd
      rw [fm_erase_probe, hy]
      dsimp only
      rw [if_neg (by rw [Nat.add_zero] at hyd; exact hyd), if_neg hyk]
      have hshift : ∀ i, (((s + 1) &&& m.bucket_mask) + i) % (m.bucket_mask + 1) =
          (s + (1 + i)) % (m.bucket_mask + 1) := by
        intro i
        rw [and_mask_eq_mod Hm]
        exact shift_mod m.bucket_mask s i
      have harith : 1 + M = M + 1 := by omega
      have hgoal := ihM ((s + 1) &&& m.bucket_mask) (dist + 1) f (and_mask_le _ _)
        (by omega)
        (by
          intro i hi
          obtain ⟨z, hz, hzk, hzd⟩ := hpath (1 + i) (by omega)
          refine ⟨z, ?_, hzk, ?_⟩
          · rw [hshift]
            exact hz
          · rw [hshift]
            intro hcontra
            apply hzd
            omega)
        Hm
        (by rw [hshift, harith]; exact hfind)
        (by
          rw [hshift, harith]
          intro hcontra
          apply hxdist
          omega)
      rw [hgoal, hshift, harith]

/-! ## Present keys are found by every probe -/

/-- From the probe-path invariant, the walk from a stored entry's ideal
slot to its bucket meets only occupied slots holding other keys and never
triggers the Robin Hood early exit, stated in the code's masked
arithmetic. -/
theorem present_path {m : _FastMap} (w : WF m)
    (hsp : SlotPath m.hashes.data (m.bucket_mask + 1) m.buckets)
    (hkd : KeysDistinct m) {i t : Nat} (hi : i < m.keys.data.length)
    (ht : t < m.bucket_mask + 1) (hslot : m.buckets.getD t none = some i) :
    ∀ o, o < cdist (m.bucket_mask + 1) t
        (m.hashes.data.getD i 0 % (m.bucket_mask + 1)) →
      ∃ y, m.buckets.getD
          ((m.hashes.data.getD i 0 % (m.bucket_mask + 1) + o) % (m.bucket_mask + 1))
          none = some y ∧
        m.keys.data.getD y [] ≠ m.keys.data.getD i [] ∧
        ¬((((m.hashes.data.getD i 0 % (m.bucket_mask + 1) + o) % (m.bucket_mask + 1)) +
            m.bucket_mask + 1 - (m.hashes.data.getD y 0 &&& m.bucket_mask)) &&&
            m.bucket_mask < 0 + o) := by
  intro o ho
  have hn : 0 < m.bucket_mask + 1 := by omega
  have hideal : m.hashes.data.getD i 0 % (m.bucket_mask + 1) < m.bucket_mask + 1 :=
    Nat.mod_lt _ hn
  obtain ⟨y, hy, hyd⟩ := hsp t i ht hslot o ho
  have hoM := cdist_lt hn t (m.hashes.data.getD i 0 % (m.bucket_mask + 1))
  have hposd : cdist (m.bucket_mask + 1)
      ((m.hashes.data.getD i 0 % (m.bucket_mask + 1) + o) % (m.bucket_mask + 1))
      (m.hashes.data.getD i 0 % (m.bucket_mask + 1)) = o :=
    cdist_offset hideal (by omega)
  have hblen : m.buckets.length = m.bucket_mask + 1 := by
    rw [w.buckets_len, ← w.mask_eq]
  have hposlt : (m.hashes.data.getD i 0 % (m.bucket_mask + 1) + o) % (m.bucket_mask + 1) <
      m.buckets.length := by rw [hblen]; exact Nat.mod_lt _ hn
  have hyi : y ≠ i := by
    intro hcontra
    rw [hcontra] at hy
    have hcnt := w.slot_count i hi
    have hne : (m.hashes.data.getD i 0 % (m.bucket_mask + 1) + o) % (m.bucket_mask + 1) ≠ t := by
      intro hEq
      rw [hEq] at hposd
      omega
    rcases Nat.lt_trichotomy
        ((m.hashes.data.getD i 0 % (m.bucket_mask + 1) + o) % (m.bucket_mask + 1)) t with
        hlt | hEq | hgt
    · have := count_two_of_getD m.buckets _ t (some i) hlt (by omega) hy hslot
      omega
    · exact hne hEq
    · have := count_two_of_getD m.buckets t _ (some i) hgt hposlt hslot hy
      omega
  have hylen : y < m.keys.data.length :=
    w.slot_valid y (by rw [← hy]; exact getD_mem m.buckets _ none hposlt)
  refine ⟨y, hy, ?_, ?_⟩
  · rcases Nat.lt_trichotomy y i with hlt | hEq | hgt
    · exact hkd y i hlt hi
    · exact absurd hEq hyi
    · exact fun hc => hkd i y hgt hylen hc.symm
  · rw [code_dist_eq w.mask_pow, code_ideal_eq w.mask_pow]
    omega

/-- A key stored at dense position `i` of a well-formed map satisfying
the probe-path invariant is found by `fm_get`, which returns the stored
value bytes. -/
theorem fm_get_present {m : _FastMap} (w : WF m)
    (hsp : SlotPath m.hashes.data (m.bucket_mask + 1) m.buckets)
    (hkd : KeysDistinct m) {i : Nat} (hi : i < m.keys.data.length) :
    fm_get m (m.keys.data.getD i []) = some (m.values.data.getD i []) := by
  have hn : 0 < m.bucket_mask + 1 := by omega
  have hmem : some i ∈ m.buckets := count_pos_iff_mem.1 (by
    rw [w.slot_count i hi]; omega)
  obtain ⟨t, htlen, ht⟩ := mem_exists_getD m.buckets (some i) none hmem
  have htn : t < m.bucket_mask + 1 := by
    rw [w.buckets_len, ← w.mask_eq] at htlen; exact htlen
  have hhash : fm_hash (m.keys.data.getD i []) = m.hashes.data.getD i 0 :=
    (w.hash_cache i hi).symm
  have hideal : m.hashes.data.getD i 0 % (m.bucket_mask + 1) < m.bucket_mask + 1 :=
    Nat.mod_lt _ hn
  show fm_get_go m (m.keys.data.getD i [])
      (fm_hash (m.keys.data.getD i []) &&& m.bucket_mask) 0 (m.bucket_mask + 2) =
      some (m.values.data.getD i [])
  rw [hhash, code_ideal_eq w.mask_pow]
  refine fm_get_go_reach m _ _ i rfl rfl
    (cdist (m.bucket_mask + 1) t (m.hashes.data.getD i 0 % (m.bucket_mask + 1)))
    (m.hashes.data.getD i 0 % (m.bucket_mask + 1)) 0 (m.bucket_mask + 2)
    (by omega)
    (by have := cdist_lt hn t (m.hashes.data.getD i 0 % (m.bucket_mask + 1)); omega)
    (fun o ho => present_path w hsp hkd hi htn ht o ho) w.mask_pow ?_
  rw [cdist_recover htn hideal]
  exact ht

/-- Same, for the put probe: it reports an in-place update at dense
position `i`. -/
theorem fm_put_probe_present {m : _FastMap} (w : WF m)
    (hsp : SlotPath m.hashes.data (m.bucket_mask + 1) m.buckets)
    (hkd : KeysDistinct m) {i : Nat} (hi : i < m.keys.data.length) :
    fm_put_probe m (m.keys.data.getD i [])
      (fm_hash (m.keys.data.getD i []) &&& m.bucket_mask) 0 (m.bucket_mask + 2) =
      some (PutProbe.update i) := by
  have hn : 0 < m.bucket_mask + 1 := by omega
  have hmem : some i ∈ m.buckets := count_pos_iff_mem.1 (by
    rw [w.slot_count i hi]; omega)
  obtain ⟨t, htlen, ht⟩ := mem_exists_getD m.buckets (some i) none hmem
  have htn : t < m.bucket_mask + 1 := by
    rw [w.buckets_len, ← w.mask_eq] at htlen; exact htlen
  have hhash : fm_hash (m.keys.data.getD i []) = m.hashes.data.getD i 0 :=
    (w.hash_cache i hi).symm
  have hideal : m.hashes.data.getD i 0 % (m.bucket_mask + 1) < m.bucket_mask + 1 :=
    Nat.mod_lt _ hn
  rw [hhash, code_ideal_eq w.mask_pow]
  refine fm_put_probe_reach m _ i rfl
    (cdist (m.bucket_mask + 1) t (m.hashes.data.getD i 0 % (m.bucket_mask + 1)))
    (m.hashes.data.getD i 0 % (m.bucket_mask + 1)) 0 (m.bucket_mask + 2)
    (by omega)
    (by have := cdist_lt hn t (m.hashes.data.getD i 0 % (m.bucket_mask + 1)); omega)
    (fun o ho => present_path w hsp hkd hi htn ht o ho) w.mask_pow ?_ ?_
  · rw [cdist_recover htn hideal]
    exact ht
  · rw [cdist_recover htn hideal, code_dist_eq w.mask_pow, code_ideal_eq w.mask_pow]
    omega

/-- Same, for the erase probe: it reports the bucket slot and dense
position holding the key. -/
theorem fm_erase_probe_present {m : _FastMap} (w : WF m)
    (hsp : SlotPath m.hashes.data (m.bucket_mask + 1) m.buckets)
    (hkd : KeysDistinct m) {i t : Nat} (hi : i < m.keys.data.length)
    (ht : t < m.bucket_mask + 1) (hslot : m.buckets.getD t none = some i) :
    fm_erase_probe m (m.keys.data.getD i [])
      (fm_hash (m.keys.data.getD i []) &&& m.bucket_mask) 0 (m.bucket_mask + 2) =
      some (EraseProbe.found t i) := by
  have hn : 0 < m.bucket_mask + 1 := by omega
  have hhash : fm_hash (m.keys.data.getD i []) = m.hashes.data.getD i 0 :=
    (w.hash_cache i hi).symm
  have hideal : m.hashes.data.getD i 0 % (m.bucket_mask + 1) < m.bucket_mask + 1 :=
    Nat.mod_lt _ hn
  rw [hhash, code_ideal_eq w.mask_pow]
  have hrec : (m.hashes.data.getD i 0 % (m.bucket_mask + 1) +
      cdist (m.bucket_mask + 1) t (m.hashes.data.getD i 0 % (m.bucket_mask + 1))) %
      (m.bucket_mask + 1) = t := cdist_recover ht hideal
  have hgoal := fm_erase_probe_reach m _ i rfl
    (cdist (m.bucket_mask + 1) t (m.hashes.data.getD i 0 % (m.bucket_mask + 1)))
    (m.hashes.data.getD i 0 % (m.bucket_mask + 1)) 0 (m.bucket_mask + 2)
    (by omega)
    (by have := cdist_lt hn t (m.hashes.data.getD i 0 % (m.bucket_mask + 1)); omega)
    (fun o ho => present_path w hsp hkd hi ht hslot o ho) w.mask_pow
    (by rw [hrec]; exact hslot)
    (by rw [hrec, code_dist_eq w.mask_pow, code_ideal_eq w.mask_pow]; omega)
  rw [hgoal, hrec]

/-! ## Placement preserves the probe-path invariant -/

/-- The Robin Hood placement loop preserves `SlotPath`: if the walker's
distance is truthful for the entry it carries and the walk so far covers
only occupied slots whose own distances dominate the walker's, then the
bucket array produced by `fm_place_index_go` again satisfies the
invariant. -/
theorem fm_place_index_go_slotpath (H : List Nat) (mask : Nat)
    (Hm : ∃ k, mask + 1 = 2 ^ k) :
    ∀ (fuel : Nat) (b : List (Option Nat)) (s d x : Nat) (b2 : List (Option Nat)),
      b.length = mask + 1 → s < mask + 1 →
      d = cdist (mask + 1) s (H.getD x 0 % (mask + 1)) →
      (∀ o, o < d →
        ∃ y, b.getD ((H.getD x 0 % (mask + 1) + o) % (mask + 1)) none = some y ∧
          o ≤ cdist (mask + 1) ((H.getD x 0 % (mask + 1) + o) % (mask + 1))
            (H.getD y 0 % (mask + 1))) →
      SlotPath H (mask + 1) b →
      0 < b.count none →
      fm_place_index_go H mask b s d x fuel = some b2 →
      SlotPath H (mask + 1) b2 := by
  intro fuel
  induction fuel with
  | zero => intro b s d x b2 _ _ _ _ _ _ h; simp [fm_place_index_go] at h
  | succ fuel ih =>
    intro b s d x b2 hlen hs hd hw hsp hemp h
    have hn : 0 < mask + 1 := by omega
    have hix : H.getD x 0 % (mask + 1) < mask + 1 := Nat.mod_lt _ hn
    have hdlt : d < mask + 1 := by rw [hd]; exact cdist_lt hn _ _
    have hrecx : (H.getD x 0 % (mask + 1) + d) % (mask + 1) = s := by
      rw [hd]; exact cdist_recover hs hix
    rw [fm_place_index_go] at h
    rcases hbs : b.getD s none with _ | e
    · rw [hbs] at h
      simp only [Option.some.injEq] at h
      subst h
      intro t' j ht' hslot'
      by_cases hts : t' = s
      · subst hts
        rw [getD_set_self _ _ _ _ (by omega)] at hslot'
        have hxj : x = j := Option.some.inj hslot'
        subst hxj
        intro o ho
        obtain ⟨y, hy, hyd⟩ := hw o (by rw [hd]; exact ho)
        have hne : t' ≠ (H.getD x 0 % (mask + 1) + o) % (mask + 1) := by
          intro hEq
          have h2 := cdist_offset hix (show o < mask + 1 by omega)
          rw [← hEq] at h2
          omega
        exact ⟨y, by rw [getD_set_ne _ _ _ hne]; exact hy, hyd⟩
      · have hslot2 : b.getD t' none = some j := by
          rw [getD_set_ne _ _ _ (fun hEq => hts hEq.symm)] at hslot'
          exact hslot'
        intro o ho
        obtain ⟨y, hy, hyd⟩ := hsp t' j ht' hslot2 o ho
        have hne : s ≠ (H.getD j 0 % (mask + 1) + o) % (mask + 1) := by
          intro hEq
          rw [← hEq, hbs] at hy
          exact Option.noConfusion hy
        exact ⟨y, by rw [getD_set_ne _ _ _ hne]; exact hy, hyd⟩
    · rw [hbs] at h
      simp only at h
      have hedeq : (s + mask + 1 - (H.getD e 0 &&& mask)) &&& mask =
          cdist (mask + 1) s (H.getD e 0 % (mask + 1)) := by
        rw [code_dist_eq Hm, code_ideal_eq Hm]
      have hie : H.getD e 0 % (mask + 1) < mask + 1 := Nat.mod_lt _ hn
      have hede := cdist_lt hn s (H.getD e 0 % (mask + 1))
      have hrece : (H.getD e 0 % (mask + 1) +
          cdist (mask + 1) s (H.getD e 0 % (mask + 1))) % (mask + 1) = s :=
        cdist_recover hs hie
      have hstepmod : (s + 1) &&& mask = (s + 1) % (mask + 1) := and_mask_eq_mod Hm _
      rw [hedeq, hstepmod] at h
      by_cases hlt : cdist (mask + 1) s (H.getD e 0 % (mask + 1)) < d
      · rw [if_pos hlt] at h
        have hsucc : cdist (mask + 1) s (H.getD e 0 % (mask + 1)) + 1 < mask + 1 := by
          omega
        refine ih (b.set s (some x)) ((s + 1) % (mask + 1))
          (cdist (mask + 1) s (H.getD e 0 % (mask + 1)) + 1) e b2
          (by rw [List.length_set]; exact hlen) (Nat.mod_lt _ hn) ?_ ?_ ?_ ?_ h
        · rw [cdist_step hs hie, Nat.mod_eq_of_lt hsucc]
        · intro o ho
          rcases Nat.lt_or_ge o (cdist (mask + 1) s (H.getD e 0 % (mask + 1))) with
            holt | hoge
          · obtain ⟨y, hy, hyd⟩ := hsp s e hs hbs o holt
            have hne : s ≠ (H.getD e 0 % (mask + 1) + o) % (mask + 1) := by
              intro hEq
              have h2 := cdist_offset hie (show o < mask + 1 by omega)
              rw [← hEq] at h2
              omega
            exact ⟨y, by rw [getD_set_ne _ _ _ hne]; exact hy, hyd⟩
          · have hoeq : o = cdist (mask + 1) s (H.getD e 0 % (mask + 1)) := by omega
            rw [hoeq, hrece]
            refine ⟨x, getD_set_self _ _ _ _ (by omega), ?_⟩
            omega
        · intro t' j ht' hslot'
          by_cases hts : t' = s
          · subst hts
            rw [getD_set_self _ _ _ _ (by omega)] at hslot'
            have hxj : x = j := Option.some.inj hslot'
            subst hxj
            intro o ho
            obtain ⟨y, hy, hyd⟩ := hw o (by rw [hd]; exact ho)
            have hne : t' ≠ (H.getD x 0 % (mask + 1) + o) % (mask + 1) := by
              intro hEq
              have h2 := cdist_offset hix (show o < mask + 1 by omega)
              rw [← hEq] at h2
              omega
            exact ⟨y, by rw [getD_set_ne _ _ _ hne]; exact hy, hyd⟩
          · have hslot2 : b.getD t' none = some j := by
              rw [getD_set_ne _ _ _ (fun hEq => hts hEq.symm)] at hslot'
              exact hslot'
            intro o ho
            obtain ⟨y, hy, hyd⟩ := hsp t' j ht' hslot2 o ho
            by_cases hps : (H.getD j 0 % (mask + 1) + o) % (mask + 1) = s
            · rw [hps] at hy hyd
              have hye : y = e := Option.some.inj (hy.symm.trans hbs)
              rw [hye] at hyd
              refine ⟨x, ?_, ?_⟩
              · rw [hps]
                exact getD_set_self _ _ _ _ (by omega)
              · rw [hps]
                omega
            · exact ⟨y,
                by rw [getD_set_ne _ _ _ (fun hEq => hps hEq.symm)]; exact hy, hyd⟩
        · have hcnt := count_set_add b s (some x) none none (by omega)
          rw [hbs] at hcnt
          simp only [reduceCtorEq, if_false] at hcnt
          omega
      · rw [if_neg hlt] at h
        have hdm : d < mask := by
          by_contra hcon
          have hocc : ∀ o, o < mask + 1 →
              b.getD ((H.getD x 0 % (mask + 1) + o) % (mask + 1)) none ≠ none := by
            intro o ho2
            rcases Nat.lt_or_ge o d with h1 | h1
            · obtain ⟨y, hy, _⟩ := hw o h1
              rw [hy]
              exact fun hc => Option.noConfusion hc
            · have ho3 : o = d := by omega
              rw [ho3, hrecx, hbs]
              exact fun hc => Option.noConfusion hc
          have := occupied_walk_bound hlen (Nat.le_refl _) hix hocc
          omega
        refine ih b ((s + 1) % (mask + 1)) (d + 1) x b2 hlen (Nat.mod_lt _ hn)
          ?_ ?_ hsp hemp h
        · rw [cdist_step hs hix, ← hd, Nat.mod_eq_of_lt (by omega)]
        · intro o ho
          rcases Nat.lt_or_ge o d with h1 | h1
          · exact hw o h1
          · have ho3 : o = d := by omega
            rw [ho3, hrecx]
            exact ⟨e, hbs, by omega⟩

/-- `fm_place_index` preserves the probe-path invariant when the array
has an empty slot. -/
theorem fm_place_index_slotpath (H : List Nat) (mask hash x : Nat)
    (Hm : ∃ k, mask + 1 = 2 ^ k) (b b2 : List (Option Nat))
    (hlen : b.length = mask + 1) (hsp : SlotPath H (mask + 1) b)
    (hemp : 0 < b.count none) (hhx : H.getD x 0 = hash)
    (h : fm_place_index b mask hash x H = some b2) :
    SlotPath H (mask + 1) b2 := by
  rw [fm_place_index] at h
  rw [← hhx, code_ideal_eq Hm] at h
  refine fm_place_index_go_slotpath H mask Hm (mask + 2) b
    (H.getD x 0 % (mask + 1)) 0 x b2 hlen (Nat.mod_lt _ (by omega))
    cdist_self.symm (by intro o ho; omega) hsp hemp h

/-! ## Resize establishes the probe-path invariant -/

theorem slotpath_replicate (H : List Nat) (n c : Nat) :
    SlotPath H n (List.replicate c none) := by
  intro t i ht hslot
  have hnone : (List.replicate c (none : Option Nat)).getD t none = none := by
    rw [List.getD_eq_getElem?_getD, List.getElem?_replicate]
    split <;> rfl
  rw [hnone] at hslot
  exact Option.noConfusion hslot

theorem fm_resize_loop_slotpath (hashes : List Nat) (mask : Nat)
    (Hm : ∃ k, mask + 1 = 2 ^ k) :
    ∀ (l : List Nat) (bkts b2 : List (Option Nat)),
      bkts.length = mask + 1 →
      l.length ≤ bkts.count none →
      SlotPath hashes (mask + 1) bkts →
      fm_resize_loop hashes mask bkts l = some b2 →
      SlotPath hashes (mask + 1) b2 := by
  intro l
  induction l with
  | nil =>
    intro bkts b2 _ _ hsp h
    simp only [fm_resize_loop, Option.some.injEq] at h
    rw [← h]
    exact hsp
  | cons i rest ih =>
    intro bkts b2 hlen hcnt hsp h
    rw [fm_resize_loop] at h
    rcases hp : fm_place_index bkts mask (hashes.getD i 0) i hashes with _ | b1
    · rw [hp] at h
      exact Option.noConfusion h
    · rw [hp] at h
      have hlen1 : b1.length = mask + 1 := by
        rw [fm_place_index_go_length hashes mask _ _ _ _ _ _ hp]; omega
      have hemp : 0 < bkts.count none := by
        simp only [List.length_cons] at hcnt; omega
      have hsp1 := fm_place_index_slotpath hashes mask (hashes.getD i 0) i Hm
        bkts b1 hlen hsp hemp rfl hp
      have hcn := fm_place_index_go_count_none hashes mask _ _ _ _ _ _ hlen
        (and_mask_le _ _) hp
      refine ih b1 b2 hlen1 ?_ hsp1 h
      simp only [List.length_cons] at hcnt
      omega

/-- After `fm_resize`, the rebuilt bucket array satisfies the probe-path
invariant. -/
theorem fm_resize_slotpath {m m2 : _FastMap} {c : Nat}
    (Hm : ∃ k, c = 2 ^ k) (hL : m.keys.data.length ≤ c)
    (h : fm_resize m c = some m2) :
    SlotPath m2.hashes.data (m2.bucket_mask + 1) m2.buckets := by
  obtain ⟨hkeys, hvals, hhashes, hks, hvs, hbc, hbm, hloop⟩ := fm_resize_frame h
  have hn1 : 1 ≤ c := by
    obtain ⟨k, hk⟩ := Hm
    have := Nat.pos_pow_of_pos k (show 0 < 2 by omega)
    omega
  have hmask : (c - 1) + 1 = c := by omega
  have hsp := fm_resize_loop_slotpath m.hashes.data (c - 1)
    (by obtain ⟨k, hk⟩ := Hm; exact ⟨k, by omega⟩)
    (List.range m.keys.data.length) (List.replicate c none) m2.buckets
    (by rw [List.length_replicate]; omega)
    (by rw [List.count_replicate]; simp; omega)
    (slotpath_replicate _ _ _) hloop
  rw [hhashes, hbm]
  exact hsp

/-! ## fm_put preserves the probe-path invariant and key distinctness -/

/-- Occupied slots only reference live dense indices, so extending the
hash vector on the right does not disturb the probe-path invariant. -/
theorem slotpath_append {H l : List Nat} {n : Nat} {b : List (Option Nat)}
    (hsp : SlotPath H n b) (hocc : ∀ j, some j ∈ b → j < H.length) :
    SlotPath (H ++ l) n b := by
  intro t i ht hslot
  have hi : i < H.length := hocc i (by
    rcases getD_mem_or b t none with hm | hm
    · rw [← hslot]; exact hm
    · rw [hslot] at hm; exact Option.noConfusion hm)
  rw [getD_append_lt _ _ _ _ hi]
  intro o ho
  obtain ⟨y, hy, hyd⟩ := hsp t i ht hslot o ho
  have hylt : y < H.length := hocc y (by
    rcases getD_mem_or b ((H.getD i 0 % n + o) % n) none with hm | hm
    · rw [← hy]; exact hm
    · rw [hy] at hm; exact Option.noConfusion hm)
  refine ⟨y, hy, ?_⟩
  rw [getD_append_lt _ _ _ _ hylt]
  exact hyd

/-- Step 1 of `fm_put` (the conditional growth) preserves the full
invariant. -/
theorem fm_put_step1_full {m : _FastMap} (w : WF m)
    (hsp : SlotPath m.hashes.data (m.bucket_mask + 1) m.buckets)
    (hkd : KeysDistinct m) :
    ∃ m1, (if 5 * m.keys.data.length ≥ 4 * m.bucket_count
        then fm_resize m (m.bucket_count * 2) else some m) = some m1 ∧
      WF m1 ∧ SlotPath m1.hashes.data (m1.bucket_mask + 1) m1.buckets ∧
      KeysDistinct m1 ∧ m1.keys = m.keys ∧ m1.values = m.values ∧
      m1.key_size = m.key_size ∧ m1.val_size = m.val_size ∧
      5 * m1.keys.data.length ≤ 4 * m1.bucket_count := by
  by_cases hcond : 5 * m.keys.data.length ≥ 4 * m.bucket_count
  · obtain ⟨k, hk4, hbc⟩ := w.bc_pow
    have hpow : m.bucket_count * 2 = 2 ^ (k + 1) := by
      rw [hbc]; ring
    have hlenle : m.keys.data.length ≤ m.bucket_count * 2 := by
      have := w.len_lt_bc
      omega
    obtain ⟨m1, hm1⟩ := fm_resize_some m (m.bucket_count * 2) ⟨k + 1, hpow⟩ hlenle
    have hw1 : WF m1 := fm_resize_wf w (by omega) hpow (by have := w.load; omega) hm1
    have hsp1 := fm_resize_slotpath ⟨k + 1, hpow⟩ hlenle hm1
    obtain ⟨hkeys, hvals, hhashes, hks, hvs, hbc1, _, _⟩ := fm_resize_frame hm1
    refine ⟨m1, by rw [if_pos hcond]; exact hm1, hw1, hsp1, ?_, hkeys, hvals, hks, hvs, ?_⟩
    · intro i j hij hj
      rw [hkeys] at hj ⊢
      exact hkd i j hij hj
    · rw [hkeys, hbc1]
      have := w.load
      have := w.bc_pos
      omega
  · refine ⟨m, by rw [if_neg hcond], w, hsp, hkd, rfl, rfl, rfl, rfl, by omega⟩

/-- `fm_put` preserves well-formedness, the probe-path invariant and key
distinctness. -/
theorem fm_put_full_spec {m : _FastMap} (w : WF m)
    (hsp : SlotPath m.hashes.data (m.bucket_mask + 1) m.buckets)
    (hkd : KeysDistinct m) (key value : List Nat)
    (hk : key.length = m.key_size) (hv : value.length = m.val_size) :
    ∃ m2, fm_put m key value = some m2 ∧ WF m2 ∧
      SlotPath m2.hashes.data (m2.bucket_mask + 1) m2.buckets ∧
      KeysDistinct m2 := by
  obtain ⟨m1, hif, w1, hsp1, hkd1, hkeys, hvals, hks, hvs, hbound⟩ :=
    fm_put_step1_full w hsp hkd
  have hsharp : 5 * m1.keys.data.length + 1 ≤ 4 * m1.bucket_count := by
    obtain ⟨k1, _, hbc1⟩ := w1.bc_pow
    rcases Nat.lt_or_ge (5 * m1.keys.data.length) (4 * m1.bucket_count) with h | h
    · omega
    · exfalso
      have hEq : 5 * m1.keys.data.length = 4 * m1.bucket_count := by omega
      have : (5 : Nat) ∣ 2 ^ (k1 + 2) := by
        have h52 : (2 : Nat) ^ (k1 + 2) = 4 * m1.bucket_count := by
          rw [hbc1]; ring
        exact ⟨m1.keys.data.length, by omega⟩
      exact five_not_dvd_pow2 (k1 + 2) this
  obtain ⟨r, hr⟩ := fm_put_probe_some m1 key (m1.bucket_mask + 2)
    (fm_hash key &&& m1.bucket_mask) 0 (by omega) (by omega)
  rcases r with idx | _
  · refine ⟨{ m1 with values := { m1.values with data := m1.values.data.set idx value } },
      ?_, ?_, hsp1, hkd1⟩
    · unfold fm_put
      rw [hif, Option.some_bind]
      simp only
      rw [hr]
    · obtain ⟨hmem, hkeyidx⟩ := fm_put_probe_update m1 key _ _ _ _ hr
      refine ⟨w1.bc_pow, w1.mask_eq, w1.buckets_len, ?_, w1.len_hashes, w1.key_len, ?_,
        w1.hash_cache, w1.slot_valid, w1.slot_count, w1.empties,
        by dsimp only; have := w1.load; omega⟩
      · simp only [List.length_set]
        exact w1.len_vals
      · intro x hx
        simp only at hx
        rcases List.mem_or_eq_of_mem_set hx with hx2 | hx2
        · exact w1.val_len x hx2
        · rw [hx2, hv, ← hvs]
  · have hLlt : m1.keys.data.length < m1.bucket_count := by
      have := w1.bc_pos
      omega
    have hempty : 0 < m1.buckets.count none := by
      have := w1.empties
      omega
    have habsent : ∀ i, i < m1.keys.data.length → m1.keys.data.getD i [] ≠ key := by
      intro i hi hcontra
      have hpres := fm_put_probe_present w1 hsp1 hkd1 hi
      rw [hcontra] at hpres
      rw [hpres] at hr
      exact PutProbe.noConfusion (Option.some.inj hr)
    obtain ⟨q, hqlen, hq⟩ := mem_exists_getD m1.buckets none none (count_pos_iff_mem.1 hempty)
    have hmasklen : m1.buckets.length = m1.bucket_mask + 1 := by
      rw [w1.buckets_len, ← w1.mask_eq]
    have hposlt : (fm_hash key &&& m1.bucket_mask) < m1.bucket_mask + 1 :=
      Nat.lt_succ_of_le (and_mask_le _ _)
    obtain ⟨t, htlt, ht⟩ := cyc_dist_exists (n := m1.bucket_mask + 1) hposlt
      (show q < m1.bucket_mask + 1 by omega)
    obtain ⟨b2, hb2⟩ := fm_place_index_go_some (m1.hashes.data ++ [fm_hash key])
      m1.bucket_mask w1.mask_pow
      (m1.bucket_mask + 2) m1.buckets (fm_hash key &&& m1.bucket_mask) 0
      m1.keys.data.length hmasklen (and_mask_le _ _)
      ⟨t, by omega, by omega, by rw [ht]; exact hq⟩
    have hlen2 : b2.length = m1.buckets.length :=
      fm_place_index_go_length _ _ _ _ _ _ _ _ hb2
    have hcnt := fm_place_index_go_count (m1.hashes.data ++ [fm_hash key])
      m1.bucket_mask _ _ _ _ _ _ hmasklen (and_mask_le _ _) hb2
    have hcnone := fm_place_index_go_count_none (m1.hashes.data ++ [fm_hash key])
      m1.bucket_mask _ _ _ _ _ _ hmasklen (and_mask_le _ _) hb2
    have hgetL : (m1.hashes.data ++ [fm_hash key]).getD m1.keys.data.length 0 =
        fm_hash key := by
      rw [getD_append_right _ _ _ _ (by rw [w1.len_hashes]), w1.len_hashes]
      simp
    have hsp2 : SlotPath (m1.hashes.data ++ [fm_hash key]) (m1.bucket_mask + 1) b2 := by
      refine fm_place_index_go_slotpath (m1.hashes.data ++ [fm_hash key]) m1.bucket_mask
        w1.mask_pow (m1.bucket_mask + 2) m1.buckets (fm_hash key &&& m1.bucket_mask) 0
        m1.keys.data.length b2 hmasklen hposlt ?_ (fun o ho => absurd ho (by omega))
        (slotpath_append hsp1 (fun j hj => by
          rw [w1.len_hashes]; exact w1.slot_valid j hj)) hempty hb2
      rw [hgetL, code_ideal_eq w1.mask_pow]
      exact cdist_self.symm
    refine ⟨{ m1 with
        keys := fm_vec_push m1.keys key
        values := fm_vec_push m1.values value
        hashes := fm_vec_push m1.hashes (fm_hash key)
        buckets := b2 }, ?_, ?_, ?_, ?_⟩
    · unfold fm_put
      rw [hif, Option.some_bind]
      simp only
      rw [hr]
      unfold fm_place_index
      simp only [fm_vec_push]
      rw [hb2]
      rfl
    · refine ⟨w1.bc_pow, w1.mask_eq, ?_, ?_, ?_, ?_, ?_, ?_, ?_, ?_, ?_, ?_⟩
      · simp only
        rw [hlen2, hmasklen, w1.mask_eq]
      · simp only [fm_vec_push, List.length_append, List.length_singleton]
        have := w1.len_vals
        omega
      · simp only [fm_vec_push, List.length_append, List.length_singleton]
        have := w1.len_hashes
        omega
      · intro x hx
        simp only [fm_vec_push, List.mem_append, List.mem_singleton] at hx
        simp only
        rcases hx with hx | hx
        · exact w1.key_len x hx
        · rw [hx, hk, ← hks]
      · intro x hx
        simp only [fm_vec_push, List.mem_append, List.mem_singleton] at hx
        simp only
        rcases hx with hx | hx
        · exact w1.val_len x hx
        · rw [hx, hv, ← hvs]
      · intro i hi
        simp only [fm_vec_push, List.length_append, List.length_singleton] at hi
        simp only [fm_vec_push]
        rcases Nat.lt_or_ge i m1.keys.data.length with hlt | hge
        · rw [getD_append_lt _ _ _ _ (by rw [w1.len_hashes]; omega),
            getD_append_lt _ _ _ _ hlt]
          exact w1.hash_cache i hlt
        · have hieq : i = m1.keys.data.length := by omega
          rw [hieq, getD_append_right _ _ _ _ (by rw [w1.len_hashes]),
            getD_append_right _ _ _ _ (by omega), w1.len_hashes]
          simp
      · intro i hi
        simp only [fm_vec_push] at hi ⊢
        have h1 : 0 < b2.count (some i) := count_pos_iff_mem.2 hi
        rw [hcnt i] at h1
        simp only [List.length_append, List.length_singleton]
        by_cases hEq : m1.keys.data.length = i
        · omega
        · have h2 : 0 < m1.buckets.count (some i) := by
            rw [if_neg hEq] at h1
            omega
          have := w1.slot_valid i (count_pos_iff_mem.1 h2)
          omega
      · intro i hi
        simp only [fm_vec_push, List.length_append, List.length_singleton] at hi
        simp only [fm_vec_push]
        rw [hcnt i]
        rcases Nat.lt_or_ge i m1.keys.data.length with hlt | hge
        · rw [w1.slot_count i hlt, if_neg (by omega)]
        · have hieq : m1.keys.data.length = i := by omega
          rw [if_pos hieq]
          have h0 : m1.buckets.count (some i) = 0 := by
            by_contra hc
            have := w1.slot_valid i (count_pos_iff_mem.1 (by omega))
            omega
          omega
      · simp only [fm_vec_push, List.length_append, List.length_singleton]
        have := w1.empties
        omega
      · simp only [fm_vec_push, List.length_append, List.length_singleton]
        omega
    · simp only [fm_vec_push]
      exact hsp2
    · intro i j hij hj
      simp only [fm_vec_push, List.length_append, List.length_singleton] at hj ⊢
      rcases Nat.lt_or_ge j m1.keys.data.length with hjlt | hjge
      · rw [getD_append_lt _ _ _ _ (by omega), getD_append_lt _ _ _ _ hjlt]
        exact hkd1 i j hij hjlt
      · have hjeq : j = m1.keys.data.length := by omega
        rw [hjeq, getD_append_lt _ _ _ _ (by omega),
          getD_append_right _ _ _ _ (by omega)]
        simp only [Nat.sub_self, List.getD_cons_zero]
        exact habsent i (by omega)

/-! ## The backward-shift repair restores the probe-path invariant -/

/-- `fm_update_bucket_for_moved_item` rewrites exactly one slot: the one
found holding the moved dense index. -/
theorem fm_update_bucket_go_set (buckets : List (Option Nat)) (mask old_v new_v : Nat) :
    ∀ (fuel pos : Nat) (b2 : List (Option Nat)),
      fm_update_bucket_go buckets mask old_v new_v pos fuel = some b2 →
      ∃ r, r < buckets.length ∧ buckets.getD r none = some old_v ∧
        b2 = buckets.set r (some new_v) := by
  intro fuel
  induction fuel with
  | zero => intro pos b2 h; simp [fm_update_bucket_go] at h
  | succ fuel ih =>
    intro pos b2 h
    rw [fm_update_bucket_go] at h
    split at h
    · refine ⟨pos, ?_, by assumption, (Option.some.inj h).symm⟩
      by_contra hc
      have hd : buckets.getD pos none = none :=
        List.getD_eq_default _ _ (by omega)
      rename_i hfound
      rw [hd] at hfound
      exact Option.noConfusion hfound
    · exact ih _ _ h

/-- Walking further along a probe path that crosses the repair hole: the
offset that lands on the scan position `q` is still inside the path, and
the crossing offset equals the hole's own distance. -/
theorem crossing_step {H : List Nat} {mask : Nat} {b : List (Option Nat)}
    {hole q t j o : Nat}
    (ht : t < mask + 1) (hhole : hole < mask + 1) (hq : q < mask + 1)
    (hslot : b.getD t none = some j)
    (ho : o < cdist (mask + 1) t (H.getD j 0 % (mask + 1)))
    (hcross : (H.getD j 0 % (mask + 1) + o) % (mask + 1) = hole)
    (hCt : cdist (mask + 1) q hole ≤ cdist (mask + 1) t hole)
    (htq : t ≠ q) :
    o + cdist (mask + 1) q hole < cdist (mask + 1) t (H.getD j 0 % (mask + 1)) ∧
    (H.getD j 0 % (mask + 1) + (o + cdist (mask + 1) q hole)) % (mask + 1) = q ∧
    cdist (mask + 1) hole (H.getD j 0 % (mask + 1)) = o := by
  have hn : 0 < mask + 1 := by omega
  have hij : H.getD j 0 % (mask + 1) < mask + 1 := Nat.mod_lt _ hn
  have hDt := cdist_lt hn t (H.getD j 0 % (mask + 1))
  have hon : o < mask + 1 := by omega
  have hoh : cdist (mask + 1) hole (H.getD j 0 % (mask + 1)) = o := by
    rw [← hcross]
    exact cdist_offset hij hon
  have hth2 := cdist_lt hn t hole
  have hqh2 := cdist_lt hn q hole
  have hch := cdist_chain (n := mask + 1) (a := H.getD j 0 % (mask + 1))
    (u := hole) (v := t) (by omega) (by omega)
  rw [hoh] at hch
  have hnowrap : cdist (mask + 1) t (H.getD j 0 % (mask + 1)) =
      o + cdist (mask + 1) t hole := by
    rcases Nat.lt_or_ge (o + cdist (mask + 1) t hole) (mask + 1) with hw | hw
    · rw [hch, Nat.mod_eq_of_lt hw]
    · exfalso
      have h5 : (o + cdist (mask + 1) t hole) % (mask + 1) =
          o + cdist (mask + 1) t hole - (mask + 1) := by
        rw [Nat.mod_eq_sub_mod hw, Nat.mod_eq_of_lt (by omega)]
      rw [h5] at hch
      omega
  have hpq : (H.getD j 0 % (mask + 1) +
      (o + cdist (mask + 1) q hole)) % (mask + 1) = q := by
    rw [← Nat.add_assoc, ← Nat.mod_add_mod, hcross]
    exact cdist_recover hq hhole
  refine ⟨?_, hpq, hoh⟩
  rcases Nat.lt_or_ge (o + cdist (mask + 1) q hole)
      (cdist (mask + 1) t (H.getD j 0 % (mask + 1))) with h2 | h2
  · exact h2
  · exfalso
    have hEq : o + cdist (mask + 1) q hole =
        cdist (mask + 1) t (H.getD j 0 % (mask + 1)) := by omega
    have hrec := cdist_recover ht hij
    rw [← hEq] at hrec
    exact htq (hrec.symm.trans hpq)

/-- The backward-shift loop of `fm_erase` turns the weak probe-path
invariant (valid except at the hole) into the full invariant on success:
scanned entries never have paths crossing the hole, moving an entry back
into the hole keeps every path valid, and clearing the final hole is
safe because no remaining path crosses it. -/
theorem fm_backshift_go_slotpath (H : List Nat) (mask bc : Nat)
    (Hm : ∃ k, mask + 1 = 2 ^ k) (hbc : bc = mask + 1) (hm1 : 1 ≤ mask) :
    ∀ (fuel : Nat) (b : List (Option Nat)) (hole q : Nat) (b2 : List (Option Nat)),
      b.length = mask + 1 → hole < mask + 1 → q < mask + 1 →
      1 ≤ cdist (mask + 1) q hole →
      b.getD hole none ≠ none →
      SlotPathExcept H (mask + 1) b hole →
      (∀ t i, t < mask + 1 → t ≠ hole → b.getD t none = some i →
        (∃ o, o < cdist (mask + 1) t (H.getD i 0 % (mask + 1)) ∧
          (H.getD i 0 % (mask + 1) + o) % (mask + 1) = hole) →
        cdist (mask + 1) q hole ≤ cdist (mask + 1) t hole) →
      (∃ ts, b.getD ((q + ts) % (mask + 1)) none = none ∧
        ts + cdist (mask + 1) q hole < mask + 1) →
      fm_backshift_go H mask bc b hole q fuel = some b2 →
      SlotPath H (mask + 1) b2 := by
  intro fuel
  induction fuel with
  | zero => intro b hole q b2 _ _ _ _ _ _ _ _ h; simp [fm_backshift_go] at h
  | succ fuel ih =>
    intro b hole q b2 hlen hhole hq hqh hocc hsp hC hF h
    have hn : 0 < mask + 1 := by omega
    have hqneh : q ≠ hole := by
      intro hEq
      rw [hEq, cdist_self] at hqh
      omega
    rw [fm_backshift_go] at h
    rcases hbq : b.getD q none with _ | e
    · -- scan met an empty slot: clear the hole
      rw [hbq] at h
      simp only [Option.some.injEq] at h
      subst h
      have hnocross : ∀ t j, t < mask + 1 → t ≠ hole → b.getD t none = some j →
          ∀ o, o < cdist (mask + 1) t (H.getD j 0 % (mask + 1)) →
            (H.getD j 0 % (mask + 1) + o) % (mask + 1) ≠ hole := by
        intro t j ht hth hslot o ho hcross
        have htq : t ≠ q := by
          intro hEq
          rw [hEq, hbq] at hslot
          exact Option.noConfusion hslot
        obtain ⟨hlt2, hpq, _⟩ := crossing_step ht hhole hq hslot ho hcross
          (hC t j ht hth hslot ⟨o, ho, hcross⟩) htq
        rcases hsp t j ht hth hslot (o + cdist (mask + 1) q hole) hlt2 with
          hleft | ⟨y, hy, _⟩
        · rw [hpq] at hleft
          exact hqneh hleft
        · rw [hpq, hbq] at hy
          exact Option.noConfusion hy
      intro t j ht hslot
      have hth : t ≠ hole := by
        intro hEq
        rw [hEq, getD_set_self _ _ _ _ (by omega)] at hslot
        exact Option.noConfusion hslot
      rw [getD_set_ne _ _ _ (fun hEq => hth hEq.symm)] at hslot
      intro o ho
      have hnc := hnocross t j ht hth hslot o ho
      rcases hsp t j ht hth hslot o ho with hleft | ⟨y, hy, hyd⟩
      · exact absurd hleft hnc
      · refine ⟨y, ?_, hyd⟩
        rw [getD_set_ne _ _ _ (fun hEq => hnc hEq.symm)]
        exact hy
    · rw [hbq] at h
      simp only at h
      have hiq : H.getD e 0 % (mask + 1) < mask + 1 := Nat.mod_lt _ hn
      have hdh : (hole + bc - (H.getD e 0 &&& mask)) &&& mask =
          cdist (mask + 1) hole (H.getD e 0 % (mask + 1)) := by
        rw [show hole + bc = hole + mask + 1 from by omega, code_dist_eq Hm,
          code_ideal_eq Hm]
      have hdn : (q + bc - (H.getD e 0 &&& mask)) &&& mask =
          cdist (mask + 1) q (H.getD e 0 % (mask + 1)) := by
        rw [show q + bc = q + mask + 1 from by omega, code_dist_eq Hm,
          code_ideal_eq Hm]
      have hstepmod : (q + 1) &&& mask = (q + 1) % (mask + 1) := and_mask_eq_mod Hm _
      rw [hdh, hdn, hstepmod] at h
      obtain ⟨ts, hts1, hts2⟩ := hF
      have hts0 : ts ≠ 0 := by
        intro h0
        rw [h0, Nat.add_zero, Nat.mod_eq_of_lt hq, hbq] at hts1
        exact Option.noConfusion hts1
      have hshift : (((q + 1) % (mask + 1)) + (ts - 1)) % (mask + 1) =
          (q + ts) % (mask + 1) := by
        rw [Nat.mod_add_mod]
        congr 1
        omega
      by_cases hlt : cdist (mask + 1) hole (H.getD e 0 % (mask + 1)) <
          cdist (mask + 1) q (H.getD e 0 % (mask + 1))
      · -- move the entry back into the hole
        rw [if_pos hlt] at h
        have hone : cdist (mask + 1) ((q + 1) % (mask + 1)) q = 1 := by
          rw [cdist_step hq hq, cdist_self]
          show 1 % (mask + 1) = 1
          exact Nat.mod_eq_of_lt (by omega)
        -- the hash-distance chain at the hole
        have hnw : cdist (mask + 1) q (H.getD e 0 % (mask + 1)) =
            cdist (mask + 1) hole (H.getD e 0 % (mask + 1)) +
            cdist (mask + 1) q hole := by
          have hch := cdist_chain (n := mask + 1) (a := H.getD e 0 % (mask + 1))
            (u := hole) (v := q) (by omega) (by omega)
          have hDe := cdist_lt hn q (H.getD e 0 % (mask + 1))
          have hDe' := cdist_lt hn hole (H.getD e 0 % (mask + 1))
          have hcqh := cdist_lt hn q hole
          rcases Nat.lt_or_ge (cdist (mask + 1) hole (H.getD e 0 % (mask + 1)) +
              cdist (mask + 1) q hole) (mask + 1) with hw | hw
          · rw [hch, Nat.mod_eq_of_lt hw]
          · exfalso
            have h5 : (cdist (mask + 1) hole (H.getD e 0 % (mask + 1)) +
                cdist (mask + 1) q hole) % (mask + 1) =
                cdist (mask + 1) hole (H.getD e 0 % (mask + 1)) +
                cdist (mask + 1) q hole - (mask + 1) := by
              rw [Nat.mod_eq_sub_mod hw, Nat.mod_eq_of_lt (by omega)]
            rw [h5] at hch
            omega
        refine ih (b.set hole (some e)) q ((q + 1) % (mask + 1)) b2
          (by rw [List.length_set]; exact hlen) hq (Nat.mod_lt _ hn)
          (by rw [hone]) ?_ ?_ ?_ ?_ h
        · rw [getD_set_ne _ _ _ (Ne.symm hqneh), hbq]
          exact Option.noConfusion
        · -- the weakened invariant, now excepted at q
          intro t j ht htq hslot' o ho
          by_cases hth : t = hole
          · subst hth
            rw [getD_set_self _ _ _ _ (by omega)] at hslot'
            have hje : e = j := Option.some.inj hslot'
            subst hje
            by_cases hph : (H.getD e 0 % (mask + 1) + o) % (mask + 1) = t
            · right
              refine ⟨e, ?_, ?_⟩
              · rw [hph]
                exact getD_set_self _ _ _ _ (by omega)
              · rw [hph]
                omega
            · have holt : o < cdist (mask + 1) q (H.getD e 0 % (mask + 1)) := by
                omega
              rcases hsp q e hq hqneh hbq o holt with hleft | ⟨y, hy, hyd⟩
              · exact absurd hleft hph
              · right
                refine ⟨y, ?_, hyd⟩
                rw [getD_set_ne _ _ _ (fun hEq => hph hEq.symm)]
                exact hy
          · have hslot2 : b.getD t none = some j := by
              rw [getD_set_ne _ _ _ (fun hEq => hth hEq.symm)] at hslot'
              exact hslot'
            by_cases hph : (H.getD j 0 % (mask + 1) + o) % (mask + 1) = hole
            · -- the path crossed the old hole; the moved entry covers it
              right
              have htq2 : t ≠ q := htq
              obtain ⟨hlt2, hpq, hoh⟩ := crossing_step ht hhole hq hslot2 ho hph
                (hC t j ht hth hslot2 ⟨o, ho, hph⟩) htq2
              rcases hsp t j ht hth hslot2 (o + cdist (mask + 1) q hole) hlt2 with
                hleft | ⟨y, hy, hyd⟩
              · rw [hpq] at hleft
                exact absurd hleft hqneh
              · rw [hpq] at hy hyd
                have hye : y = e := Option.some.inj (hy.symm.trans hbq)
                rw [hye] at hyd
                refine ⟨e, ?_, ?_⟩
                · rw [hph]
                  exact getD_set_self _ _ _ _ (by omega)
                · rw [hph]
                  omega
            · rcases hsp t j ht hth hslot2 o ho with hleft | ⟨y, hy, hyd⟩
              · exact absurd hleft hph
              · right
                refine ⟨y, ?_, hyd⟩
                rw [getD_set_ne _ _ _ (fun hEq => hph hEq.symm)]
                exact hy
        · -- scanned-window condition for the new hole is trivial
          intro t j ht htq hslot' hcross
          rw [hone]
          have h0 : cdist (mask + 1) t q ≠ 0 :=
            fun h0 => htq ((cdist_eq_zero_iff hn ht hq).mp h0)
          omega
        · -- an empty slot remains ahead of the scan
          refine ⟨ts - 1, ?_, ?_⟩
          · rw [hshift, getD_set_ne _ _ _ ?hne]
            · exact hts1
            · intro hEq
              rw [← hEq] at hts1
              exact hocc hts1
          · rw [hone]
            omega
      · -- skip: the scanned entry is already at or before its ideal run
        rw [if_neg hlt] at h
        have hsucc : cdist (mask + 1) q hole + 1 < mask + 1 := by omega
        have hq'h : cdist (mask + 1) ((q + 1) % (mask + 1)) hole =
            cdist (mask + 1) q hole + 1 := by
          rw [cdist_step hq hhole, Nat.mod_eq_of_lt hsucc]
        refine ih b hole ((q + 1) % (mask + 1)) b2 hlen hhole (Nat.mod_lt _ hn)
          (by rw [hq'h]; omega) hocc hsp ?_ ?_ h
        · intro t j ht hth hslot hcross
          have hCt := hC t j ht hth hslot hcross
          rw [hq'h]
          rcases Nat.lt_or_ge (cdist (mask + 1) q hole)
              (cdist (mask + 1) t hole) with h2 | h2
          · omega
          · exfalso
            have hEq : cdist (mask + 1) t hole = cdist (mask + 1) q hole := by omega
            have h3 := cdist_recover ht hhole
            have h4 := cdist_recover hq hhole
            rw [hEq] at h3
            have htq : t = q := h3.symm.trans h4
            rw [htq] at hslot
            have hje : j = e := Option.some.inj (hslot.symm.trans hbq)
            obtain ⟨o, ho, hcr⟩ := hcross
            rw [hje] at ho hcr
            rw [htq] at ho
            have hoe : cdist (mask + 1) hole (H.getD e 0 % (mask + 1)) = o := by
              rw [← hcr]
              exact cdist_offset hiq
                (by have := cdist_lt hn q (H.getD e 0 % (mask + 1)); omega)
            exact hlt (by omega)
        · refine ⟨ts - 1, ?_, ?_⟩
          · rw [hshift]
            exact hts1
          · rw [hq'h]
            omega

/-! ## The swap-and-pop stage only weakens the invariant at the hole -/

/-- Erasing the last dense entry: dropping the tail hash leaves every
path valid except possibly at the vacated bucket. -/
theorem erase_weak_slotpath_last {m : _FastMap} (w : WF m)
    (hsp : SlotPath m.hashes.data (m.bucket_mask + 1) m.buckets)
    {bq : Nat} (hfound : m.buckets.getD bq none = some (m.keys.data.length - 1))
    (hL : 1 ≤ m.keys.data.length) :
    SlotPathExcept m.hashes.data.dropLast (m.bucket_mask + 1) m.buckets bq := by
  have hn : 0 < m.bucket_mask + 1 := by omega
  have hblen : m.buckets.length = m.bucket_mask + 1 := by
    rw [w.buckets_len, ← w.mask_eq]
  have hbqlt : bq < m.buckets.length := by
    by_contra hc
    rw [List.getD_eq_default _ _ (by omega)] at hfound
    exact Option.noConfusion hfound
  have hlast : ∀ t j, t < m.buckets.length → t ≠ bq →
      m.buckets.getD t none = some j → j < m.keys.data.length - 1 := by
    intro t j ht htb hslot
    have hjL : j < m.keys.data.length := w.slot_valid j (by
      rcases getD_mem_or m.buckets t none with hm | hm
      · rw [← hslot]; exact hm
      · rw [hslot] at hm; exact Option.noConfusion hm)
    rcases Nat.lt_or_ge j (m.keys.data.length - 1) with h2 | h2
    · exact h2
    · exfalso
      have hje : j = m.keys.data.length - 1 := by omega
      rw [hje] at hslot
      have hcnt := w.slot_count (m.keys.data.length - 1) (by omega)
      rcases Nat.lt_trichotomy t bq with h3 | h3 | h3
      · have := count_two_of_getD m.buckets t bq _ h3 hbqlt hslot hfound
        omega
      · exact htb h3
      · have := count_two_of_getD m.buckets bq t _ h3 ht hfound hslot
        omega
  have hdrop : ∀ j, j < m.keys.data.length - 1 →
      m.hashes.data.dropLast.getD j 0 = m.hashes.data.getD j 0 := by
    intro j hj
    exact getD_dropLast _ _ _ (by rw [w.len_hashes]; omega)
  intro t j ht htb hslot o ho
  have hj := hlast t j (by omega) htb hslot
  rw [hdrop j hj] at ho ⊢
  obtain ⟨y, hy, hyd⟩ := hsp t j ht hslot o ho
  by_cases hpb : (m.hashes.data.getD j 0 % (m.bucket_mask + 1) + o) %
      (m.bucket_mask + 1) = bq
  · exact Or.inl hpb
  · right
    refine ⟨y, hy, ?_⟩
    have hy2 := hlast _ y (by rw [hblen]; exact Nat.mod_lt _ hn) hpb hy
    rw [hdrop y hy2]
    exact hyd

/-- Erasing a non-last entry: after the swap-and-pop (which overwrites
the erased entry's hash with the last entry's and repoints the bucket
that referenced the last dense index), every path is valid except
possibly at the vacated bucket. -/
theorem erase_weak_slotpath_move {m : _FastMap} (w : WF m)
    (hsp : SlotPath m.hashes.data (m.bucket_mask + 1) m.buckets)
    {bq vid r : Nat}
    (hfound : m.buckets.getD bq none = some vid)
    (hvid : vid < m.keys.data.length)
    (hvl : vid ≠ m.keys.data.length - 1)
    (hr : r < m.buckets.length)
    (hrslot : m.buckets.getD r none = some (m.keys.data.length - 1)) :
    SlotPathExcept
      ((m.hashes.data.set vid (m.hashes.data.getD (m.keys.data.length - 1) 0)).dropLast)
      (m.bucket_mask + 1) (m.buckets.set r (some vid)) bq := by
  have hn : 0 < m.bucket_mask + 1 := by omega
  have hblen : m.buckets.length = m.bucket_mask + 1 := by
    rw [w.buckets_len, ← w.mask_eq]
  have hbqlt : bq < m.buckets.length := by
    by_contra hc
    rw [List.getD_eq_default _ _ (by omega)] at hfound
    exact Option.noConfusion hfound
  have hvlt : vid < m.keys.data.length - 1 := by omega
  have hrbq : r ≠ bq := by
    intro hEq
    rw [hEq, hfound] at hrslot
    have := Option.some.inj hrslot
    omega
  have huniq : ∀ p t j, p < m.buckets.length → t < m.buckets.length → t ≠ p →
      j < m.keys.data.length → m.buckets.getD p none = some j →
      m.buckets.getD t none ≠ some j := by
    intro p t j hp ht htp hj hpj htj
    have hcnt := w.slot_count j hj
    rcases Nat.lt_trichotomy t p with h3 | h3 | h3
    · have := count_two_of_getD m.buckets t p _ h3 hp htj hpj
      omega
    · exact htp h3
    · have := count_two_of_getD m.buckets p t _ h3 ht hpj htj
      omega
  have hHset : ∀ j, j < m.keys.data.length - 1 →
      (m.hashes.data.set vid (m.hashes.data.getD (m.keys.data.length - 1) 0)).dropLast.getD
        j 0 =
      (if j = vid then m.hashes.data.getD (m.keys.data.length - 1) 0
        else m.hashes.data.getD j 0) := by
    intro j hj
    have hjlen : j + 1 < (m.hashes.data.set vid
        (m.hashes.data.getD (m.keys.data.length - 1) 0)).length := by
      rw [List.length_set, w.len_hashes]
      omega
    rw [getD_dropLast _ _ _ hjlen]
    by_cases hjv : j = vid
    · rw [if_pos hjv, hjv, getD_set_self _ _ _ _ (by rw [w.len_hashes]; omega)]
    · rw [if_neg hjv, getD_set_ne _ _ _ (fun hEq => hjv hEq.symm)]
  intro t j ht htb hslot' o ho
  by_cases htr : t = r
  · -- the repointed slot carries `vid` under the last entry's hash
    subst htr
    rw [getD_set_self _ _ _ _ hr] at hslot'
    have hjv : vid = j := Option.some.inj hslot'
    subst hjv
    rw [hHset vid hvlt, if_pos rfl] at ho ⊢
    obtain ⟨y, hy, hyd⟩ := hsp t (m.keys.data.length - 1) ht hrslot o ho
    by_cases hpb : (m.hashes.data.getD (m.keys.data.length - 1) 0 %
        (m.bucket_mask + 1) + o) % (m.bucket_mask + 1) = bq
    · exact Or.inl hpb
    · right
      have hpos : (m.hashes.data.getD (m.keys.data.length - 1) 0 %
          (m.bucket_mask + 1) + o) % (m.bucket_mask + 1) < m.buckets.length := by
        rw [hblen]
        exact Nat.mod_lt _ hn
      have hpt : (m.hashes.data.getD (m.keys.data.length - 1) 0 %
          (m.bucket_mask + 1) + o) % (m.bucket_mask + 1) ≠ t := by
        intro hEq
        have h2 : cdist (m.bucket_mask + 1)
            ((m.hashes.data.getD (m.keys.data.length - 1) 0 % (m.bucket_mask + 1) + o) %
              (m.bucket_mask + 1))
            (m.hashes.data.getD (m.keys.data.length - 1) 0 % (m.bucket_mask + 1)) = o :=
          cdist_offset (Nat.mod_lt _ hn)
            (by have := cdist_lt hn t (m.hashes.data.getD (m.keys.data.length - 1) 0 %
              (m.bucket_mask + 1)); omega)
        rw [hEq] at h2
        omega
      have hyL1 : y ≠ m.keys.data.length - 1 := by
        intro hEq
        rw [hEq] at hy
        exact huniq t _ (m.keys.data.length - 1) (by omega) hpos hpt (by omega) hrslot hy
      have hyvid : y ≠ vid := by
        intro hEq
        rw [hEq] at hy
        exact huniq bq _ vid hbqlt hpos hpb hvid hfound hy
      have hyL : y < m.keys.data.length := w.slot_valid y (by
        rcases getD_mem_or m.buckets _ none with hm | hm
        · rw [← hy]; exact hm
        · rw [hy] at hm; exact Option.noConfusion hm)
      refine ⟨y, ?_, ?_⟩
      · rw [getD_set_ne _ _ _ (fun hEq => hpt hEq.symm)]
        exact hy
      · rw [hHset y (by omega), if_neg hyvid]
        exact hyd
  · have hslot2 : m.buckets.getD t none = some j := by
      rw [getD_set_ne _ _ _ (fun hEq => htr hEq.symm)] at hslot'
      exact hslot'
    have hjL : j < m.keys.data.length := w.slot_valid j (by
      rcases getD_mem_or m.buckets t none with hm | hm
      · rw [← hslot2]; exact hm
      · rw [hslot2] at hm; exact Option.noConfusion hm)
    have hjL1 : j ≠ m.keys.data.length - 1 := by
      intro hEq
      refine huniq r t (m.keys.data.length - 1) hr (by omega) htr (by omega) hrslot ?_
      rw [← hEq]
      exact hslot2
    have hjvid : j ≠ vid := by
      intro hEq
      refine huniq bq t vid hbqlt (by omega) htb hvid hfound ?_
      rw [← hEq]
      exact hslot2
    rw [hHset j (by omega), if_neg hjvid] at ho ⊢
    obtain ⟨y, hy, hyd⟩ := hsp t j ht hslot2 o ho
    by_cases hpb : (m.hashes.data.getD j 0 % (m.bucket_mask + 1) + o) %
        (m.bucket_mask + 1) = bq
    · exact Or.inl hpb
    · right
      have hpos : (m.hashes.data.getD j 0 % (m.bucket_mask + 1) + o) %
          (m.bucket_mask + 1) < m.buckets.length := by
        rw [hblen]
        exact Nat.mod_lt _ hn
      by_cases hpr : (m.hashes.data.getD j 0 % (m.bucket_mask + 1) + o) %
          (m.bucket_mask + 1) = r
      · -- crossing the repointed slot: same hash, new occupant
        have hyL1 : y = m.keys.data.length - 1 := by
          rw [hpr] at hy
          exact Option.some.inj (hy.symm.trans hrslot)
        refine ⟨vid, ?_, ?_⟩
        · rw [hpr]
          exact getD_set_self _ _ _ _ hr
        · rw [hHset vid hvlt, if_pos rfl]
          rw [hyL1] at hyd
          exact hyd
      · have hyL1 : y ≠ m.keys.data.length - 1 := by
          intro hEq
          refine huniq r _ (m.keys.data.length - 1) hr hpos hpr (by omega) hrslot ?_
          rw [← hEq]
          exact hy
        have hyvid : y ≠ vid := by
          intro hEq
          refine huniq bq _ vid hbqlt hpos hpb hvid hfound ?_
          rw [← hEq]
          exact hy
        have hyL : y < m.keys.data.length := w.slot_valid y (by
          rcases getD_mem_or m.buckets _ none with hm | hm
          · rw [← hy]; exact hm
          · rw [hy] at hm; exact Option.noConfusion hm)
        refine ⟨y, ?_, ?_⟩
        · rw [getD_set_ne _ _ _ (fun hEq => hpr hEq.symm)]
          exact hy
        · rw [hHset y (by omega), if_neg hyvid]
          exact hyd

/-! ## fm_erase preserves the full invariant -/

/-- `fm_erase` on a well-formed map satisfying the probe-path invariant
and key distinctness: it succeeds, preserves the whole invariant, finds a
present key (returning `true`), and keeps every other entry's key/value
pair in the dense storage. -/
theorem fm_erase_full_spec {m : _FastMap} (w : WF m)
    (hsp : SlotPath m.hashes.data (m.bucket_mask + 1) m.buckets)
    (hkd : KeysDistinct m) (key : List Nat) :
    ∃ done m2, fm_erase m key = some (done, m2) ∧ WF m2 ∧
      SlotPath m2.hashes.data (m2.bucket_mask + 1) m2.buckets ∧
      KeysDistinct m2 ∧
      (done = false → m2 = m) ∧
      ((∃ i, i < m.keys.data.length ∧ m.keys.data.getD i [] = key) → done = true) ∧
      (done = true → m2.keys.data.length + 1 = m.keys.data.length ∧
        ∃ i, i < m.keys.data.length ∧ m.keys.data.getD i [] = key ∧
          ∀ j, j < m.keys.data.length → j ≠ i →
            ∃ j2, j2 < m2.keys.data.length ∧
              m2.keys.data.getD j2 [] = m.keys.data.getD j [] ∧
              m2.values.data.getD j2 [] = m.values.data.getD j []) := by
  obtain ⟨r0, hr⟩ := fm_erase_probe_some m key (m.bucket_mask + 2)
    (fm_hash key &&& m.bucket_mask) 0 (by omega) (by omega)
  have hmasklen : m.buckets.length = m.bucket_mask + 1 := by
    rw [w.buckets_len, ← w.mask_eq]
  have hn : 0 < m.bucket_mask + 1 := by omega
  have hm1 : 1 ≤ m.bucket_mask := by
    have := w.bc_pos
    have := w.mask_eq
    omega
  rcases r0 with _ | ⟨bq, vid⟩
  · refine ⟨false, m, ?_, w, hsp, hkd, fun _ => rfl, ?_, by simp⟩
    · unfold fm_erase
      dsimp only
      rw [hr]
    · rintro ⟨i, hi, hkey⟩
      exfalso
      have hmem : some i ∈ m.buckets := count_pos_iff_mem.1 (by
        rw [w.slot_count i hi]; omega)
      obtain ⟨t, htlen, ht⟩ := mem_exists_getD m.buckets (some i) none hmem
      have hpres := fm_erase_probe_present w hsp hkd hi
        (show t < m.bucket_mask + 1 by rw [hmasklen] at htlen; exact htlen) ht
      rw [hkey] at hpres
      rw [hpres] at hr
      exact EraseProbe.noConfusion (Option.some.inj hr)
  · obtain ⟨hfound, hkeyvid, hbqle⟩ :=
      fm_erase_probe_found m key _ _ _ bq vid (and_mask_le _ _) hr
    have hmemvid : some vid ∈ m.buckets := by
      rcases getD_mem_or m.buckets bq none with hm | hm
      · rw [hfound] at hm; exact hm
      · rw [hfound] at hm; exact Option.noConfusion hm
    have hvid : vid < m.keys.data.length := w.slot_valid vid hmemvid
    have hL1 : 1 ≤ m.keys.data.length := by omega
    have hone2 : cdist (m.bucket_mask + 1) ((bq + 1) &&& m.bucket_mask) bq = 1 := by
      rw [and_mask_eq_mod w.mask_pow,
        cdist_step (show bq < m.bucket_mask + 1 by omega)
          (show bq < m.bucket_mask + 1 by omega), cdist_self]
      show 1 % (m.bucket_mask + 1) = 1
      exact Nat.mod_eq_of_lt (by omega)
    by_cases hvl : vid ≠ m.keys.data.length - 1
    · -- swap-and-pop with a genuine move
      have hvlt : vid < m.keys.data.length - 1 := by omega
      have hreadlen : vid < m.hashes.data.length := by
        rw [w.len_hashes]; exact hvid
      have hread : (m.hashes.data.set vid
          (m.hashes.data.getD (m.keys.data.length - 1) 0)).getD vid 0 =
          m.hashes.data.getD (m.keys.data.length - 1) 0 :=
        getD_set_self _ _ _ _ hreadlen
      have hmemlast : some (m.keys.data.length - 1) ∈ m.buckets := by
        refine count_pos_iff_mem.1 ?_
        rw [w.slot_count (m.keys.data.length - 1) (by omega)]
        omega
      obtain ⟨ql, hqllen, hql⟩ := mem_exists_getD m.buckets
        (some (m.keys.data.length - 1)) none hmemlast
      have hposlt : ((m.hashes.data.getD (m.keys.data.length - 1) 0) &&& m.bucket_mask) <
          m.bucket_mask + 1 := Nat.lt_succ_of_le (and_mask_le _ _)
      obtain ⟨t, htlt, ht⟩ := cyc_dist_exists (n := m.bucket_mask + 1) hposlt
        (show ql < m.bucket_mask + 1 by omega)
      obtain ⟨b_u, hbu⟩ := fm_update_bucket_go_some m.buckets m.bucket_mask
        (m.keys.data.length - 1) vid w.mask_pow (m.bucket_mask + 2)
        ((m.hashes.data.getD (m.keys.data.length - 1) 0) &&& m.bucket_mask)
        hmasklen (and_mask_le _ _) ⟨t, by omega, by rw [ht]; exact hql⟩
      have hu_getD : b_u.getD bq none = some vid := by
        rw [fm_update_bucket_go_getD m.buckets m.bucket_mask _ _ _ _ _ hbu bq
          (by rw [hfound]; intro hc; simp only [Option.some.injEq] at hc; omega)]
        exact hfound
      obtain ⟨hu_cnt, hu_none⟩ := fm_update_bucket_go_count m.buckets m.bucket_mask
        (m.keys.data.length - 1) vid hmasklen (m.bucket_mask + 2) _ b_u (by omega) hbu
      have hu_len : b_u.length = m.buckets.length :=
        fm_update_bucket_go_length _ _ _ _ _ _ _ hbu
      obtain ⟨r, hrlt, hrslot2, hbueq⟩ :=
        fm_update_bucket_go_set m.buckets m.bucket_mask
          (m.keys.data.length - 1) vid _ _ _ hbu
      -- the intermediate full-length state
      obtain ⟨b2, hb2, hwf⟩ := fm_erase_tail_spec (p := { m with
          keys := { m.keys with
            data := m.keys.data.set vid (m.keys.data.getD (m.keys.data.length - 1) []) }
          values := { m.values with
            data := m.values.data.set vid (m.values.data.getD (m.keys.data.length - 1) []) }
          hashes := { m.hashes with
            data := m.hashes.data.set vid (m.hashes.data.getD (m.keys.data.length - 1) 0) }
          buckets := b_u }) bq vid
        w.bc_pow w.mask_eq (by dsimp only; have hme := w.mask_eq; omega)
        (by simp only [List.length_set]; exact w.len_vals)
        (by simp only [List.length_set]; exact w.len_hashes)
        (by
          intro x hx
          dsimp only at hx ⊢
          rcases List.mem_or_eq_of_mem_set hx with hx2 | hx2
          · exact w.key_len x hx2
          · rw [hx2]
            exact w.key_len _ (getD_mem _ _ _ (by omega)))
        (by
          intro x hx
          dsimp only at hx ⊢
          rcases List.mem_or_eq_of_mem_set hx with hx2 | hx2
          · exact w.val_len x hx2
          · rw [hx2]
            exact w.val_len _ (getD_mem _ _ _ (by rw [w.len_vals]; omega)))
        (by
          intro i hi
          simp only [List.length_set] at hi ⊢
          by_cases hiv : vid = i
          · subst hiv
            rw [getD_set_self _ _ _ _ hreadlen, getD_set_self _ _ _ _ hvid]
            exact w.hash_cache _ (by omega)
          · rw [getD_set_ne _ _ _ hiv, getD_set_ne _ _ _ hiv]
            exact w.hash_cache i hi)
        (by simp only [List.length_set]; have := w.load; omega)
        (by
          intro j
          simp only [List.length_set]
          have h1 := hu_cnt j
          have h2 := w.count_eq j
          split_ifs at h1 h2 ⊢ <;> omega)
        (by simp only [List.length_set]; have := w.empties; omega)
        (by dsimp only; exact hu_getD)
        hbqle (by simp only [List.length_set]; exact hvid)
        (by simp only [List.length_set]; exact hL1)
      -- the probe-path invariant of the result
      have hsp_ex : SlotPathExcept
          ((m.hashes.data.set vid
            (m.hashes.data.getD (m.keys.data.length - 1) 0)).dropLast)
          (m.bucket_mask + 1) b_u bq := by
        rw [hbueq]
        exact erase_weak_slotpath_move w hsp hfound hvid hvl hrlt hrslot2
      have hempB : 0 < b_u.count none := by
        rw [hu_none]
        exact w.empty_exists
      have hsp2 : SlotPath
          ((m.hashes.data.set vid
            (m.hashes.data.getD (m.keys.data.length - 1) 0)).dropLast)
          (m.bucket_mask + 1) b2 := by
        refine fm_backshift_go_slotpath _ m.bucket_mask m.bucket_count w.mask_pow
          w.mask_eq.symm hm1 (m.bucket_mask + 2) b_u bq ((bq + 1) &&& m.bucket_mask)
          b2 (by rw [hu_len, hmasklen]) (by omega)
          (Nat.lt_succ_of_le (and_mask_le _ _)) (by rw [hone2])
          (by rw [hu_getD]; exact Option.noConfusion) hsp_ex ?_ ?_ hb2
        · intro t0 i0 ht0 htb0 _ _
          rw [hone2]
          have h0 : cdist (m.bucket_mask + 1) t0 bq ≠ 0 := fun h0 =>
            htb0 ((cdist_eq_zero_iff hn ht0 (by omega)).mp h0)
          omega
        · obtain ⟨ep, heplen, hep⟩ := mem_exists_getD b_u none none
            (count_pos_iff_mem.1 hempB)
          have heplt : ep < m.bucket_mask + 1 := by
            rw [hu_len, hmasklen] at heplen
            exact heplen
          have hepbq : ep ≠ bq := by
            intro hEq
            rw [hEq, hu_getD] at hep
            exact Option.noConfusion hep
          refine ⟨cdist (m.bucket_mask + 1) ep ((bq + 1) &&& m.bucket_mask), ?_, ?_⟩
          · rw [cdist_recover heplt (Nat.lt_succ_of_le (and_mask_le _ _))]
            exact hep
          · rw [hone2]
            have hlt := cdist_lt hn ep ((bq + 1) &&& m.bucket_mask)
            rcases Nat.lt_or_ge (cdist (m.bucket_mask + 1) ep
                ((bq + 1) &&& m.bucket_mask)) m.bucket_mask with h2 | h2
            · omega
            · exfalso
              have hEq : cdist (m.bucket_mask + 1) ep ((bq + 1) &&& m.bucket_mask) =
                  m.bucket_mask := by omega
              have hrec := cdist_recover heplt
                (Nat.lt_succ_of_le (and_mask_le (bq + 1) m.bucket_mask))
              rw [hEq, and_mask_eq_mod w.mask_pow, Nat.mod_add_mod] at hrec
              have h3 : (bq + 1 + m.bucket_mask) % (m.bucket_mask + 1) = bq := by
                have h4 : bq + 1 + m.bucket_mask = bq + (m.bucket_mask + 1) := by omega
                rw [h4, Nat.add_mod_right]
                exact Nat.mod_eq_of_lt (by omega)
              rw [h3] at hrec
              exact hepbq hrec.symm
      -- reading the swapped dense vectors
      have hKset : ∀ j, j < m.keys.data.length - 1 →
          (m.keys.data.set vid
            (m.keys.data.getD (m.keys.data.length - 1) [])).dropLast.getD j [] =
          (if j = vid then m.keys.data.getD (m.keys.data.length - 1) []
            else m.keys.data.getD j []) := by
        intro j hj
        rw [getD_dropLast _ _ _ (by rw [List.length_set]; omega)]
        by_cases hjv : j = vid
        · rw [if_pos hjv, hjv, getD_set_self _ _ _ _ (by omega)]
        · rw [if_neg hjv, getD_set_ne _ _ _ (fun hEq => hjv hEq.symm)]
      have hVset : ∀ j, j < m.keys.data.length - 1 →
          (m.values.data.set vid
            (m.values.data.getD (m.keys.data.length - 1) [])).dropLast.getD j [] =
          (if j = vid then m.values.data.getD (m.keys.data.length - 1) []
            else m.values.data.getD j []) := by
        intro j hj
        rw [getD_dropLast _ _ _ (by rw [List.length_set, w.len_vals]; omega)]
        by_cases hjv : j = vid
        · rw [if_pos hjv, hjv, getD_set_self _ _ _ _ (by rw [w.len_vals]; omega)]
        · rw [if_neg hjv, getD_set_ne _ _ _ (fun hEq => hjv hEq.symm)]
      refine ⟨true, _, ?_, hwf, hsp2, ?_, by simp, fun _ => rfl, ?_⟩
      · unfold fm_erase
        dsimp only
        rw [hr]
        dsimp only
        rw [if_pos hvl]
        unfold fm_update_bucket_for_moved_item
        dsimp only
        rw [hread, hbu]
        simp only [Option.map_some', Option.some_bind]
        dsimp only at hb2 ⊢
        rw [hb2]
        rfl
      · intro i j hij hj
        dsimp only at hj ⊢
        rw [List.length_dropLast, List.length_set] at hj
        rw [hKset i (by omega), hKset j (by omega)]
        by_cases hiv : i = vid
        · by_cases hjv : j = vid
          · exact absurd (hiv.trans hjv.symm) (by omega)
          · rw [if_pos hiv, if_neg hjv]
            intro hc
            exact hkd j (m.keys.data.length - 1) (by omega) (by omega) hc.symm
        · by_cases hjv : j = vid
          · rw [if_neg hiv, if_pos hjv]
            exact hkd i (m.keys.data.length - 1) (by omega) (by omega)
          · rw [if_neg hiv, if_neg hjv]
            exact hkd i j hij (by omega)
      · intro _
        constructor
        · dsimp only
          rw [List.length_dropLast, List.length_set]
          omega
        · refine ⟨vid, hvid, hkeyvid, ?_⟩
          intro j0 hj0 hj0v
          by_cases hj0L : j0 = m.keys.data.length - 1
          · refine ⟨vid, ?_, ?_, ?_⟩
            · dsimp only
              rw [List.length_dropLast, List.length_set]
              omega
            · dsimp only
              rw [hKset vid hvlt, if_pos rfl, hj0L]
            · dsimp only
              rw [hVset vid hvlt, if_pos rfl, hj0L]
          · refine ⟨j0, ?_, ?_, ?_⟩
            · dsimp only
              rw [List.length_dropLast, List.length_set]
              omega
            · dsimp only
              rw [hKset j0 (by omega), if_neg hj0v]
            · dsimp only
              rw [hVset j0 (by omega), if_neg hj0v]
    · -- the erased entry is the last dense entry: no move needed
      have hveq : vid = m.keys.data.length - 1 := by omega
      have hfound2 : m.buckets.getD bq none = some (m.keys.data.length - 1) := by
        rw [← hveq]
        exact hfound
      obtain ⟨b2, hb2, hwf⟩ := fm_erase_tail_spec (p := m) bq vid
        w.bc_pow w.mask_eq w.buckets_len w.len_vals w.len_hashes w.key_len w.val_len
        w.hash_cache w.load
        (by
          intro j
          have h2 := w.count_eq j
          split_ifs at h2 ⊢ <;> omega)
        w.empties hfound hbqle hvid hL1
      have hsp_ex : SlotPathExcept m.hashes.data.dropLast (m.bucket_mask + 1)
          m.buckets bq := erase_weak_slotpath_last w hsp hfound2 hL1
      have hsp2 : SlotPath m.hashes.data.dropLast (m.bucket_mask + 1) b2 := by
        refine fm_backshift_go_slotpath _ m.bucket_mask m.bucket_count w.mask_pow
          w.mask_eq.symm hm1 (m.bucket_mask + 2) m.buckets bq
          ((bq + 1) &&& m.bucket_mask) b2 hmasklen (by omega)
          (Nat.lt_succ_of_le (and_mask_le _ _)) (by rw [hone2])
          (by rw [hfound]; exact Option.noConfusion) hsp_ex ?_ ?_ hb2
        · intro t0 i0 ht0 htb0 _ _
          rw [hone2]
          have h0 : cdist (m.bucket_mask + 1) t0 bq ≠ 0 := fun h0 =>
            htb0 ((cdist_eq_zero_iff hn ht0 (by omega)).mp h0)
          omega
        · obtain ⟨ep, heplen, hep⟩ := mem_exists_getD m.buckets none none
            (count_pos_iff_mem.1 w.empty_exists)
          have heplt : ep < m.bucket_mask + 1 := by
            rw [hmasklen] at heplen
            exact heplen
          have hepbq : ep ≠ bq := by
            intro hEq
            rw [hEq, hfound] at hep
            exact Option.noConfusion hep
          refine ⟨cdist (m.bucket_mask + 1) ep ((bq + 1) &&& m.bucket_mask), ?_, ?_⟩
          · rw [cdist_recover heplt (Nat.lt_succ_of_le (and_mask_le _ _))]
            exact hep
          · rw [hone2]
            have hlt := cdist_lt hn ep ((bq + 1) &&& m.bucket_mask)
            rcases Nat.lt_or_ge (cdist (m.bucket_mask + 1) ep
                ((bq + 1) &&& m.bucket_mask)) m.bucket_mask with h2 | h2
            · omega
            · exfalso
              have hEq : cdist (m.bucket_mask + 1) ep ((bq + 1) &&& m.bucket_mask) =
                  m.bucket_mask := by omega
              have hrec := cdist_recover heplt
                (Nat.lt_succ_of_le (and_mask_le (bq + 1) m.bucket_mask))
              rw [hEq, and_mask_eq_mod w.mask_pow, Nat.mod_add_mod] at hrec
              have h3 : (bq + 1 + m.bucket_mask) % (m.bucket_mask + 1) = bq := by
                have h4 : bq + 1 + m.bucket_mask = bq + (m.bucket_mask + 1) := by omega
                rw [h4, Nat.add_mod_right]
                exact Nat.mod_eq_of_lt (by omega)
              rw [h3] at hrec
              exact hepbq hrec.symm
      refine ⟨true, _, ?_, hwf, hsp2, ?_, by simp, fun _ => rfl, ?_⟩
      · unfold fm_erase
        dsimp only
        rw [hr]
        dsimp only
        rw [if_neg (not_not_intro hveq)]
        dsimp only [Option.some_bind]
        rw [hb2]
        rfl
      · intro i j hij hj
        dsimp only at hj ⊢
        rw [List.length_dropLast] at hj
        rw [getD_dropLast _ _ _ (by omega), getD_dropLast _ _ _ (by omega)]
        exact hkd i j hij (by omega)
      · intro _
        constructor
        · dsimp only
          rw [List.length_dropLast]
          omega
        · refine ⟨vid, hvid, hkeyvid, ?_⟩
          intro j0 hj0 hj0v
          have hj0L : j0 < m.keys.data.length - 1 := by omega
          refine ⟨j0, ?_, ?_, ?_⟩
          · dsimp only
            rw [List.length_dropLast]
            omega
          · dsimp only
            rw [getD_dropLast _ _ _ (by omega)]
          · dsimp only
            rw [getD_dropLast _ _ _ (by rw [w.len_vals]; omega)]

/-! ## The full invariant holds in every reachable state -/

/-- Every reachable map is well-formed, satisfies the Robin Hood
probe-path invariant, and stores pairwise distinct keys. -/
theorem inv_reachable {m : _FastMap} (h : Reachable m) :
    WF m ∧ SlotPath m.hashes.data (m.bucket_mask + 1) m.buckets ∧ KeysDistinct m := by
  induction h with
  | init ks vs =>
    refine ⟨wf_init ks vs, ?_, ?_⟩
    · exact slotpath_replicate _ _ _
    · intro i j hij hj
      simp [fm_init] at hj
  | put hre hk hv hput ih =>
    rename_i m0 m2 k v
    obtain ⟨w0, hsp0, hkd0⟩ := ih
    obtain ⟨m2x, heq, hwf, hsp2, hkd2⟩ := fm_put_full_spec w0 hsp0 hkd0 k v hk hv
    have hEq : m2x = m2 := by
      rw [hput] at heq
      exact (Option.some.inj heq).symm
    rw [← hEq]
    exact ⟨hwf, hsp2, hkd2⟩
  | erase hre hk herase ih =>
    rename_i m0 m2 k b
    obtain ⟨w0, hsp0, hkd0⟩ := ih
    obtain ⟨done, m2x, heq, hwf, hsp2, hkd2, _⟩ := fm_erase_full_spec w0 hsp0 hkd0 k
    have hEq : m2x = m2 := by
      rw [herase] at heq
      have h2 := Option.some.inj heq
      exact (congrArg Prod.snd h2).symm
    rw [← hEq]
    exact ⟨hwf, hsp2, hkd2⟩
  | resize hre hrs ih =>
    rename_i m0 m2
    obtain ⟨w0, hsp0, hkd0⟩ := ih
    obtain ⟨k0, hk0, hbc0⟩ := w0.bc_pow
    have hw2 : WF m2 := fm_resize_wf w0 (k := k0 + 1) (by omega)
      (by rw [hbc0]; ring) (by have := w0.load; omega) hrs
    have hsp2 := fm_resize_slotpath (m := m0) ⟨k0 + 1, by rw [hbc0]; ring⟩
      (by have := w0.len_lt_bc; omega) hrs
    obtain ⟨hkeys, _⟩ := fm_resize_frame hrs
    refine ⟨hw2, hsp2, ?_⟩
    intro i j hij hj
    rw [hkeys] at hj ⊢
    exact hkd0 i j hij hj

/-- C2: erasing a key stored at dense position `i` of a reachable map
returns `true`, decreases `length` (the dense key count) by exactly one,
and afterwards every other previously stored key is still retrievable by
`fm_get` with its unchanged value bytes; the repaired bucket index again
references exactly the live dense positions, each exactly once (the
bijection), and satisfies the Robin Hood probe-path monotonicity
invariant `SlotPath` — and the representation has no tombstones at all: a
bucket slot is either `none` (FM_EMPTY_IDX) or a live reference. -/
theorem erase_present_spec {m : _FastMap} (hre : Reachable m) {i : Nat}
    (hi : i < m.keys.data.length) :
    ∃ m2, fm_erase m (m.keys.data.getD i []) = some (true, m2) ∧
      m2.keys.data.length + 1 = m.keys.data.length ∧
      (∀ x : Nat, some x ∈ m2.buckets → x < m2.keys.data.length) ∧
      (∀ x : Nat, x < m2.keys.data.length → m2.buckets.count (some x) = 1) ∧
      SlotPath m2.hashes.data (m2.bucket_mask + 1) m2.buckets ∧
      ∀ j, j < m.keys.data.length → j ≠ i →
        fm_get m2 (m.keys.data.getD j []) = some (m.values.data.getD j []) := by
  obtain ⟨w, hsp, hkd⟩ := inv_reachable hre
  obtain ⟨done, m2, heq, hwf2, hsp2, hkd2, _, hpres, htrue⟩ :=
    fm_erase_full_spec w hsp hkd (m.keys.data.getD i [])
  have hdone : done = true := hpres ⟨i, hi, rfl⟩
  subst hdone
  obtain ⟨hlen, i0, hi0, hkey0, hpairs⟩ := htrue rfl
  have hii : i0 = i := by
    by_contra hne
    rcases Nat.lt_trichotomy i0 i with h3 | h3 | h3
    · exact hkd i0 i h3 hi hkey0
    · exact hne h3
    · exact hkd i i0 h3 hi0 hkey0.symm
  refine ⟨m2, heq, hlen, hwf2.slot_valid, hwf2.slot_count, hsp2, ?_⟩
  intro j hj hjne
  obtain ⟨j2, hj2, hkeq, hveq⟩ := hpairs j hj (by rw [hii]; exact hjne)
  rw [← hkeq, ← hveq]
  exact fm_get_present hwf2 hsp2 hkd2 hj2

theorem erase_present_spec_witness :
    0 < wmap1.keys.data.length ∧
    ∃ m2, fm_erase wmap1 (wmap1.keys.data.getD 0 []) = some (true, m2) ∧
      m2.keys.data.length + 1 = wmap1.keys.data.length ∧
      (∀ x : Nat, some x ∈ m2.buckets → x < m2.keys.data.length) ∧
      (∀ x : Nat, x < m2.keys.data.length → m2.buckets.count (some x) = 1) ∧
      SlotPath m2.hashes.data (m2.bucket_mask + 1) m2.buckets ∧
      ∀ j, j < wmap1.keys.data.length → j ≠ 0 →
        fm_get m2 (wmap1.keys.data.getD j []) = some (wmap1.values.data.getD j []) :=
  ⟨by decide, erase_present_spec reachable_wmap1 (by decide)⟩

/-- C3 fails as stated: a put of an already-present key is not free of
growth.  After thirteen inserts into a fresh map the load check
`13 ≥ 16 × 0.80` fires, so the very next put — even one whose key `[0]`
is already stored — doubles `bucket_count` from 16 to 32 and rebuilds the
bucket index before probing.  Length is still unchanged. -/
theorem put_existing_claim_counterexample :
    ∃ m m2 : _FastMap,
      putsFrom (fm_init 1 1) puts13 = some m ∧
      (∃ i, i < m.keys.data.length ∧ m.keys.data.getD i [] = [0]) ∧
      fm_put m [0] [9] = some m2 ∧
      m2.keys.data.length = m.keys.data.length ∧
      m2.bucket_count ≠ m.bucket_count := by
  refine ⟨(putsFrom (fm_init 1 1) puts13).getD (fm_init 1 1),
    (fm_put ((putsFrom (fm_init 1 1) puts13).getD (fm_init 1 1)) [0] [9]).getD
      (fm_init 1 1),
    by decide, ⟨0, by decide, by decide⟩, by decide, by decide, by decide⟩

/-- C3 (amended): putting a key already stored at dense position `i` of a
reachable map overwrites only that key's value, in place: the dense key
and hash vectors are unchanged, the value vector changes exactly at the
unchanged dense position `i`, and `length` is unchanged.  Provided the
pre-put load check does not fire (`5·length < 4·bucket_count`), there is
also no growth and no bucket-index change; if the check fires, the table
is resized (bucket index rebuilt at double capacity) before the probe
even though no entry is inserted. -/
theorem put_existing_key {m : _FastMap} (hre : Reachable m) {i : Nat}
    (hi : i < m.keys.data.length) (v : List Nat) :
    ∃ m2, fm_put m (m.keys.data.getD i []) v = some m2 ∧
      m2.keys.data = m.keys.data ∧
      m2.hashes.data = m.hashes.data ∧
      m2.values.data = m.values.data.set i v ∧
      (5 * m.keys.data.length < 4 * m.bucket_count →
        m2.buckets = m.buckets ∧ m2.bucket_count = m.bucket_count ∧
        m2.bucket_mask = m.bucket_mask) := by
  obtain ⟨w, hsp, hkd⟩ := inv_reachable hre
  by_cases hcond : 5 * m.keys.data.length ≥ 4 * m.bucket_count
  · obtain ⟨k, hk4, hbc⟩ := w.bc_pow
    have hpow : m.bucket_count * 2 = 2 ^ (k + 1) := by rw [hbc]; ring
    have hlenle : m.keys.data.length ≤ m.bucket_count * 2 := by
      have := w.len_lt_bc
      omega
    obtain ⟨m1, hm1⟩ := fm_resize_some m (m.bucket_count * 2) ⟨k + 1, hpow⟩ hlenle
    have hw1 : WF m1 := fm_resize_wf w (by omega) hpow (by have := w.load; omega) hm1
    have hsp1 := fm_resize_slotpath ⟨k + 1, hpow⟩ hlenle hm1
    obtain ⟨hkeys, hvals, hhashes, hks, hvs, hbc1, _, _⟩ := fm_resize_frame hm1
    have hkd1 : KeysDistinct m1 := by
      intro a b hab hb
      rw [hkeys] at hb ⊢
      exact hkd a b hab hb
    have hi1 : i < m1.keys.data.length := by rw [hkeys]; exact hi
    have hkeyeq : m1.keys.data.getD i [] = m.keys.data.getD i [] := by rw [hkeys]
    have hpr := fm_put_probe_present hw1 hsp1 hkd1 hi1
    rw [hkeyeq] at hpr
    refine ⟨{ m1 with values := { m1.values with data := m1.values.data.set i v } },
      ?_, ?_, ?_, ?_, ?_⟩
    · unfold fm_put
      rw [if_pos hcond, hm1, Option.some_bind]
      simp only
      rw [hpr]
    · dsimp only
      rw [hkeys]
    · dsimp only
      rw [hhashes]
    · dsimp only
      rw [hvals]
    · intro hc
      omega
  · have hpr := fm_put_probe_present w hsp hkd hi
    refine ⟨{ m with values := { m.values with data := m.values.data.set i v } },
      ?_, rfl, rfl, rfl, fun _ => ⟨rfl, rfl, rfl⟩⟩
    unfold fm_put
    rw [if_neg hcond, Option.some_bind]
    simp only
    rw [hpr]

theorem put_existing_key_witness :
    0 < wmap1.keys.data.length ∧
    ∃ m2, fm_put wmap1 (wmap1.keys.data.getD 0 []) [9] = some m2 ∧
      m2.keys.data = wmap1.keys.data ∧
      m2.hashes.data = wmap1.hashes.data ∧
      m2.values.data = wmap1.values.data.set 0 [9] ∧
      (5 * wmap1.keys.data.length < 4 * wmap1.bucket_count →
        m2.buckets = wmap1.buckets ∧ m2.bucket_count = wmap1.bucket_count ∧
        m2.bucket_mask = wmap1.bucket_mask) :=
  ⟨by decide, put_existing_key reachable_wmap1 (by decide) [9]⟩

end Fastmap
